import Mathlib

/-!
mgo-model: a shallow embedding of the document mapping layer

The Go sources (`document.go`, `query.go`, `populate.go`, `model.go`) work on
arbitrary record shapes through run-time reflection.  The embedding below keeps
that shape:

* `GoType` / `Val` stand for `reflect.Type` / `reflect.Value` (and for the
  dynamic content of an `interface{}`); the `reflect` operations the sources
  call are small functions on `Val` that return `none` where Go panics;
* Go maps are association lists (`mapGet` / `mapSet`); iteration follows list
  order, which is one of the orders Go may choose;
* a call either returns, panics, or runs out of steps (`Res`); Go `error`
  results are ordinary return values (`Option String`);
* the storage collaborator and the event hooks are parameters.
-/

namespace MgoModel

/-! ## Outcomes of a call -/

/-- Outcome of running a Go function: it returns `a`, the goroutine panics, or
the step budget of the model is exhausted (the call does not return). -/
inductive Res (α : Type) where
  | ret (a : α)
  | panic
  | diverge
  deriving Repr, DecidableEq

/-- Sequencing of outcomes. -/
def Res.bind {α β : Type} : Res α → (α → Res β) → Res β
  | .ret a, f => f a
  | .panic, _ => .panic
  | .diverge, _ => .diverge

instance : Monad Res where
  pure := Res.ret
  bind := Res.bind

/-- A `reflect` operation that panics is `none`. -/
def liftOpt {α : Type} : Option α → Res α
  | some a => .ret a
  | none => .panic

/-! ## Go maps as association lists -/

/-- Read `m[k]`. -/
def mapGet {α β : Type} [DecidableEq α] : List (α × β) → α → Option β
  | [], _ => none
  | (k', v) :: rest, k => if k' = k then some v else mapGet rest k

/-- Assign `m[k] = v`: replace the binding of `k`, or add one. -/
def mapSet {α β : Type} [DecidableEq α] : List (α × β) → α → β → List (α × β)
  | [], k, v => [(k, v)]
  | (k', v') :: rest, k, v =>
    if k' = k then (k, v) :: rest else (k', v') :: mapSet rest k v

/-! ## Types and values -/

/-- The `reflect.Kind`s the sources distinguish. -/
inductive Kind where
  | Invalid | Bool | Int | Int8 | Int16 | Int32 | Int64 | Uint | String
  | Ptr | Map | Slice | Struct | Interface
  deriving DecidableEq, Repr

/-- A `reflect.Type`.  Struct types are named; their fields live in a `TypeEnv`,
so a struct type may mention itself.  `namedString` covers defined string types
such as `QueryVariable` and `bson.ObjectId`. -/
inductive GoType where
  | invalid
  | bool | int | int8 | int16 | int32 | int64 | uint | string
  | namedString (n : String)
  | ptr (e : GoType)
  | slice (e : GoType)
  | map (k e : GoType)
  | struct (n : String)
  | iface
  deriving DecidableEq, Repr

/-- `Type.Kind()`. -/
def GoType.Kind : GoType → Kind
  | .invalid => .Invalid
  | .bool => .Bool
  | .int => .Int
  | .int8 => .Int8
  | .int16 => .Int16
  | .int32 => .Int32
  | .int64 => .Int64
  | .uint => .Uint
  | .string => .String
  | .namedString _ => .String
  | .ptr _ => .Ptr
  | .slice _ => .Slice
  | .map _ _ => .Map
  | .struct _ => .Struct
  | .iface => .Interface

/-- `Type.Elem()` of a pointer, slice or map type (Go panics on other kinds). -/
def GoType.Elem : GoType → Option GoType
  | .ptr e => some e
  | .slice e => some e
  | .map _ e => some e
  | _ => none

/-- `reflect.TypeOf(time.Time{})`. -/
def timeType : GoType := .struct "time.Time"

/-- A Go value as reflection sees it.  `nil` is the zero `reflect.Value`, which
is also `reflect.ValueOf` of a nil interface.  Pointers, slices and maps carry
the address `Value.Pointer()` reports (`0` when nil).  `iface v` is a location
of static type `interface{}` holding the dynamic value `v`. -/
inductive Val where
  | nil
  | bool (b : Bool)
  | int (t : GoType) (n : Int)
  | str (t : GoType) (s : String)
  | ptr (t : GoType) (addr : Nat) (elem : Val)
  | slice (t : GoType) (addr : Nat) (elems : List Val)
  | map (t : GoType) (addr : Nat) (keys : List Val) (vals : List Val)
  | struct (t : GoType) (fields : List Val)
  | iface (v : Val)
  deriving Repr

mutual
/-- Structural equality test on values. -/
def Val.beq : Val → Val → Bool
  | .nil, .nil => true
  | .bool a, .bool b => a == b
  | .int t n, .int t2 n2 => t == t2 && n == n2
  | .str t s, .str t2 s2 => t == t2 && s == s2
  | .ptr t a e, .ptr t2 a2 e2 => t == t2 && a == a2 && Val.beq e e2
  | .slice t a es, .slice t2 a2 es2 => t == t2 && a == a2 && Val.beqList es es2
  | .map t a ks vs, .map t2 a2 ks2 vs2 =>
    t == t2 && a == a2 && Val.beqList ks ks2 && Val.beqList vs vs2
  | .struct t fs, .struct t2 fs2 => t == t2 && Val.beqList fs fs2
  | .iface v, .iface v2 => Val.beq v v2
  | _, _ => false
/-- Structural equality test on lists of values. -/
def Val.beqList : List Val → List Val → Bool
  | [], [] => true
  | a :: as, b :: bs => Val.beq a b && Val.beqList as bs
  | _, _ => false
end

mutual
theorem Val.beq_sound : ∀ a b : Val, Val.beq a b = true → a = b
  | .nil, b => by cases b <;> simp [Val.beq]
  | .bool x, b => by cases b <;> simp [Val.beq]
  | .int t n, b => by cases b <;> simp [Val.beq]
  | .str t s, b => by cases b <;> simp [Val.beq]
  | .ptr t a e, b => by
    cases b <;> simp [Val.beq]
    rename_i t2 a2 e2
    intro h1 h2 h3
    exact ⟨h1, h2, Val.beq_sound e e2 h3⟩
  | .slice t a es, b => by
    cases b <;> simp [Val.beq]
    rename_i t2 a2 es2
    intro h1 h2 h3
    exact ⟨h1, h2, Val.beqList_sound es es2 h3⟩
  | .map t a ks vs, b => by
    cases b <;> simp [Val.beq]
    rename_i t2 a2 ks2 vs2
    intro h1 h2 h3 h4
    exact ⟨h1, h2, Val.beqList_sound ks ks2 h3, Val.beqList_sound vs vs2 h4⟩
  | .struct t fs, b => by
    cases b <;> simp [Val.beq]
    rename_i t2 fs2
    intro h1 h2
    exact ⟨h1, Val.beqList_sound fs fs2 h2⟩
  | .iface v, b => by
    cases b <;> simp [Val.beq]
    rename_i v2
    exact Val.beq_sound v v2
theorem Val.beqList_sound : ∀ a b : List Val, Val.beqList a b = true → a = b
  | [], b => by cases b <;> simp [Val.beqList]
  | x :: xs, b => by
    cases b <;> simp [Val.beqList]
    rename_i y ys
    intro h1 h2
    exact ⟨Val.beq_sound x y h1, Val.beqList_sound xs ys h2⟩
end

mutual
theorem Val.beq_refl : ∀ a : Val, Val.beq a a = true
  | .nil => by simp [Val.beq]
  | .bool x => by simp [Val.beq]
  | .int t n => by simp [Val.beq]
  | .str t s => by simp [Val.beq]
  | .ptr t a e => by simp [Val.beq, Val.beq_refl e]
  | .slice t a es => by simp [Val.beq, Val.beqList_refl es]
  | .map t a ks vs => by simp [Val.beq, Val.beqList_refl ks, Val.beqList_refl vs]
  | .struct t fs => by simp [Val.beq, Val.beqList_refl fs]
  | .iface v => by simp [Val.beq, Val.beq_refl v]
theorem Val.beqList_refl : ∀ a : List Val, Val.beqList a a = true
  | [] => by simp [Val.beqList]
  | x :: xs => by simp [Val.beqList, Val.beq_refl x, Val.beqList_refl xs]
end

instance : DecidableEq Val := fun a b =>
  if h : Val.beq a b = true then isTrue (Val.beq_sound a b h)
  else isFalse (fun e => h (e ▸ Val.beq_refl a))

/-! ## The `reflect` operations used by the sources -/

/-- `Value.IsValid()`. -/
def Val.IsValid : Val → Bool
  | .nil => false
  | _ => true

/-- The kind of an integer value of type `t` (plain `int` when `t` names no
other integer type). -/
def intKind : GoType → Kind
  | .int8 => .Int8
  | .int16 => .Int16
  | .int32 => .Int32
  | .int64 => .Int64
  | .uint => .Uint
  | _ => .Int

/-- `Value.Kind()`. -/
def Val.Kind : Val → Kind
  | .nil => .Invalid
  | .bool _ => .Bool
  | .int t _ => intKind t
  | .str _ _ => .String
  | .ptr _ _ _ => .Ptr
  | .slice _ _ _ => .Slice
  | .map _ _ _ _ => .Map
  | .struct _ _ => .Struct
  | .iface _ => .Interface

/-- `Value.Type()`; Go panics on the zero Value, the model answers `GoType.invalid`. -/
def Val.Typ : Val → GoType
  | .nil => .invalid
  | .bool _ => .bool
  | .int t _ => t
  | .str t _ => t
  | .ptr t _ _ => t
  | .slice t _ _ => t
  | .map t _ _ _ => t
  | .struct t _ => t
  | .iface _ => .iface

/-- `Value.Elem()`: the pointee of a pointer (the zero Value for a nil pointer)
or the content of an interface; Go panics on other kinds. -/
def Val.Elem : Val → Option Val
  | .ptr _ addr e => some (if addr = 0 then .nil else e)
  | .iface v => some v
  | _ => none

/-- `reflect.Indirect(v)`. -/
def Val.Indirect : Val → Val
  | .ptr _ addr e => if addr = 0 then .nil else e
  | v => v

/-- `Value.Field(i)`; Go panics when `v` is no struct or `i` is out of range. -/
def Val.Field : Val → Nat → Option Val
  | .struct _ fs, i => fs[i]?
  | _, _ => none

/-- `Value.Index(i)` of a slice. -/
def Val.Index : Val → Nat → Option Val
  | .slice _ _ es, i => es[i]?
  | _, _ => none

/-- `Value.Len()` of a slice, map or string. -/
def Val.Len : Val → Option Nat
  | .slice _ _ es => some es.length
  | .map _ _ ks _ => some ks.length
  | .str _ s => some s.utf8ByteSize
  | _ => none

/-- `Value.IsNil()` of a pointer, map, slice or interface. -/
def Val.IsNil : Val → Option Bool
  | .ptr _ addr _ => some (addr == 0)
  | .slice _ addr _ => some (addr == 0)
  | .map _ addr _ _ => some (addr == 0)
  | .iface v => some (!v.IsValid)
  | _ => none

/-- `Value.Pointer()` of a pointer, map or slice. -/
def Val.Pointer : Val → Option Nat
  | .ptr _ addr _ => some addr
  | .slice _ addr _ => some addr
  | .map _ addr _ _ => some addr
  | _ => none

/-- `Value.Int()` of a signed integer. -/
def Val.Int : Val → Option Int
  | .int _ n => some n
  | _ => none

/-- `Value.Interface()`: the value as an `interface{}`; the content of an
interface-kinded Value; Go panics on the zero Value. -/
def Val.Interface : Val → Option Val
  | .nil => none
  | .iface v => some v
  | v => some v

/-- Go assignability as far as the model needs it: identical types, or any
value into an `interface{}`. -/
def assignable (src dst : GoType) : Bool :=
  src == dst || dst == .iface

/-- Key type of a map type. -/
def GoType.Key : GoType → Option GoType
  | .map k _ => some k
  | _ => none

/-- Look a key up in the parallel key and value lists of a map. -/
def lookupKV (k : Val) : List Val → List Val → Option Val
  | k' :: ks, v :: vs => if k' = k then some v else lookupKV k ks vs
  | _, _ => none

/-- `Value.MapIndex(key)`: the zero Value when the key is absent; Go panics
when `v` is no map or the key is not assignable to the key type. -/
def Val.MapIndex : Val → Val → Option Val
  | .map t _ ks vs, key =>
    match t.Key with
    | some kt =>
      if assignable key.Typ kt then some ((lookupKV key ks vs).getD .nil) else none
    | none => none
  | _, _ => none

/-- `Value.MapKeys()`. -/
def Val.MapKeys : Val → Option (List Val)
  | .map _ _ ks _ => some ks
  | _ => none

/-! ## Struct types and their metadata (`document.go`) -/

/-- One declared field of a struct type: its name, the raw values of the
`json`, `bson` and `populate` keys of its tag (`field.Tag.Get(key)`, empty
when the key is absent) and its type. -/
structure StructField where
  Name : String
  JsonTag : String
  BsonTag : String
  PopulateTag : String
  Typ : GoType
  deriving Repr, DecidableEq

/-- The struct types of the program: struct name to declared fields. -/
abbrev TypeEnv := List (String × List StructField)

/-- `t.NumField()` / `t.Field(i)` of a struct type, in declaration order. -/
def TypeEnv.fieldsOf (env : TypeEnv) : GoType → List StructField
  | .struct n => (mapGet env n).getD []
  | _ => []

/-- Position of the first field called `name` (`t.FieldByName(name)`, direct
fields only). -/
def fieldIndexByName (name : String) : List StructField → Option Nat
  | [] => none
  | f :: rest =>
    if f.Name = name then some 0 else (fieldIndexByName name rest).map (· + 1)

/-- `DocumentStructField`; `DocumentStruct` is the map from field name to it.
The anonymous `Populate` struct is flattened into three fields. -/
inductive DocumentStructField where
  | mk (Index : Nat) (JSON : String) (JSONOmitempty : Bool) (BSON : String)
      (BSONOmitempty : Bool) (PopulateIndex : Nat) (PopulateName : String)
      (PopulateFind : String) (Children : List (String × DocumentStructField))
  deriving Repr

/-- `DocumentStruct`: field name to field metadata. -/
abbrev DocumentStruct := List (String × DocumentStructField)

/-- Field `Index`. -/
def DocumentStructField.Index : DocumentStructField → Nat
  | .mk i _ _ _ _ _ _ _ _ => i
/-- Field `JSON`. -/
def DocumentStructField.JSON : DocumentStructField → String
  | .mk _ j _ _ _ _ _ _ _ => j
/-- Field `JSONOmitempty`. -/
def DocumentStructField.JSONOmitempty : DocumentStructField → Bool
  | .mk _ _ jo _ _ _ _ _ _ => jo
/-- Field `BSON`. -/
def DocumentStructField.BSON : DocumentStructField → String
  | .mk _ _ _ b _ _ _ _ _ => b
/-- Field `BSONOmitempty`. -/
def DocumentStructField.BSONOmitempty : DocumentStructField → Bool
  | .mk _ _ _ _ bo _ _ _ _ => bo
/-- Field `Populate.Index`. -/
def DocumentStructField.PopulateIndex : DocumentStructField → Nat
  | .mk _ _ _ _ _ pi _ _ _ => pi
/-- Field `Populate.Name`. -/
def DocumentStructField.PopulateName : DocumentStructField → String
  | .mk _ _ _ _ _ _ pn _ _ => pn
/-- Field `Populate.Find`. -/
def DocumentStructField.PopulateFind : DocumentStructField → String
  | .mk _ _ _ _ _ _ _ pf _ => pf
/-- Field `Children` (a nil map is the empty list). -/
def DocumentStructField.Children : DocumentStructField → DocumentStruct
  | .mk _ _ _ _ _ _ _ _ c => c

/-- `strings.SplitN(s, ",", 2)` on the characters of `s`: the part before the
first comma and, when there is a comma, the part after it. -/
def splitComma : List Char → List Char × Option (List Char)
  | [] => ([], none)
  | c :: cs =>
    if c = ',' then ([], some cs)
    else ((c :: (splitComma cs).1), (splitComma cs).2)

/-- `strings.SplitN(tag, ",", 2)[0]`. -/
def tagHead (tag : String) : String := String.mk (splitComma tag.data).1

/-- `strings.SplitN(tag, ",", 2)[1]` when the split has two parts. -/
def tagRest (tag : String) : Option String := (splitComma tag.data).2.map String.mk

/-- The external name a `json` or `bson` tag gives a field: the field's own
name when the tag names none, none at all for `-`. -/
def externalName (tag fieldName : String) : String :=
  if tagHead tag = "" then fieldName
  else if tagHead tag = "-" then ""
  else tagHead tag

/-- The `populateName` the loop body of `DocumentStructParse` computes. -/
def populateNameOf (tag : String) : String :=
  let populateName := if tagHead tag = "-" then "" else tagHead tag
  let populateFind := (tagRest tag).getD ""
  if populateFind ≠ "" ∧ populateName = "" then "ID" else populateName

/-- The `populateFind` the loop body of `DocumentStructParse` computes. -/
def populateFindOf (tag : String) : String :=
  let populateFind := (tagRest tag).getD ""
  if populateNameOf tag ≠ "" ∧ populateFind = "" then "ID" else populateFind

/-- The process-wide `documentStructCache`: type to metadata. -/
abbrev Cache := List (GoType × DocumentStruct)

/-- Ceiling of the cache: `Set` panics (`log.Panicln`) past it. -/
def cacheCeiling : Nat := 10000

/-- `documentStructCache.Get`. -/
def Cache.Get (cache : Cache) (key : GoType) : Option DocumentStruct :=
  mapGet cache key

/-- `documentStructCache.Set`: store, then panic when more than 10000 types
are cached. -/
def Cache.Set (cache : Cache) (key : GoType) (value : DocumentStruct) : Res Cache :=
  let cache2 := mapSet cache key value
  if cache2.length > cacheCeiling then .panic else .ret cache2

/-- What `DocumentStructParse` returns, with the cache it leaves behind. -/
structure ParseRet where
  documentStruct : DocumentStruct
  err : Option String
  cache : Cache

/-- The element type `DocumentStructParse` looks at for children: one slice
layer and then one pointer layer stripped. -/
def childElem (t : GoType) : GoType :=
  let elem := match t with
    | .slice e => e
    | e => e
  match elem with
  | .ptr e => e
  | e => e

/-- The `for i := 0; i < t.NumField(); i++` loop of `DocumentStructParse`, over
the remaining fields with their indices.  `parse` is the recursive call. -/
def parseFields (parse : Cache → GoType → Res ParseRet) (tfields : List StructField) :
    List (Nat × StructField) → DocumentStruct → Cache → Res ParseRet
  | [], documentStruct, cache => .ret ⟨documentStruct, none, cache⟩
  | (i, field) :: rest, documentStruct, cache =>
    if field.Name = "DocumentBase" then
      parseFields parse tfields rest documentStruct cache
    else
      let jsonName := externalName field.JsonTag field.Name
      let bsonName := externalName field.BsonTag field.Name
      let populateName := populateNameOf field.PopulateTag
      let populateFind := populateFindOf field.PopulateTag
      if jsonName = "" ∧ bsonName = "" ∧ populateName = "" then
        parseFields parse tfields rest documentStruct cache
      else
        let jsonOmit := tagRest field.JsonTag = some "omitempty"
        let bsonOmit := tagRest field.BsonTag = some "omitempty"
        if populateName ≠ "" then
          let value : DocumentStructField :=
            match fieldIndexByName populateName tfields with
            | some idx =>
              .mk i jsonName jsonOmit bsonName bsonOmit idx populateName populateFind []
            | none => .mk i jsonName jsonOmit bsonName bsonOmit 0 "" "" []
          parseFields parse tfields rest (mapSet documentStruct field.Name value) cache
        else if bsonName ≠ "" ∧ (childElem field.Typ).Kind = .Struct
            ∧ childElem field.Typ ≠ timeType then
          match parse cache (childElem field.Typ) with
          | .ret r =>
            match r.err with
            | some e => .ret ⟨documentStruct, some e, r.cache⟩
            | none =>
              let value : DocumentStructField :=
                .mk i jsonName jsonOmit bsonName bsonOmit 0 "" "" r.documentStruct
              parseFields parse tfields rest (mapSet documentStruct field.Name value) r.cache
          | .panic => .panic
          | .diverge => .diverge
        else
          let value : DocumentStructField :=
            .mk i jsonName jsonOmit bsonName bsonOmit 0 "" "" []
          parseFields parse tfields rest (mapSet documentStruct field.Name value) cache

/-- Pair every element with its position. -/
def indexed {α : Type} (xs : List α) : List (Nat × α) :=
  (List.range xs.length).zip xs

/-- `DocumentStructParse(t)` against the cache `cache`.  The first argument
bounds the depth of nested calls; at depth zero the call has not returned. -/
def DocumentStructParse (env : TypeEnv) : Nat → Cache → GoType → Res ParseRet
  | 0, _, _ => .diverge
  | fuel + 1, cache, t0 =>
    let t := match t0 with
      | .ptr e => e
      | e => e
    if t.Kind ≠ .Struct then
      .ret ⟨[], some "Document not struct", cache⟩
    else
      match cache.Get t with
      | some documentStruct => .ret ⟨documentStruct, none, cache⟩
      | none =>
        match parseFields (DocumentStructParse env fuel) (env.fieldsOf t)
            (indexed (env.fieldsOf t)) [] cache with
        | .ret r =>
          match r.err with
          | some _ => .ret r
          | none =>
            match r.cache.Set t r.documentStruct with
            | .ret cache2 => .ret ⟨r.documentStruct, none, cache2⟩
            | .panic => .panic
            | .diverge => .diverge
        | .panic => .panic
        | .diverge => .diverge

/-! ## Filter documents and the query builder (`query.go`) -/

/-- The `interface{}` values that occur in filter documents:
`map[string]interface{}` (`msi`), `[]interface{}` (`list`), `[]string` (`strs`)
and every other Go value (`lit`; `lit .nil` is the nil interface). -/
inductive QValue where
  | lit (v : Val)
  | msi (m : List (String × QValue))
  | list (xs : List QValue)
  | strs (xs : List String)
  deriving Repr

/-- A `bson.M` / `map[string]interface{}` document. -/
abbrev Document := List (String × QValue)

/-- The defined string type `QueryVariable`. -/
def queryVariableType : GoType := .namedString "QueryVariable"

/-- The type-switch case `case QueryVariable`. -/
def QValue.isQueryVariable : QValue → Bool
  | .lit (.str t _) => t == queryVariableType
  | _ => false

/-- The type assertion `val.(string)`: `none` is the failed assertion, a panic. -/
def QValue.assertString : QValue → Option String
  | .lit (.str .string s) => some s
  | _ => none

/-- `reflect.TypeOf(val).Kind()`; `reflect.TypeOf(nil)` is the nil Type, and
calling `Kind` on it panics. -/
def QValue.typeKind : QValue → Option Kind
  | .lit .nil => none
  | .lit v => some v.Kind
  | .msi _ => some .Map
  | .list _ => some .Slice
  | .strs _ => some .Slice

/-- `strings.HasPrefix(s, "$")`. -/
def startsWithDollar (s : String) : Bool :=
  match s.data with
  | c :: _ => c == '$'
  | [] => false

/-- `QueryOptions`. -/
structure QueryOptions where
  Name : String := ""
  Fields : Document := []
  SortKeys : List String := []
  Skip : Int := 0
  Limit : Int := 0
  Hint : List String := []
  Trash : Int := 0
  deriving Repr

/-- One request to the storage collaborator's `find`. -/
structure Fetch where
  filter : Document
  options : QueryOptions
  deriving Repr

/-- The part of `ModelInterface` the modelled code calls: `DocumentStruct()`
(which panics when the model's document is no struct), the event hooks
(`DoEvent`, which may change the record it is given) and the collection
`DB(ctx)` with its `Find(...).All`, `Update` and `Insert`. -/
structure ModelInterface where
  Name : String
  DocumentStruct : Res DocumentStruct
  DoEvent : String → Val → Res (Option String × Val)
  dbFindAll : Fetch → Option String × List Val
  dbUpdate : Document → Document → Option String
  dbInsert : Val → Option String

/-- `Query`; `Expr` is its field `Query` (the recorded filter expression),
`Populate` the map from relation path to sub-query (`none` is the nil map).
`Context` and `GetFunc` play no part in the modelled code. -/
inductive Query where
  | mk (Model : ModelInterface) (Expr : Document)
      (Populate : Option (List (String × Query))) (Options : QueryOptions)

/-- `Populate`: relation path to sub-query. -/
abbrev Populate := List (String × Query)

/-- Field `Model`. -/
def Query.Model : Query → ModelInterface
  | .mk m _ _ _ => m
/-- Field `Query`, the recorded filter expression. -/
def Query.Expr : Query → Document
  | .mk _ q _ _ => q
/-- Field `Populate`. -/
def Query.Populate : Query → Option Populate
  | .mk _ _ p _ => p
/-- Field `Options`. -/
def Query.Options : Query → QueryOptions
  | .mk _ _ _ o => o

/-- Assignment to the field `Query`. -/
def Query.withExpr : Query → Document → Query
  | .mk m _ p o, q => .mk m q p o

/-- The operator switch of `Query.Name`; the cases with an empty body leave
the operator as it is. -/
def normalizeOperator (operator : String) : String :=
  match operator with
  | "" => operator
  | "=" => operator
  | "==" => "eq"
  | "!=" => "ne"
  | ">" => "gt"
  | ">=" => operator
  | "=>" => "gte"
  | "<" => "lt"
  | "<=" => operator
  | "=<" => "lte"
  | _ => operator

/-- The key under which `Query.Name` files a field name. -/
def storedName (name : String) : String :=
  if startsWithDollar name then "..invalid$" ++ name else name

/-- `Query.Name(name, operator, value)`. -/
def Query.Name (query : Query) (name operator : String) (value : QValue) : Query :=
  let name := storedName name
  let operator := normalizeOperator operator
  match mapGet query.Expr name with
  | some (.msi val) =>
    query.withExpr (mapSet query.Expr name (.msi (mapSet val operator value)))
  | _ => query.withExpr (mapSet query.Expr name (.msi [(operator, value)]))

/-- `Query.Eq`. -/
def Query.Eq (query : Query) (name : String) (value : QValue) : Query :=
  query.Name name "eq" value

/-- `Query.In`. -/
def Query.In (query : Query) (name : String) (value : QValue) : Query :=
  query.Name name "in" value

/-- `Query.Trash(trash)`. -/
def Query.Trash : Query → Int → Query
  | .mk m q p o, trash => .mk m q p { o with Trash := trash }

/-- Length 24 and only hexadecimal digits: `bson.IsObjectIdHex`. -/
def isObjectIdHex (s : String) : Bool :=
  s.data.length == 24 && s.data.all (fun c => c.isDigit || ('a' ≤ c && c ≤ 'f') || ('A' ≤ c && c ≤ 'F'))

/-- The type `bson.ObjectId`. -/
def objectIdType : GoType := .namedString "bson.ObjectId"

/-- `Query.ID(value)`; an object id is kept in its hexadecimal form. -/
def Query.ID (query : Query) (value : QValue) : Query :=
  let value1 : QValue := match value with
    | .lit .nil => .lit (.str .string "")
    | v => v
  let value2 : QValue := match value1 with
    | .lit (.str .string hex) =>
      if isObjectIdHex hex then .lit (.str objectIdType hex) else value1
    | v => v
  query.Name "_id" "eq" value2

/-- The storage layer's not-found error and the one it is normalised to. -/
def mgoErrNotFound : String := "mgo: not found"
/-- `ErrNotFound`. -/
def ErrNotFound : String := "not found"

/-- `mongoError`. -/
def mongoError (err : Option String) : Option String :=
  if err = some mgoErrNotFound then some ErrNotFound else err

/-- State of the compile loop of `Query.Map`: the document built so far and
the collected field-to-field expressions. -/
structure MapState where
  maps : Document
  expr : List Document

/-- The inner loop `for operator, val := range valueMap` of `Query.Map`;
`n` is `len(valueMap)`. -/
def mapOperators (name : String) (n : Nat) : List (String × QValue) → MapState → Res MapState
  | [], st => .ret st
  | (operator0, val) :: rest, st =>
    let operator := if !startsWithDollar operator0 then "$" ++ operator0 else operator0
    if val.isQueryVariable then
      match val.assertString with
      | some s =>
        mapOperators name n rest
          ⟨st.maps, st.expr ++ [[(operator, .strs ["$" ++ name, "$" ++ s])]]⟩
      | none => .panic
    else if operator = "$eq" ∧ n = 1 then
      match val.typeKind with
      | none => .panic
      | some k =>
        if k ≠ .Map then mapOperators name n rest ⟨mapSet st.maps name val, st.expr⟩
        else
          match mapGet st.maps name with
          | some (.msi smaps) =>
            mapOperators name n rest ⟨mapSet st.maps name (.msi (mapSet smaps operator val)), st.expr⟩
          | _ => mapOperators name n rest ⟨mapSet st.maps name (.msi [(operator, val)]), st.expr⟩
    else
      match mapGet st.maps name with
      | some (.msi smaps) =>
        mapOperators name n rest ⟨mapSet st.maps name (.msi (mapSet smaps operator val)), st.expr⟩
      | _ => mapOperators name n rest ⟨mapSet st.maps name (.msi [(operator, val)]), st.expr⟩

/-- The outer loop `for name, value := range query.Query` of `Query.Map`. -/
def mapEntries : List (String × QValue) → MapState → Res MapState
  | [], st => .ret st
  | (name, value) :: rest, st =>
    if startsWithDollar name then mapEntries rest ⟨mapSet st.maps name value, st.expr⟩
    else
      match value with
      | .msi valueMap =>
        match mapOperators name valueMap.length valueMap st with
        | .ret st2 => mapEntries rest st2
        | .panic => .panic
        | .diverge => .diverge
      | _ => mapEntries rest ⟨mapSet st.maps name value, st.expr⟩

/-- The `$expr` block of `Query.Map`.  In the branch without an `$and` list the
Go code stores the fresh map inside its own `$and` list; the model keeps the
map as it is when it is appended (empty). -/
def mapExpr (st : MapState) : Document :=
  if st.expr.length ≠ 0 then
    let mapexpr : Document := match mapGet st.maps "$expr" with
      | some (.msi m) => m
      | _ => []
    match mapGet mapexpr "$and" with
    | some (.list and) =>
      mapSet st.maps "$expr" (.msi (mapSet mapexpr "$and" (.list (and ++ st.expr.map .msi))))
    | _ =>
      mapSet st.maps "$expr" (.msi [("$and", .list [.msi []])])
  else st.maps

/-- One arm of the soft-delete block of `Query.Map`: `flag` is `true` for
`Trash > 0` and `false` for `Trash < 0`. -/
def mapTrash (documentStruct : DocumentStruct) (flag : Bool) (maps : Document) : Document :=
  match mapGet documentStruct "Deleted" with
  | some tag =>
    if tag.BSON ≠ "" then
      match mapGet maps tag.BSON with
      | some _ => maps
      | none => mapSet maps tag.BSON (.lit (.bool flag))
    else
      match mapGet documentStruct "DeletedAt" with
      | some tag2 =>
        if tag2.BSON ≠ "" then
          match mapGet maps tag2.BSON with
          | some _ => maps
          | none => mapSet maps tag2.BSON (.msi [("$exists", .lit (.bool flag))])
        else maps
      | none => maps
  | none =>
    match mapGet documentStruct "DeletedAt" with
    | some tag2 =>
      if tag2.BSON ≠ "" then
        match mapGet maps tag2.BSON with
        | some _ => maps
        | none => mapSet maps tag2.BSON (.msi [("$exists", .lit (.bool flag))])
      else maps
    | none => maps

/-- `Query.Map()`: the native filter document. -/
def Query.Map (query : Query) : Res Document :=
  match mapEntries query.Expr ⟨[], []⟩ with
  | .ret st =>
    let maps := mapExpr st
    if query.Options.Trash > 0 then
      match query.Model.DocumentStruct with
      | .ret documentStruct => .ret (mapTrash documentStruct true maps)
      | .panic => .panic
      | .diverge => .diverge
    else if query.Options.Trash < 0 then
      match query.Model.DocumentStruct with
      | .ret documentStruct => .ret (mapTrash documentStruct false maps)
      | .panic => .panic
      | .diverge => .diverge
    else .ret maps
  | .panic => .panic
  | .diverge => .diverge

/-- `Model.Query(ctx)`: a fresh query on the model. -/
def ModelInterface.Query (model : ModelInterface) : Query :=
  .mk model [] none { Name := model.Name }

/-- `Query.Update(update)`: the compiled filter and the update go to the
storage collaborator; the request is reported next to the error. -/
def Query.Update (query : Query) (update : Document) :
    Res (Option String × List (Document × Document)) :=
  match query.Map with
  | .ret filter => .ret (mongoError (query.Model.dbUpdate filter update), [(filter, update)])
  | .panic => .panic
  | .diverge => .diverge

/-! ## Change tracking and partial updates (`document.go`) -/

/-- `strings.Split(s, ".")` on the characters of `s`. -/
def splitDots : List Char → List (List Char)
  | [] => [[]]
  | c :: cs =>
    if c = '.' then [] :: splitDots cs
    else
      match splitDots cs with
      | [] => [[c]]
      | p :: ps => (c :: p) :: ps

/-- `strings.Split(path, ".")`. -/
def splitPath (path : String) : List String :=
  (splitDots path.data).map String.mk

/-- `Value.FieldByName(name)` (direct fields): the zero Value when the struct
has no such field; Go panics when `v` is no struct. -/
def Val.FieldByName (env : TypeEnv) (v : Val) (name : String) : Option Val :=
  match v with
  | .struct t fs =>
    match fieldIndexByName name (env.fieldsOf t) with
    | some i => some (fs[i]?.getD .nil)
    | none => some .nil
  | _ => none

/-- The element loop of the slice case of `ValueEqual`. -/
def allEqual (eq : Val → Val → Res Bool) : List Val → List Val → Res Bool
  | a :: as, b :: bs =>
    match eq a b with
    | .ret true => allEqual eq as bs
    | r => r
  | _, _ => .ret true

/-- `ValueEqual(path, v1, v2)`.  `DeepEqual` stands for `reflect.DeepEqual` on
the two interface values; the first argument bounds the depth of the walk. -/
def ValueEqual (env : TypeEnv) (DeepEqual : Val → Val → Bool) :
    Nat → List String → Val → Val → Res Bool
  | 0, _, _, _ => .diverge
  | fuel + 1, path, v1, v2 =>
    if !v1.IsValid || !v2.IsValid then .ret (v1.IsValid == v2.IsValid)
    else if v1.Kind ≠ v2.Kind then .ret false
    else if v1.Typ ≠ v2.Typ then .ret false
    else
      match v1.Kind with
      | .Ptr =>
        if v1.Pointer = v2.Pointer then .ret true
        else
          match v1.Elem, v2.Elem with
          | some e1, some e2 => ValueEqual env DeepEqual fuel path e1 e2
          | _, _ => .panic
      | .Map =>
        if v1.Pointer = v2.Pointer then .ret true
        else if v1.IsNil ≠ v2.IsNil then .ret false
        else if v1.Len ≠ v2.Len then .ret false
        else
          match path with
          | [] =>
            match v1.Interface, v2.Interface with
            | some i1, some i2 => .ret (DeepEqual i1 i2)
            | _, _ => .panic
          | p :: _ =>
            match v1.MapIndex (.str .string p), v2.MapIndex (.str .string p) with
            | some e1, some e2 => ValueEqual env DeepEqual fuel (path.take 1) e1 e2
            | _, _ => .panic
      | .Slice =>
        if v1.Pointer = v2.Pointer then .ret true
        else if v1.IsNil ≠ v2.IsNil then .ret false
        else if v1.Len ≠ v2.Len then .ret false
        else
          match path with
          | [] =>
            match v1.Interface, v2.Interface with
            | some i1, some i2 => .ret (DeepEqual i1 i2)
            | _, _ => .panic
          | _ :: _ =>
            match v1, v2 with
            | .slice _ _ es1, .slice _ _ es2 =>
              allEqual (ValueEqual env DeepEqual fuel path) es1 es2
            | _, _ => .panic
      | .Struct =>
        match path with
        | [] =>
          match v1.Interface, v2.Interface with
          | some i1, some i2 => .ret (DeepEqual i1 i2)
          | _, _ => .panic
        | p :: _ =>
          match v1.FieldByName env p, v2.FieldByName env p with
          | some f1, some f2 => ValueEqual env DeepEqual fuel (path.take 1) f1 f2
          | _, _ => .panic
      | _ =>
        match v1.Interface, v2.Interface with
        | some i1, some i2 => .ret (DeepEqual i1 i2)
        | _, _ => .panic

/-- `DocumentBase`: the record handle.  `Ref` and `Old` are the dynamic values
of the two interfaces (`none` is nil); `Context` plays no part. -/
structure DocumentBase where
  IsNew : Bool
  Model : ModelInterface
  Ref : Option Val
  Old : Option Val

/-- `reflect.Indirect(reflect.ValueOf(x))` of an interface `x`. -/
def indirectOf : Option Val → Val
  | some v => v.Indirect
  | none => .nil

/-- `DocumentBase.IsModified(path)`. -/
def DocumentBase.IsModified (env : TypeEnv) (DeepEqual : Val → Val → Bool) (fuel : Nat)
    (document : DocumentBase) (path : String) : Res Bool :=
  if document.Ref = none ∨ document.Old = none then .ret false
  else
    let names := if path ≠ "" then splitPath path else []
    match ValueEqual env DeepEqual fuel names (indirectOf document.Ref)
        (indirectOf document.Old) with
    | .ret b => .ret (!b)
    | .panic => .panic
    | .diverge => .diverge

/-- Address given to the snapshot copy; nothing compares it. -/
def snapshotAddr : Nat := 1

/-- `DocumentBase.ResetDocumentOld()`: `Old` becomes a pointer to a copy of the
live record. -/
def DocumentBase.ResetDocumentOld (document : DocumentBase) : DocumentBase :=
  match document.Ref with
  | none => { document with Old := none }
  | some ref =>
    { document with
      Old := some (.ptr (.ptr ref.Indirect.Typ) snapshotAddr ref.Indirect) }

/-- The signed integer kinds of the `case reflect.Int, ..., reflect.Int64`. -/
def isSignedIntKind : Kind → Bool
  | .Int | .Int8 | .Int16 | .Int32 | .Int64 => true
  | _ => false

/-- The `set` and `unset` maps built by `Update`. -/
structure Delta where
  set : Document
  unset : Document

/-- The loop `for _, sieldStruct := range documentStruct` of `Update`. -/
def updateDelta (DeepEqual : Val → Val → Bool) (documentv documentOldv : Val) :
    List (String × DocumentStructField) → Delta → Res Delta
  | [], d => .ret d
  | (_, sieldStruct) :: rest, d =>
    if sieldStruct.BSON = "" then updateDelta DeepEqual documentv documentOldv rest d
    else
      match documentv.Field sieldStruct.Index, documentOldv.Field sieldStruct.Index with
      | some v1, some v2 =>
        match v1.Interface, v2.Interface with
        | some i1, some i2 =>
          if DeepEqual i1 i2 then updateDelta DeepEqual documentv documentOldv rest d
          else
            let toUnset : Delta := ⟨d.set, mapSet d.unset sieldStruct.BSON (.lit (.str .string ""))⟩
            let toSet : Delta := ⟨mapSet d.set sieldStruct.BSON (.lit i1), d.unset⟩
            if v1.Kind = .Slice ∨ v1.Kind = .Map ∨ v1.Kind = .String then
              if sieldStruct.BSONOmitempty ∧ v1.Len = some 0 then
                updateDelta DeepEqual documentv documentOldv rest toUnset
              else updateDelta DeepEqual documentv documentOldv rest toSet
            else if isSignedIntKind v1.Kind then
              if sieldStruct.BSONOmitempty ∧ v1.Int = some 0 then
                updateDelta DeepEqual documentv documentOldv rest toUnset
              else updateDelta DeepEqual documentv documentOldv rest toSet
            else
              if sieldStruct.BSONOmitempty ∧ i1 = Val.nil then
                updateDelta DeepEqual documentv documentOldv rest toUnset
              else updateDelta DeepEqual documentv documentOldv rest toSet
        | _, _ => .panic
      | _, _ => .panic

/-- The `update := bson.M{}` document assembled from the two maps. -/
def updateDocument (d : Delta) : Document :=
  let update : Document := []
  let update := if d.set.length ≠ 0 then mapSet update "$set" (.msi d.set) else update
  if d.unset.length ≠ 0 then mapSet update "$unset" (.msi d.unset) else update

/-- What `Update` returns: the error, the handle afterwards and the storage
requests (filter, update) it issued. -/
structure UpdateRet where
  err : Option String
  document : DocumentBase
  requests : List (Document × Document)

/-- `DocumentBase.Update()`.  `parse` is `DocumentStructParse` against the
process-wide cache. -/
def DocumentBase.Update (env : TypeEnv) (DeepEqual : Val → Val → Bool)
    (parse : GoType → Res ParseRet) (document : DocumentBase) : Res UpdateRet :=
  if document.IsNew then .ret ⟨some "Document isNew=true", document, []⟩
  else
    match document.Ref with
    | none => .ret ⟨some "Document=nil", document, []⟩
    | some ref =>
      if !(ref.Indirect).IsValid then .panic
      else
        match parse ref.Indirect.Typ with
        | .ret pr =>
          match pr.err with
          | some e => .ret ⟨some e, document, []⟩
          | none =>
            match document.Model.DoEvent "save" ref with
            | .ret (some e, ref1) => .ret ⟨some e, { document with Ref := some ref1 }, []⟩
            | .ret (none, ref1) =>
              match document.Model.DoEvent "update" ref1 with
              | .ret (some e, ref2) => .ret ⟨some e, { document with Ref := some ref2 }, []⟩
              | .ret (none, ref2) =>
                let document2 := { document with Ref := some ref2 }
                let documentOldv := indirectOf document.Old
                match updateDelta DeepEqual ref2.Indirect documentOldv pr.documentStruct ⟨[], []⟩ with
                | .ret d =>
                  let update := updateDocument d
                  if update.length = 0 then .ret ⟨none, document2, []⟩
                  else
                    match (documentOldv.FieldByName env "ID").bind Val.Interface with
                    | none => .panic
                    | some id =>
                      match (document.Model.Query.ID (.lit id)).Update update with
                      | .ret (some e, reqs) => .ret ⟨some e, document2, reqs⟩
                      | .ret (none, reqs) => .ret ⟨none, document2.ResetDocumentOld, reqs⟩
                      | .panic => .panic
                      | .diverge => .diverge
                | .panic => .panic
                | .diverge => .diverge
              | .panic => .panic
              | .diverge => .diverge
            | .panic => .panic
            | .diverge => .diverge
        | .panic => .panic
        | .diverge => .diverge

/-! ## Locations inside the batch of root records (`populate.go`)

A `reflect.Value` that the populate engine keeps for a later write is modelled
by the path (`Loc`) that leads to it from the `documents` argument; reading and
writing go through `Val.read` and `Val.modifyAt`.  Two pointers to one object
are two subtrees here: sharing between records is not tracked. -/

/-- One step from a value to a part of it. -/
inductive Step where
  | elem
  | field (i : Nat)
  | index (i : Nat)
  | key (k : Val)
  deriving DecidableEq

/-- A path from the root value to one of its parts. -/
abbrev Loc := List Step

/-- The part of `v` one step away (`Elem`, `Field`, `Index`, `MapIndex`). -/
def Val.step (v : Val) : Step → Option Val
  | .elem => v.Elem
  | .field i => v.Field i
  | .index i => v.Index i
  | .key k => v.MapIndex k

/-- The value at a location; `none` when the path does not resolve. -/
def Val.read (root : Val) : Loc → Option Val
  | [] => some root
  | s :: rest => (root.step s).bind (fun c => c.read rest)

/-- Replace the value stored under `k` in parallel key and value lists. -/
def replaceKV (k c : Val) : List Val → List Val → Option (List Val)
  | k' :: ks, v :: vs =>
    if k' = k then some (c :: vs) else (replaceKV k c ks vs).map (v :: ·)
  | _, _ => none

/-- Put `c` in the place one step away from `v`. -/
def Val.setStep : Val → Step → Val → Option Val
  | .ptr t a _, .elem, c => if a = 0 then none else some (.ptr t a c)
  | .iface _, .elem, c => some (.iface c)
  | .struct t fs, .field i, c => if i < fs.length then some (.struct t (fs.set i c)) else none
  | .slice t a es, .index i, c => if i < es.length then some (.slice t a (es.set i c)) else none
  | .map t a ks vs, .key k, c => (replaceKV k c ks vs).map (fun vs2 => .map t a ks vs2)
  | _, _, _ => none

/-- Apply `f` to the value at a location and rebuild the root around it. -/
def Val.modifyAt (root : Val) : Loc → (Val → Option Val) → Option Val
  | [], f => f root
  | s :: rest, f =>
    match root.step s with
    | some c =>
      match c.modifyAt rest f with
      | some c2 => root.setStep s c2
      | none => none
    | none => none

/-- Wrap a value for storage in a location of element type `et`. -/
def wrapFor (et : GoType) (v : Val) : Val :=
  if et = .iface then .iface v else v

/-- `cur.Set(value)`: Go panics on the zero Value and on a value that is not
assignable to the type of `cur`. -/
def slotSet (value cur : Val) : Option Val :=
  if value.IsValid ∧ assignable value.Typ cur.Typ then some (wrapFor cur.Typ value) else none

/-- Set or add the binding of `k` in parallel key and value lists. -/
def putKV (k c : Val) : List Val → List Val → List Val × List Val
  | k' :: ks, v :: vs =>
    if k' = k then (k' :: ks, c :: vs)
    else ((k' :: (putKV k c ks vs).1), (v :: (putKV k c ks vs).2))
  | _, _ => ([k], [c])

/-- `cur.SetMapIndex(key, value)`: Go panics on a nil map ("assignment to entry
in nil map"), on the zero Value as key and on a key or element that is not
assignable.  (A zero `value` would delete the key; `reflectSet` never passes
one.) -/
def slotSetMapIndex (key value cur : Val) : Option Val :=
  match cur with
  | .map (.map kt et) a ks vs =>
    if a = 0 then none
    else if key.IsValid ∧ value.IsValid ∧ assignable key.Typ kt ∧ assignable value.Typ et then
      some (.map (.map kt et) a (putKV key (wrapFor et value) ks vs).1
        (putKV key (wrapFor et value) ks vs).2)
    else none
  | _ => none

/-- `cur.Set(reflect.Append(cur, value))`; the result of appending to a nil
slice is a slice that is not nil. -/
def slotAppend (value cur : Val) : Option Val :=
  match cur with
  | .slice (.slice et) a es =>
    if value.IsValid ∧ assignable value.Typ et then
      some (.slice (.slice et) (if a = 0 then 1 else a) (es ++ [wrapFor et value]))
    else none
  | _ => none

mutual
/-- Whether a value can be a key of a Go map (using a slice or a map as a key
is a run-time panic). -/
def Val.hashable : Val → Bool
  | .slice _ _ _ => false
  | .map _ _ _ _ => false
  | .struct _ fs => Val.hashableList fs
  | .iface v => Val.hashable v
  | _ => true
/-- All values of a list can be keys. -/
def Val.hashableList : List Val → Bool
  | [] => true
  | v :: vs => Val.hashable v && Val.hashableList vs
end

/-- `reflectValue`: a pending slot, the key it was found under (for a mapping
of ids) and the destination location.  The field `parent` is never used. -/
structure reflectValue where
  key : Val
  value : Loc
  deriving DecidableEq

/-- `reflectPath`: one segment of the lookup path in the fetched records. -/
structure reflectPath where
  key : Val
  index : Nat
  deriving DecidableEq

/-- The pending-slot map `map[interface{}][]reflectValue`. -/
abbrev PendingMap := List (Val × List reflectValue)

/-- `reflectValueEmpty`. -/
def reflectValueEmpty (value : Val) : Bool :=
  if !value.IsValid then true
  else
    match value.Kind with
    | .Ptr | .Map | .Slice => (value.IsNil).getD true
    | .String =>
      match value with
      | .str _ s => s == ""
      | _ => true
    | .Int | .Int8 | .Int16 | .Int32 | .Int64 => (value.Int).getD 0 == 0
    | _ => true

/-- `maps[id] = append(maps[id], slot)`. -/
def pendingAdd (maps : PendingMap) (id : Val) (slot : reflectValue) : Res PendingMap :=
  if id.hashable then .ret (mapSet maps id ((mapGet maps id).getD [] ++ [slot]))
  else .panic

/-- Result of `reflectFind`, with the pending-slot map it leaves behind. -/
structure FindRet where
  findPath : String
  err : Option String
  maps : PendingMap
  deriving DecidableEq

/-- The loops over the ids of a mapping or a sequence of ids at the terminal
hop of `reflectFind`: every non-empty id gets a slot at `field`. -/
def addIds (field : Loc) : List (Val × Val) → PendingMap → Res PendingMap
  | [], maps => .ret maps
  | (key, val) :: rest, maps =>
    if !reflectValueEmpty val then
      match val.Interface with
      | some id =>
        match pendingAdd maps id ⟨key, field⟩ with
        | .ret maps2 => addIds field rest maps2
        | .panic => .panic
        | .diverge => .diverge
      | none => .panic
    else addIds field rest maps

/-- The loops over the elements of a mapping or sequence at a non-terminal hop
of `reflectFind`: `f` is the recursive call; the first error ends the loop. -/
def findLoop (f : PendingMap → Val → Loc → Res FindRet) :
    List (Val × Loc) → FindRet → Res FindRet
  | [], acc => .ret acc
  | (v, l) :: rest, acc =>
    match f acc.maps v l with
    | .ret r => if r.err.isSome then .ret r else findLoop f rest r
    | .panic => .panic
    | .diverge => .diverge

/-- The values of a list with the locations `base ++ [index i]`. -/
def withIndexLocs (base : Loc) (es : List Val) : List (Val × Loc) :=
  (indexed es).map (fun p => (p.2, base ++ [Step.index p.1]))

/-- The values of a map with the locations `base ++ [key k]`. -/
def withKeyLocs (base : Loc) (ks vs : List Val) : List (Val × Loc) :=
  (ks.zip vs).map (fun p => (p.2, base ++ [Step.key p.1]))

/-- `reflectFind(maps, path, value, valueStruct)`; `loc0` is where `value0`
sits in the batch. -/
def reflectFind : PendingMap → List String → Val → Loc → DocumentStruct → Res FindRet
  | _, [], _, _, _ => .panic
  | maps, name :: fieldPath, value0, loc0, valueStruct =>
    match (if value0.Kind = .Ptr then value0.Elem else some value0) with
    | none => .panic
    | some value =>
      let loc := if value0.Kind = .Ptr then loc0 ++ [Step.elem] else loc0
      if !value.IsValid then .ret ⟨"", none, maps⟩
      else if value.Kind ≠ .Struct then .ret ⟨"", some "populate: path not struct", maps⟩
      else
        match mapGet valueStruct name with
        | none => .ret ⟨"", some "populate: path not found", maps⟩
        | some fieldStruct =>
          match value.Field fieldStruct.Index with
          | none => .panic
          | some field =>
            let fieldLoc := loc ++ [Step.field fieldStruct.Index]
            match fieldPath with
            | _ :: _ =>
              match field with
              | .map _ _ ks vs =>
                findLoop (fun m v l => reflectFind m fieldPath v l fieldStruct.Children)
                  (withKeyLocs fieldLoc ks vs) ⟨"", none, maps⟩
              | .slice _ _ es =>
                findLoop (fun m v l => reflectFind m fieldPath v l fieldStruct.Children)
                  (withIndexLocs fieldLoc es) ⟨"", none, maps⟩
              | _ => reflectFind maps fieldPath field fieldLoc fieldStruct.Children
            | [] =>
              if fieldStruct.PopulateName = "" then
                .ret ⟨"", some "populate: path tag is empty", maps⟩
              else
                let findPath := fieldStruct.PopulateFind
                match value.Field fieldStruct.PopulateIndex with
                | none => .panic
                | some idValue =>
                  if reflectValueEmpty idValue then .ret ⟨findPath, none, maps⟩
                  else
                    match idValue with
                    | .map _ _ ks vs =>
                      match addIds fieldLoc (ks.zip vs) maps with
                      | .ret maps2 => .ret ⟨findPath, none, maps2⟩
                      | .panic => .panic
                      | .diverge => .diverge
                    | .slice _ _ es =>
                      match addIds fieldLoc (es.map (fun e => (Val.nil, e))) maps with
                      | .ret maps2 => .ret ⟨findPath, none, maps2⟩
                      | .panic => .panic
                      | .diverge => .diverge
                    | _ =>
                      match idValue.Interface with
                      | some id =>
                        match pendingAdd maps id ⟨.nil, fieldLoc⟩ with
                        | .ret maps2 => .ret ⟨findPath, none, maps2⟩
                        | .panic => .panic
                        | .diverge => .diverge
                      | none => .panic

/-- A result together with the requests sent to the storage collaborator on
the way: `fetches` by the call itself, `nested` by the populate calls of
sub-queries.  The requests stay on record when the call panics later. -/
structure Traced (α : Type) where
  fetches : List Fetch
  nested : List Fetch
  out : Res α

/-- What the populate functions return: the error and the batch afterwards. -/
structure PopRet where
  err : Option String
  root : Val
  deriving DecidableEq

/-- The write `reflectSet` performs on one pending slot, by the kind of the
value the slot holds. -/
def writeSlot (value : Val) (root : Val) (findValue : reflectValue) : Option Val :=
  match root.read findValue.value with
  | none => none
  | some cur =>
    match cur.Kind with
    | .Ptr => root.modifyAt findValue.value (slotSet value)
    | .Map => root.modifyAt findValue.value (slotSetMapIndex findValue.key value)
    | .Slice => root.modifyAt findValue.value (slotAppend value)
    | _ => root.modifyAt findValue.value (slotSet value)

/-- The loop `for _, findValue := range findValues` of `reflectSet`. -/
def writeSlots (value : Val) : List reflectValue → Val → Option Val
  | [], root => some root
  | findValue :: rest, root =>
    match writeSlot value root findValue with
    | some root2 => writeSlots value rest root2
    | none => none

/-- The loop `for _, id := range ids` of `reflectSet`: the batch afterwards
and the counter `inc`. -/
def writeIds (findValueMap : PendingMap) (value : Val) :
    List Val → Val → Nat → Res (Val × Nat)
  | [], root, inc => .ret (root, inc)
  | id :: rest, root, inc =>
    if !id.hashable then .panic
    else
      match mapGet findValueMap id with
      | some findValues =>
        match writeSlots value findValues root with
        | some root2 => writeIds findValueMap value rest root2 (inc + 1)
        | none => .panic
      | none => writeIds findValueMap value rest root inc

/-- `field.Index(i).Interface()` for `i` below `n`. -/
def indexInterfaces (field : Val) (n : Nat) : Option (List Val) :=
  (List.range n).mapM (fun i => (field.Index i).bind Val.Interface)

/-- The element loop of the slice case of `reflectSet`. -/
def setLoop (f : Val → Val → Res PopRet) : List Val → Val → Res PopRet
  | [], root => .ret ⟨none, root⟩
  | e :: rest, root =>
    match f root e with
    | .ret r => if r.err.isSome then .ret r else setLoop f rest r.root
    | .panic => .panic
    | .diverge => .diverge

/-- `reflectSet(value, field, fieldPath, findValueMap)` on the batch `root`.
The first argument bounds the depth of nested calls. -/
def reflectSet (findValueMap : PendingMap) (value : Val) :
    Nat → Val → Val → List reflectPath → Res PopRet
  | 0, _, _, _ => .diverge
  | fuel + 1, root, field0, fieldPath =>
    match (if field0.Kind = .Ptr then value.Elem else some field0) with
    | none => .panic
    | some field =>
      match fieldPath with
      | [] => .panic
      | path :: p2 :: rest =>
        match field with
        | .slice _ _ es =>
          setLoop (fun r e => reflectSet findValueMap value fuel r e fieldPath) es root
        | .map _ _ _ _ =>
          match field.MapIndex path.key with
          | none => .panic
          | some f =>
            if !f.IsValid then .ret ⟨some "populate not key", root⟩
            else reflectSet findValueMap value fuel root f (p2 :: rest)
        | .struct _ _ =>
          match field.Field path.index with
          | none => .panic
          | some f =>
            if !f.IsValid then .ret ⟨some "populate not key", root⟩
            else reflectSet findValueMap value fuel root f (p2 :: rest)
        | _ => .ret ⟨some "populate not key", root⟩
      | [path] =>
        let idv0 : Option (Option Val) :=
          match field with
          | .map _ _ _ _ => some (field.MapIndex path.key)
          | .struct _ _ => some (field.Field path.index)
          | _ => none
        match idv0 with
        | none => .ret ⟨some "populate not struct, map", root⟩
        | some none => .panic
        | some (some idv1) =>
          let err : Option String := if !idv1.IsValid then some "populate not key" else none
          match (if idv1.Kind = .Ptr then idv1.Elem else some idv1) with
          | none => .panic
          | some idv =>
            let ids : Option (List Val) :=
              if idv.Kind = .Slice then (field.Len).bind (indexInterfaces field)
              else (idv.Interface).map (fun id => [id])
            match ids with
            | none => .panic
            | some ids =>
              match writeIds findValueMap value ids root 0 with
              | .ret (root2, inc) =>
                if inc = 0 then .ret ⟨some "populate id not exists", root2⟩
                else .ret ⟨err, root2⟩
              | .panic => .panic
              | .diverge => .diverge

/-- `strings.Join(names, ".")`. -/
def joinDots : List String → String
  | [] => ""
  | [a] => a
  | a :: b :: rest => a ++ "." ++ joinDots (b :: rest)

/-- The documents of a fetch stored through the pointer `documents`, as
`All(documents)` of the storage layer does. -/
def storeDocuments (documents : Val) (docs : List Val) : Option Val :=
  match documents with
  | .ptr t a (.slice (.slice et) sa _) =>
    if a = 0 then none
    else some (.ptr t a (.slice (.slice et) (if sa = 0 then 1 else sa) (docs.map (wrapFor et))))
  | _ => none

/-- `Query.All(documents)`; `popAll` is `Populate.All`. -/
def Query.All (popAll : MgoModel.Populate → Val → Traced PopRet) (query : Query)
    (documents : Val) :
    Traced PopRet :=
  match query.Map with
  | .panic => ⟨[], [], .panic⟩
  | .diverge => ⟨[], [], .diverge⟩
  | .ret filter =>
    let fetch : Fetch := ⟨filter, query.Options⟩
    match query.Model.dbFindAll fetch with
    | (some e, _) => ⟨[fetch], [], .ret ⟨mongoError (some e), documents⟩⟩
    | (none, docs) =>
      match storeDocuments documents docs with
      | none => ⟨[fetch], [], .panic⟩
      | some documents2 =>
        match query.Populate with
        | some populate =>
          let r := popAll populate documents2
          ⟨[fetch], r.fetches ++ r.nested, r.out⟩
        | none => ⟨[fetch], [], .ret ⟨none, documents2⟩⟩

/-- The candidate slots of one id in the scan of `reflectPopulate`: whether the
id is skipped, and the existing values collected. -/
def scanValues (root : Val) (sliceTyp : GoType) : List reflectValue → List Val →
    Option (Bool × List Val)
  | [], existsValue => some (false, existsValue)
  | value :: rest, existsValue =>
    match root.read value.value with
    | none => none
    | some cur =>
      if reflectValueEmpty cur then scanValues root sliceTyp rest existsValue
      else if cur.Typ = sliceTyp then some (true, existsValue ++ [cur])
      else
        match cur with
        | .slice t _ es =>
          if t.Elem = some sliceTyp then scanValues root sliceTyp rest (existsValue ++ es)
          else scanValues root sliceTyp rest existsValue
        | _ => scanValues root sliceTyp rest existsValue

/-- The loop `for key, values := range findValueMap` of `reflectPopulate`:
the existing values and the ids still to fetch. -/
def scanMap (root : Val) (sliceTyp : GoType) : PendingMap → List Val → List Val →
    Option (List Val × List Val)
  | [], existsValue, findValue => some (existsValue, findValue)
  | (key, values) :: rest, existsValue, findValue =>
    match scanValues root sliceTyp values existsValue with
    | none => none
    | some (true, ev) => scanMap root sliceTyp rest ev findValue
    | some (false, ev) => scanMap root sliceTyp rest ev (findValue ++ [key])

/-- The element type `sliceTyp` of `reflectPopulate`: the type of the first
slot, one slice layer stripped. -/
def sliceTypOf (root : Val) (findValueMap : PendingMap) : Option GoType :=
  match findValueMap with
  | (_, value :: _) :: _ =>
    match root.read value.value with
    | some cur =>
      match cur.Typ with
      | .slice e => some e
      | t => some t
    | none => none
  | _ => none

/-- The loop `for i, key := range findPath` of `reflectPopulate`: the path in
storage names and the reflect path, or the "Path not found" error. -/
def mapFindPath : List String → DocumentStruct → List String → List reflectPath →
    Option String × List String × List reflectPath
  | [], _, names, rpath => (none, names, rpath)
  | key :: rest, documentStruct, names, rpath =>
    match mapGet documentStruct key with
    | none => (some "Path not found", names ++ key :: rest, rpath)
    | some field =>
      let key2 := if field.BSON ≠ "" then field.BSON
        else if field.JSON ≠ "" then field.JSON else key
      mapFindPath rest field.Children (names ++ [key2])
        (rpath ++ [⟨.str .string key2, field.Index⟩])

/-- Whether `reflectPopulate` consults the metadata of the element type. -/
def isStructLike (sliceTyp : GoType) : Bool :=
  sliceTyp.Kind == .Struct ||
    (sliceTyp.Kind == .Ptr && (sliceTyp.Elem.map GoType.Kind) == some .Struct)

/-- The block of `reflectPopulate` that turns the lookup path into storage
names and a reflect path: through the metadata of the element type when that
is a struct or a pointer to one, segment by segment otherwise. -/
def mapLookupPath (parse : GoType → Res ParseRet) (sliceTyp : GoType)
    (findPath : List String) : Res (Option String × List String × List reflectPath) :=
  if isStructLike sliceTyp then
    match parse sliceTyp with
    | .ret pr =>
      match pr.err with
      | some e => .ret (some e, findPath, [])
      | none => .ret (mapFindPath findPath pr.documentStruct [] [])
    | .panic => .panic
    | .diverge => .diverge
  else .ret (none, findPath, findPath.map (fun val => ⟨.str .string val, 0⟩))

/-- The hydration loop `for i := 0; i < sliceVal.Len(); i++` of
`reflectPopulate`. -/
def hydrate (fuel : Nat) (findValueMap : PendingMap) (findReflectPath : List reflectPath) :
    List Val → Val → Res PopRet
  | [], root => .ret ⟨none, root⟩
  | field :: rest, root =>
    match reflectSet findValueMap field fuel root field findReflectPath with
    | .ret r => if r.err.isSome then .ret r else hydrate fuel findValueMap findReflectPath rest r.root
    | .panic => .panic
    | .diverge => .diverge

/-- The elements of the slice behind the pointer `documents`. -/
def fetchedElems (documents : Val) : Option (List Val) :=
  match documents with
  | .ptr _ _ (.slice _ _ es) => some es
  | _ => none

/-- `reflectPopulate(findPath, findValueMap, query)` on the batch `root`.
`parse` is `DocumentStructParse` against the process-wide cache, `popAll` is
`Populate.All`, `fuel` bounds the depth of `reflectSet`.  What the nested
populate call writes into values that already exist reaches the batch only
through shared pointers, which the model does not track; the error of the
fetch (`All`) is not looked at, as in the source. -/
def reflectPopulate (parse : GoType → Res ParseRet)
    (popAll : Populate → Val → Traced PopRet) (fuel : Nat) (root : Val)
    (findPath : List String) (findValueMap : PendingMap) (query : Query) : Traced PopRet :=
  match sliceTypOf root findValueMap with
  | none => ⟨[], [], .panic⟩
  | some sliceTyp =>
    match scanMap root sliceTyp findValueMap [] [] with
    | none => ⟨[], [], .panic⟩
    | some (existsValue, findValue) =>
      if existsValue.length ≠ 0 then
        match query.Populate with
        | some populate =>
          let r := popAll populate
            (.ptr (.ptr (.slice sliceTyp)) 1 (.slice (.slice sliceTyp) 1 existsValue))
          match r.out with
          | .ret _ => ⟨[], r.fetches ++ r.nested, .ret ⟨none, root⟩⟩
          | .panic => ⟨[], r.fetches ++ r.nested, .panic⟩
          | .diverge => ⟨[], r.fetches ++ r.nested, .diverge⟩
        | none => ⟨[], [], .ret ⟨none, root⟩⟩
      else if findValue.length = 0 then ⟨[], [], .ret ⟨none, root⟩⟩
      else
        match mapLookupPath parse sliceTyp findPath with
        | .panic => ⟨[], [], .panic⟩
        | .diverge => ⟨[], [], .diverge⟩
        | .ret (some e, _, _) => ⟨[], [], .ret ⟨some e, root⟩⟩
        | .ret (none, findPath2, findReflectPath) =>
          let slicePtr : Val := .ptr (.ptr (.slice sliceTyp)) 1 (.slice (.slice sliceTyp) 1 [])
          let r := (query.In (joinDots findPath2) (.list (findValue.map .lit))).All popAll slicePtr
          match r.out with
          | .panic => ⟨r.fetches, r.nested, .panic⟩
          | .diverge => ⟨r.fetches, r.nested, .diverge⟩
          | .ret fetched =>
            match fetchedElems fetched.root with
            | none => ⟨r.fetches, r.nested, .panic⟩
            | some es => ⟨r.fetches, r.nested, hydrate fuel findValueMap findReflectPath es root⟩

/-- The walk of `Populate.All` over the root records for one path: the loop
`for i := 0; i < slicev.Len(); i++` around `reflectFind`. -/
def walkDocuments (names : List String) (documentStruct : DocumentStruct) :
    List (Val × Loc) → FindRet → Res FindRet
  | [], acc => .ret acc
  | (documentV0, loc0) :: rest, acc =>
    match (if documentV0.Kind = .Interface then documentV0.Elem else some documentV0) with
    | none => .panic
    | some documentV =>
      let loc := if documentV0.Kind = .Interface then loc0 ++ [Step.elem] else loc0
      match reflectFind acc.maps names documentV loc documentStruct with
      | .ret r => if r.err.isSome then .ret r else walkDocuments names documentStruct rest r
      | .panic => .panic
      | .diverge => .diverge

/-- The loop `for path, query := range populate` of `Populate.All` together
with the collection of the results: the paths are resolved one after the
other, and the first error in that order is the one reported. -/
def populatePaths (parse : GoType → Res ParseRet)
    (popAll : Populate → Val → Traced PopRet) (fuel : Nat)
    (documentStruct : DocumentStruct) (sliceLoc : Loc) :
    List (String × Query) → Val → Option String → Traced PopRet
  | [], root, err => ⟨[], [], .ret ⟨err, root⟩⟩
  | (path, query) :: rest, root, err =>
    match (root.read sliceLoc) with
    | some (.slice _ _ es) =>
      match walkDocuments (splitPath path) documentStruct (withIndexLocs sliceLoc es)
          ⟨"", none, []⟩ with
      | .panic => ⟨[], [], .panic⟩
      | .diverge => ⟨[], [], .diverge⟩
      | .ret found =>
        match found.err with
        | some e => ⟨[], [], .ret ⟨some e, root⟩⟩
        | none =>
          if found.maps.length ≠ 0 then
            let names := if found.findPath ≠ "" then splitPath found.findPath else []
            let r := reflectPopulate parse popAll fuel root names found.maps query
            match r.out with
            | .ret pr =>
              let t := populatePaths parse popAll fuel documentStruct sliceLoc rest pr.root
                (if err = none then pr.err else err)
              ⟨r.fetches ++ t.fetches, r.nested ++ t.nested, t.out⟩
            | .panic => ⟨r.fetches, r.nested, .panic⟩
            | .diverge => ⟨r.fetches, r.nested, .diverge⟩
          else populatePaths parse popAll fuel documentStruct sliceLoc rest root err
    | _ => ⟨[], [], .panic⟩

/-- `Populate.All(documents)`.  The first argument bounds the nesting of
populate calls through sub-queries. -/
def Populate.All (parse : GoType → Res ParseRet) :
    Nat → Populate → Val → Traced PopRet
  | 0, _, _ => ⟨[], [], .diverge⟩
  | fuel + 1, populate, documents =>
    if documents.Kind ≠ .Ptr then
      ⟨[], [], .ret ⟨some "documents argument must be a slice address", documents⟩⟩
    else
      match documents.Elem with
      | none => ⟨[], [], .panic⟩
      | some slicev0 =>
        match (if slicev0.Kind = .Interface then slicev0.Elem else some slicev0) with
        | none => ⟨[], [], .panic⟩
        | some slicev =>
          let sliceLoc : Loc :=
            if slicev0.Kind = .Interface then [Step.elem, Step.elem] else [Step.elem]
          match slicev with
          | .slice _ _ es =>
            match es with
            | [] => ⟨[], [], .ret ⟨none, documents⟩⟩
            | documentV0 :: _ =>
              match (if documentV0.Kind = .Interface then documentV0.Elem else some documentV0) with
              | none => ⟨[], [], .panic⟩
              | some documentV =>
                if !documentV.IsValid then ⟨[], [], .panic⟩
                else
                  match parse documentV.Typ with
                  | .panic => ⟨[], [], .panic⟩
                  | .diverge => ⟨[], [], .diverge⟩
                  | .ret pr =>
                    match pr.err with
                    | some e => ⟨[], [], .ret ⟨some e, documents⟩⟩
                    | none =>
                      populatePaths parse (Populate.All parse fuel) (fuel + 1)
                        pr.documentStruct sliceLoc populate documents none
          | _ => ⟨[], [], .ret ⟨some "documents argument must be a slice address", documents⟩⟩

/-- `Populate.One(document)`: the batch is `&[]interface{}{document}`. -/
def Populate.One (parse : GoType → Res ParseRet) (fuel : Nat) (populate : Populate)
    (document : Val) : Traced PopRet :=
  Populate.All parse fuel populate
    (.ptr (.ptr (.slice .iface)) 1 (.slice (.slice .iface) 1 [.iface document]))

/-! ## Validation and insert (`document.go`, `validator.go`) -/

/-- What a lifecycle operation did, in order: it ran the hook chain of an event
or handed a record to the storage insert. -/
inductive Effect where
  | hook (name : String)
  | store (record : Val)
  deriving DecidableEq

/-- What `Validate` and `Insert` return: the error, the handle afterwards and
the effects in the order they happened. -/
structure InsertRet where
  err : Option String
  document : DocumentBase
  trace : List Effect

/-- `DocumentBase.Validate()`.  `Validator` is the package variable (`none` is
nil); the record of a handle without one is the nil interface. -/
def DocumentBase.Validate (Validator : Option (Val → Option String))
    (document : DocumentBase) : Res InsertRet :=
  let ref := document.Ref.getD .nil
  match Validator.bind (fun validate => validate ref) with
  | some e => .ret ⟨some e, document, []⟩
  | none =>
    match document.Model.DoEvent "validate" ref with
    | .ret (err, ref1) =>
      .ret ⟨err, { document with Ref := document.Ref.map (fun _ => ref1) }, [.hook "validate"]⟩
    | .panic => .panic
    | .diverge => .diverge

/-- The switch `switch val.(type)` of `Insert` on the content `val` of the
`ID` field: the error, and the record afterwards (an empty `bson.ObjectId` is
replaced by the fresh id `newObjectId`).  In the case
`int, int16, int32, int64` the variable keeps the type `interface{}` and the
assertion `val.(int64)` panics on every type but `int64`. -/
def insertID (env : TypeEnv) (newObjectId : String) (ref val : Val) :
    Res (Option String × Val) :=
  match val with
  | .str t s =>
    if t = objectIdType then
      if s = "" then
        match fieldIndexByName "ID" (env.fieldsOf ref.Indirect.Typ) with
        | some i =>
          match ref.modifyAt [.elem, .field i] (slotSet (.str objectIdType newObjectId)) with
          | some ref2 => .ret (none, ref2)
          | none => .panic
        | none => .panic
      else .ret (none, ref)
    else if t = .string then
      if s = "" then .ret (some "Document ID empty", ref) else .ret (none, ref)
    else .ret (none, ref)
  | .int t n =>
    if t = .int ∨ t = .int16 ∨ t = .int32 ∨ t = .int64 then
      if t = .int64 then
        if n = 0 then .ret (some "Document ID empty", ref) else .ret (none, ref)
      else .panic
    else .ret (none, ref)
  | _ => .ret (none, ref)

/-- `DocumentBase.Insert()`; `newObjectId` is what `bson.NewObjectId()`
returns. -/
def DocumentBase.Insert (env : TypeEnv) (newObjectId : String) (document : DocumentBase) :
    Res InsertRet :=
  if !document.IsNew then .ret ⟨some "Document isNew=false", document, []⟩
  else
    match document.Ref with
    | none => .ret ⟨some "Document=nil", document, []⟩
    | some ref =>
      match ref.Indirect.FieldByName env "ID" with
      | none => .panic
      | some field =>
        if !field.IsValid then .ret ⟨some "Document Field IsValid", document, []⟩
        else
          match field.Interface with
          | none => .panic
          | some val =>
            match insertID env newObjectId ref val with
            | .ret (some e, _) => .ret ⟨some e, document, []⟩
            | .ret (none, ref0) =>
              match document.Model.DoEvent "save" ref0 with
              | .ret (some e, ref1) =>
                .ret ⟨some e, { document with Ref := some ref1 }, [.hook "save"]⟩
              | .ret (none, ref1) =>
                match document.Model.DoEvent "insert" ref1 with
                | .ret (some e, ref2) =>
                  .ret ⟨some e, { document with Ref := some ref2 },
                    [.hook "save", .hook "insert"]⟩
                | .ret (none, ref2) =>
                  let document2 := { document with Ref := some ref2 }
                  match document.Model.dbInsert ref2 with
                  | some e =>
                    .ret ⟨some e, document2, [.hook "save", .hook "insert", .store ref2]⟩
                  | none =>
                    .ret ⟨none, { document2.ResetDocumentOld with IsNew := false },
                      [.hook "save", .hook "insert", .store ref2]⟩
                | .panic => .panic
                | .diverge => .diverge
              | .panic => .panic
              | .diverge => .diverge
            | .panic => .panic
            | .diverge => .diverge

/-! ## Event hooks (`model.go`) -/

/-- A `ModelEventFunc` as the chain sees it: the stage returns its error (or
nil), or it calls `next()` and goes on with the error that call returned.
What a stage does to the record is left out. -/
inductive Stage where
  | done (err : Option String)
  | callNext (k : Option String → Stage)

/-- `Model`: the map `Events` from event name to the registered stages (`none`
is the nil map).  The other fields play no part in the hooks. -/
structure Model where
  Name : String
  Events : Option (List (String × List Stage))

/-- `Model.OnEvent(name, funcs...)`. -/
def Model.OnEvent (model : Model) (name : String) (funcs : List Stage) : Model :=
  let events := model.Events.getD []
  { model with Events := some (mapSet events name ((mapGet events name).getD [] ++ funcs)) }

/-- What the chain did: it invoked the stage with index `stage`, or that
stage returned `err`. -/
inductive ChainEvent where
  | call (stage : Nat)
  | back (stage : Nat) (err : Option String)
  deriving DecidableEq

/-- The variable `i` of `DoEvent`, shared with the closure `next`, and the
log of the chain. -/
structure ChainState where
  i : Nat
  log : List ChainEvent

/-- A stage running with the closure `next`. -/
def runStage (next : ChainState → Res (Option String × ChainState)) :
    Stage → ChainState → Res (Option String × ChainState)
  | .done err, s => .ret (err, s)
  | .callNext k, s =>
    match next s with
    | .ret (err, s2) => runStage next (k err) s2
    | .panic => .panic
    | .diverge => .diverge

/-- The closure `next` of `DoEvent`; the first argument bounds the depth of
stages that call `next`. -/
def chainNext (events : List Stage) : Nat → ChainState → Res (Option String × ChainState)
  | 0, _ => .diverge
  | fuel + 1, s =>
    if events.length > s.i then
      match events[s.i]? with
      | some stage =>
        match runStage (chainNext events fuel) stage ⟨s.i + 1, s.log ++ [.call s.i]⟩ with
        | .ret (err, s2) => .ret (err, ⟨s2.i, s2.log ++ [.back s.i err]⟩)
        | .panic => .panic
        | .diverge => .diverge
      | none => .panic
    else .ret (none, s)

/-- The loop `for len(events) > i` of `DoEvent`; the second argument bounds
its iterations. -/
def chainLoop (events : List Stage) (depth : Nat) :
    Nat → ChainState → Res (Option String × ChainState)
  | 0, _ => .diverge
  | n + 1, s =>
    if events.length > s.i then
      match chainNext events depth s with
      | .ret (some err, s2) => .ret (some err, s2)
      | .ret (none, s2) => chainLoop events depth n s2
      | .panic => .panic
      | .diverge => .diverge
    else .ret (none, s)

/-- `Model.DoEvent(name, document)`: the error and the log of the chain.  The
bounds are one more than the number of stages, which no run reaches. -/
def Model.DoEvent (model : Model) (name : String) : Res (Option String × List ChainEvent) :=
  match model.Events with
  | none => .ret (none, [])
  | some registered =>
    match mapGet registered name with
    | none => .ret (none, [])
    | some events =>
      match chainLoop events (events.length + 1) (events.length + 1) ⟨0, []⟩ with
      | .ret (err, s) => .ret (err, s.log)
      | .panic => .panic
      | .diverge => .diverge

/-! ## Soft delete and restore (`query.go`) -/

/-- `Query.deleteUpdate()`; `now` is `time.Now()`, `none` is the nil map. -/
def Query.deleteUpdate (query : Query) (now : Val) : Res (Option Document) :=
  match query.Model.DocumentStruct with
  | .ret documentStruct =>
    let set : Document := []
    let set := match mapGet documentStruct "Deleted" with
      | some tag => if tag.BSON ≠ "" then mapSet set tag.BSON (.lit (.bool true)) else set
      | none => set
    let set := match mapGet documentStruct "DeletedAt" with
      | some tag => if tag.BSON ≠ "" then mapSet set tag.BSON (.lit now) else set
      | none => set
    if set.length ≠ 0 then .ret (some [("$set", .msi set)]) else .ret none
  | .panic => .panic
  | .diverge => .diverge

/-- `Query.restoreUpdate()`; `none` is the nil map.  The second block begins
with `update = map[string]interface{}{}`, whatever `update` held. -/
def Query.restoreUpdate (query : Query) : Res (Option Document) :=
  match query.Model.DocumentStruct with
  | .ret documentStruct =>
    let update : Option Document := none
    let update := match mapGet documentStruct "Deleted" with
      | some tag =>
        if tag.BSON ≠ "" then
          let update : Document := []
          some (mapSet update "$set" (.msi [(tag.BSON, .lit (.bool false))]))
        else update
      | none => update
    let update := match mapGet documentStruct "DeletedAt" with
      | some tag =>
        if tag.BSON ≠ "" then
          let update : Document := []
          some (mapSet update "$unset" (.msi [(tag.BSON, .lit (.int .int 1))]))
        else update
      | none => update
    .ret update
  | .panic => .panic
  | .diverge => .diverge

/-! ## Lemmas on association lists -/

theorem mapGet_mapSet_same {α β : Type} [DecidableEq α] (m : List (α × β)) (k : α) (v : β) :
    mapGet (mapSet m k v) k = some v := by
  induction m with
  | nil => simp [mapSet, mapGet]
  | cons p rest ih =>
    obtain ⟨k2, v2⟩ := p
    by_cases h : k2 = k
    · simp [mapSet, mapGet, h]
    · simp [mapSet, mapGet, h, ih]

theorem mapGet_mapSet_other {α β : Type} [DecidableEq α] (m : List (α × β)) (k k2 : α) (v : β)
    (h : k2 ≠ k) : mapGet (mapSet m k v) k2 = mapGet m k2 := by
  induction m with
  | nil => simp [mapSet, mapGet, Ne.symm h]
  | cons p rest ih =>
    obtain ⟨k3, v3⟩ := p
    by_cases h3 : k3 = k
    · subst h3
      simp [mapSet, mapGet, Ne.symm h]
    · by_cases h4 : k3 = k2
      · subst h4
        simp [mapSet, mapGet, h3]
      · simp [mapSet, mapGet, h3, h4, ih]

/-! ## The query builder: `Query.Name` -/

/-- After `Name(name, operator, value)` the entry of the field is an operator
map that holds `value` under the normalised operator and, for every other
operator, what the entry held before (when it was an operator map). -/
theorem Query.Name_entry (query : Query) (name operator : String) (value : QValue) :
    ∃ m, mapGet (query.Name name operator value).Expr (storedName name) = some (.msi m)
      ∧ mapGet m (normalizeOperator operator) = some value
      ∧ ∀ m0, mapGet query.Expr (storedName name) = some (.msi m0) →
          ∀ k, k ≠ normalizeOperator operator → mapGet m k = mapGet m0 k := by
  obtain ⟨md, ex, pop, opts⟩ := query
  simp only [Query.Name, Query.Expr]
  cases h : mapGet ex (storedName name) with
  | none =>
    refine ⟨[(normalizeOperator operator, value)], ?_, ?_, ?_⟩
    · simp [Query.withExpr, Query.Expr, mapGet_mapSet_same]
    · simp [mapGet]
    · intro m0 hm0; cases hm0
  | some x =>
    cases x with
    | msi val =>
      refine ⟨mapSet val (normalizeOperator operator) value, ?_, ?_, ?_⟩
      · simp [Query.withExpr, Query.Expr, mapGet_mapSet_same]
      · exact mapGet_mapSet_same _ _ _
      · intro m0 hm0 k hk
        cases hm0
        exact mapGet_mapSet_other _ _ _ _ hk
    | lit v =>
      refine ⟨[(normalizeOperator operator, value)], ?_, ?_, ?_⟩
      · simp [Query.withExpr, Query.Expr, mapGet_mapSet_same]
      · simp [mapGet]
      · intro m0 hm0; cases hm0
    | list v =>
      refine ⟨[(normalizeOperator operator, value)], ?_, ?_, ?_⟩
      · simp [Query.withExpr, Query.Expr, mapGet_mapSet_same]
      · simp [mapGet]
      · intro m0 hm0; cases hm0
    | strs v =>
      refine ⟨[(normalizeOperator operator, value)], ?_, ?_, ?_⟩
      · simp [Query.withExpr, Query.Expr, mapGet_mapSet_same]
      · simp [mapGet]
      · intro m0 hm0; cases hm0

/-- C10. Operator normalisation of `Query.Name`: for every query, field and
operand the call records the operand in the field's operator map under `eq`
for `==`, `ne` for `!=`, `gt` for `>`, `gte` for `=>`, `lt` for `<` and `lte`
for `=<`; and a second call on the same field writes into the same operator
map: it holds the second operand under the second operator and keeps every
entry of the first map under any other operator. -/
theorem Query.Name_normalizes_and_merges (query : Query) (name : String) (value : QValue)
    (operator1 operator2 : String) (value1 value2 : QValue) :
    (∀ p ∈ [("==", "eq"), ("!=", "ne"), (">", "gt"), ("=>", "gte"), ("<", "lt"), ("=<", "lte")],
      ∃ m, mapGet (query.Name name p.1 value).Expr (storedName name) = some (.msi m)
        ∧ mapGet m p.2 = some value)
    ∧ ∃ m1 m2,
        mapGet (query.Name name operator1 value1).Expr (storedName name) = some (.msi m1)
        ∧ mapGet m1 (normalizeOperator operator1) = some value1
        ∧ mapGet ((query.Name name operator1 value1).Name name operator2 value2).Expr
            (storedName name) = some (.msi m2)
        ∧ mapGet m2 (normalizeOperator operator2) = some value2
        ∧ ∀ k, k ≠ normalizeOperator operator2 → mapGet m2 k = mapGet m1 k := by
  constructor
  · intro p hp
    obtain ⟨m, h1, h2, _⟩ := Query.Name_entry query name p.1 value
    refine ⟨m, h1, ?_⟩
    simp only [List.mem_cons, List.mem_singleton, List.not_mem_nil, or_false] at hp
    rcases hp with h | h | h | h | h | h <;> subst h <;> exact h2
  · obtain ⟨m1, h1, h2, _⟩ := Query.Name_entry query name operator1 value1
    obtain ⟨m2, h3, h4, h5⟩ :=
      Query.Name_entry (query.Name name operator1 value1) name operator2 value2
    exact ⟨m1, m2, h1, h2, h3, h4, h5 m1 h1⟩

/-! ## Concrete inputs -/

/-- Record types of the examples: posts that reference users, comments whose
relation names the lookup field by its storage name, a two-level record, and
a bag whose relation field is a mapping. -/
def exampleEnv : TypeEnv :=
  [("User", [⟨"ID", "", "_id", "", .string⟩, ⟨"Name", "", "", "", .string⟩]),
   ("Post", [⟨"ID", "", "_id", "", .string⟩, ⟨"AuthorID", "", "", "", .string⟩,
             ⟨"Author", "", "", "AuthorID", .ptr (.struct "User")⟩]),
   ("Comment", [⟨"ID", "", "_id", "", .string⟩, ⟨"AuthorID", "", "", "", .string⟩,
                ⟨"Author", "", "", "AuthorID,_id", .ptr (.struct "User")⟩]),
   ("Inner", [⟨"B", "", "", "", .int⟩]),
   ("Outer", [⟨"A", "", "", "", .struct "Inner"⟩]),
   ("Bag", [⟨"ItemIDs", "", "", "", .map .string .string⟩,
            ⟨"Items", "", "", "ItemIDs,Key", .map .string .iface⟩])]

/-- `DocumentStructParse` on the example types, starting from an empty cache. -/
def exampleParse : GoType → Res ParseRet := DocumentStructParse exampleEnv 5 []

/-- A user record behind a pointer. -/
def exampleUser (id name : String) : Val :=
  .ptr (.ptr (.struct "User")) 100
    (.struct (.struct "User") [.str .string id, .str .string name])

/-- A post behind a pointer, with the given author slot. -/
def examplePost (id authorID : String) (author : Val) : Val :=
  .ptr (.ptr (.struct "Post")) 200
    (.struct (.struct "Post") [.str .string id, .str .string authorID, author])

/-- The nil `*User`. -/
def nilUser : Val := .ptr (.ptr (.struct "User")) 0 .nil

/-- A model on the users collection whose `find` answers with `answer`. -/
def exampleModel (answer : Option String × List Val) : ModelInterface :=
  { Name := "users"
    DocumentStruct := .ret []
    DoEvent := fun _ v => .ret (none, v)
    dbFindAll := fun _ => answer
    dbUpdate := fun _ _ => none
    dbInsert := fun _ => none }

/-- A `[]*Post` behind a pointer. -/
def examplePosts (posts : List Val) : Val :=
  .ptr (.ptr (.slice (.ptr (.struct "Post")))) 7
    (.slice (.slice (.ptr (.struct "Post"))) 8 posts)

/-- The storage error of the examples. -/
def storageDown : String := "connection refused"

/-- Live record and snapshot of type `Outer` that differ in `A.B` only. -/
def exampleOuter (b : Int) : Val :=
  .ptr (.ptr (.struct "Outer")) 300
    (.struct (.struct "Outer") [.struct (.struct "Inner") [.int .int b]])

/-- A persisted handle whose live record has `A.B = 1` and whose snapshot has
`A.B = 2`. -/
def exampleHandle : DocumentBase :=
  { IsNew := false
    Model := exampleModel (none, [])
    Ref := some (exampleOuter 1)
    Old := some (exampleOuter 2) }

/-- Structural equality as the deep-equality test of the examples. -/
def exampleDeepEqual (a b : Val) : Bool := decide (a = b)

/-- The type `map[string]interface{}`. -/
def msiType : GoType := .map .string .iface

/-- A bag whose id mapping names item `i1` under key `a` and whose relation
mapping `Items` is still nil. -/
def exampleBag : Val :=
  .ptr (.ptr (.struct "Bag")) 400
    (.struct (.struct "Bag")
      [.map (.map .string .string) 401 [.str .string "a"] [.str .string "i1"],
       .map msiType 0 [] []])

/-- The batch `[]*Bag` with the one bag. -/
def exampleBags : Val :=
  .ptr (.ptr (.slice (.ptr (.struct "Bag")))) 9
    (.slice (.slice (.ptr (.struct "Bag"))) 10 [exampleBag])

/-- The fetched item `i1`, a `map[string]interface{}` document. -/
def exampleItem : Val :=
  .map msiType 500 [.str .string "Key", .str .string "name"]
    [.iface (.str .string "i1"), .iface (.str .string "pen")]

/-- The same batch after the relation mapping was created (empty, not nil). -/
def exampleBagsReady : Val :=
  .ptr (.ptr (.slice (.ptr (.struct "Bag")))) 9
    (.slice (.slice (.ptr (.struct "Bag"))) 10
      [.ptr (.ptr (.struct "Bag")) 400
        (.struct (.struct "Bag")
          [.map (.map .string .string) 401 [.str .string "a"] [.str .string "i1"],
           .map msiType 402 [] []])])

/-- The pending slot of `exampleBag`: the field `Items` of the first record,
found under key `a`. -/
def exampleBagSlot : reflectValue :=
  ⟨.str .string "a", [Step.elem, Step.index 0, Step.elem, Step.field 1]⟩

/-! ## The populate engine on concrete inputs -/

/-- C1 (failing input). A mapping slot that is still nil, as `reflectFind`
records it for an unpopulated relation field: `reflectFind` yields exactly
this slot under id `i1`, and `reflectSet` for the fetched item `i1`, whose
lookup field is the scalar `i1`, panics in `SetMapIndex` instead of setting
the item at key `a`; so does the whole `Populate.All`, after its fetch.  On a
mapping that is not nil the same call sets the item at key `a`. -/
theorem reflectSet_nil_mapping_slot_panics :
    (Populate.All exampleParse 3
        [("Items", (exampleModel (none, [exampleItem])).Query)] exampleBags).fetches.length = 1
    ∧ mapGet [(Val.str .string "i1", [exampleBagSlot])] (Val.str .string "i1")
        = some [exampleBagSlot]
    ∧ reflectSet [(Val.str .string "i1", [exampleBagSlot])] exampleItem 3 exampleBags
        exampleItem [⟨.str .string "Key", 0⟩] = .panic
    ∧ (Populate.All exampleParse 3
        [("Items", (exampleModel (none, [exampleItem])).Query)] exampleBags).out = .panic
    ∧ (match reflectSet [(Val.str .string "i1", [exampleBagSlot])] exampleItem 3
          exampleBagsReady exampleItem [⟨.str .string "Key", 0⟩] with
        | .ret r =>
          (r.err, (r.root.read exampleBagSlot.value).bind
            (fun m => m.MapIndex (.str .string "a")))
        | _ => (some "no result", none)) = (none, some (.iface exampleItem)) := by
  refine ⟨by decide, by decide, by decide, by decide, by decide⟩

/-- C3 (failing input). Two posts reference the users `u1` and `u2`; the
author slot of the first is already populated, the slot of the second is nil.
The walk records both ids, `u2` with an empty slot only (the scan of
`reflectPopulate` lists it as the id to fetch), and still no fetch at all is
issued: the second slot stays nil and no error is returned. -/
theorem reflectPopulate_skips_fetch_when_one_slot_is_populated :
    scanMap
        (examplePosts [examplePost "p1" "u1" (exampleUser "u1" "Ann"),
          examplePost "p2" "u2" nilUser])
        (.ptr (.struct "User"))
        [(.str .string "u1", [⟨.nil, [Step.elem, Step.index 0, Step.elem, Step.field 2]⟩]),
         (.str .string "u2", [⟨.nil, [Step.elem, Step.index 1, Step.elem, Step.field 2]⟩])]
        [] []
      = some ([exampleUser "u1" "Ann"], [.str .string "u2"])
    ∧ (Populate.All exampleParse 3
        [("Author", (exampleModel (none, [exampleUser "u2" "Bob"])).Query)]
        (examplePosts [examplePost "p1" "u1" (exampleUser "u1" "Ann"),
          examplePost "p2" "u2" nilUser])).fetches.length = 0
    ∧ (Populate.All exampleParse 3
        [("Author", (exampleModel (none, [exampleUser "u2" "Bob"])).Query)]
        (examplePosts [examplePost "p1" "u1" (exampleUser "u1" "Ann"),
          examplePost "p2" "u2" nilUser])).out
      = .ret ⟨none, examplePosts [examplePost "p1" "u1" (exampleUser "u1" "Ann"),
          examplePost "p2" "u2" nilUser]⟩ := by
  refine ⟨by decide, by decide, by decide⟩

/-- C4 (failing input). One post with an empty author slot, one relation
path, and a storage collaborator whose `find` fails: the fetch is issued, its
error is dropped by `reflectPopulate`, and `Populate.All` returns a nil error
with the batch unchanged. -/
theorem Populate_All_drops_fetch_error :
    (∀ fetch, ((exampleModel (some storageDown, [])).dbFindAll fetch).1 = some storageDown)
    ∧ (Populate.All exampleParse 3
        [("Author", (exampleModel (some storageDown, [])).Query)]
        (examplePosts [examplePost "p1" "u1" nilUser])).fetches.length = 1
    ∧ (Populate.All exampleParse 3
        [("Author", (exampleModel (some storageDown, [])).Query)]
        (examplePosts [examplePost "p1" "u1" nilUser])).out
      = .ret ⟨none, examplePosts [examplePost "p1" "u1" nilUser]⟩ := by
  refine ⟨fun _ => rfl, by decide, by decide⟩

/-! ## Change tracking on concrete inputs -/

/-- C7 (failing input). The live record and the snapshot differ in the member
`A.B` (1 against 2), so the struct-typed field `A` differs as well; yet
`ValueEqual` keeps the first path segment when it descends (`path[:1]`), looks
for a member `A` inside `A`, finds none on either side and reports equality:
`IsModified` is false for both `A.B` and `A`. -/
theorem IsModified_misses_nested_change :
    ((indirectOf exampleHandle.Ref).FieldByName exampleEnv "A").bind
        (fun a => a.FieldByName exampleEnv "B") = some (.int .int 1)
    ∧ ((indirectOf exampleHandle.Old).FieldByName exampleEnv "A").bind
        (fun a => a.FieldByName exampleEnv "B") = some (.int .int 2)
    ∧ exampleHandle.IsModified exampleEnv exampleDeepEqual 5 "A.B" = .ret false
    ∧ exampleHandle.IsModified exampleEnv exampleDeepEqual 5 "A" = .ret false
    ∧ exampleHandle.IsModified exampleEnv exampleDeepEqual 5 "" = .ret true := by
  refine ⟨by decide, by decide, by decide, by decide, by decide⟩

/-! ## The filter compiler on concrete inputs -/

/-- C9 (failing input). `Eq(f, nil)` records the operator map with the single
entry `eq: nil`; the operand is neither a mapping nor a `QueryVariable`, and
`Map()` panics on it (`reflect.TypeOf(nil).Kind()`) instead of compiling `f`
to the bare literal nil.  A string operand compiles to the bare literal. -/
theorem Query_Map_panics_on_nil_operand :
    (match mapGet ((exampleModel (none, [])).Query.Eq "deleted_at" (.lit .nil)).Expr
          "deleted_at" with
      | some (.msi [("eq", .lit .nil)]) => true
      | _ => false) = true
    ∧ (QValue.lit Val.nil).isQueryVariable = false
    ∧ (match ((exampleModel (none, [])).Query.Eq "deleted_at" (.lit (.str .string "x"))).Map with
        | .ret [("deleted_at", .lit (.str .string "x"))] => true
        | _ => false) = true
    ∧ (match ((exampleModel (none, [])).Query.Eq "deleted_at" (.lit .nil)).Map with
        | .panic => true
        | _ => false) = true := by
  refine ⟨by decide, by decide, by decide, by decide⟩

/-! ## Metadata parse: tags and relation descriptors -/

theorem splitComma_no_comma (a : List Char) (h : ',' ∉ a) : splitComma a = (a, none) := by
  induction a with
  | nil => rfl
  | cons c cs ih =>
    have hc : c ≠ ',' := fun e => h (by simp [e])
    have hcs : ',' ∉ cs := fun e => h (by simp [e])
    simp [splitComma, hc, ih hcs]

theorem splitComma_append (a b : List Char) (h : ',' ∉ a) :
    splitComma (a ++ ',' :: b) = (a, some b) := by
  induction a with
  | nil => simp [splitComma]
  | cons c cs ih =>
    have hc : c ≠ ',' := fun e => h (by simp [e])
    have hcs : ',' ∉ cs := fun e => h (by simp [e])
    simp [splitComma, hc, ih hcs]

theorem tag_plain (name : String) (h : ',' ∉ name.data) :
    tagHead name = name ∧ tagRest name = none := by
  simp [tagHead, tagRest, splitComma_no_comma _ h]

theorem tag_pair (name find : String) (h : ',' ∉ name.data) :
    tagHead (name ++ "," ++ find) = name ∧ tagRest (name ++ "," ++ find) = some find := by
  have : (name ++ "," ++ find).data = name.data ++ ',' :: find.data := by
    simp [String.data_append]
  simp [tagHead, tagRest, this, splitComma_append _ _ h]

/-- The id-field and lookup-field names computed from a relation annotation
`name[,find]`. -/
theorem populateNameOf_eq (tag name find : String) (hcomma : ',' ∉ name.data)
    (htag : (tag = name ∧ find = "") ∨ tag = name ++ "," ++ find)
    (hann : ¬ ((name = "" ∨ name = "-") ∧ find = "")) :
    populateNameOf tag = (if name = "" ∨ name = "-" then "ID" else name)
    ∧ populateFindOf tag = (if find = "" then "ID" else find)
    ∧ populateNameOf tag ≠ "" := by
  have key : tagHead tag = name ∧ (tagRest tag).getD "" = find := by
    rcases htag with ⟨h1, h2⟩ | h
    · subst h1; subst h2
      simp [tag_plain _ hcomma]
    · subst h
      simp [tag_pair _ _ hcomma]
  obtain ⟨k1, k2⟩ := key
  have hN : populateNameOf tag = (if name = "" ∨ name = "-" then "ID" else name) := by
    simp only [populateNameOf, k1, k2]
    by_cases h1 : name = "-"
    · subst h1
      have : find ≠ "" := fun e => hann ⟨Or.inr rfl, e⟩
      simp [this]
    · by_cases h2 : name = ""
      · subst h2
        have : find ≠ "" := fun e => hann ⟨Or.inl rfl, e⟩
        simp [this]
      · simp [h1, h2]
  have hne : populateNameOf tag ≠ "" := by
    rw [hN]
    split
    · decide
    · rename_i h
      exact fun e => h (Or.inl e)
  refine ⟨hN, ?_, hne⟩
  simp only [populateFindOf, k2, hne, ne_eq, not_false_eq_true, true_and]

theorem mem_indexed {α : Type} (xs : List α) (i : Nat) (x : α) :
    (i, x) ∈ indexed xs ↔ xs[i]? = some x := by
  rw [indexed, ← List.enum_eq_zip_range]
  exact List.mk_mem_enum_iff_getElem?

theorem indexed_map_snd {α : Type} (xs : List α) : (indexed xs).map Prod.snd = xs := by
  rw [indexed]
  exact List.map_snd_zip _ _ (by simp)

/-- Fields the loop has not reached keep the entry they had. -/
theorem parseFields_frame (parse : Cache → GoType → Res ParseRet) (tf : List StructField)
    (nm : String) :
    ∀ (l : List (Nat × StructField)) (ds : DocumentStruct) (cache : Cache) (r : ParseRet),
      parseFields parse tf l ds cache = .ret r → r.err = none →
      (∀ p ∈ l, p.2.Name ≠ nm) → mapGet r.documentStruct nm = mapGet ds nm := by
  intro l
  induction l with
  | nil =>
    intro ds cache r h _ _
    simp [parseFields] at h
    subst h; rfl
  | cons p rest ih =>
    intro ds cache r h herr hn
    obtain ⟨i, field⟩ := p
    have hnm : field.Name ≠ nm := hn (i, field) (by simp)
    have hrest : ∀ p ∈ rest, p.2.Name ≠ nm := fun p hp => hn p (by simp [hp])
    unfold parseFields at h
    simp only [] at h
    split at h
    · exact ih _ _ _ h herr hrest
    · split at h
      · exact ih _ _ _ h herr hrest
      · split at h
        · have := ih _ _ _ h herr hrest
          rw [this, mapGet_mapSet_other _ _ _ _ (Ne.symm hnm)]
        · split at h
          · split at h
            · rename_i r2 hr2
              split at h
              · cases h
                simp at herr
              · have := ih _ _ _ h herr hrest
                rw [this, mapGet_mapSet_other _ _ _ _ (Ne.symm hnm)]
            · cases h
            · cases h
          · have := ih _ _ _ h herr hrest
            rw [this, mapGet_mapSet_other _ _ _ _ (Ne.symm hnm)]

/-- The entry the loop files for a relation field: index, external names,
and the relation descriptor when the struct has the id field. -/
theorem parseFields_relation (parse : Cache → GoType → Res ParseRet) (tf : List StructField)
    (i : Nat) (f : StructField) (hbase : f.Name ≠ "DocumentBase")
    (hrel : populateNameOf f.PopulateTag ≠ "") :
    ∀ (l : List (Nat × StructField)) (ds : DocumentStruct) (cache : Cache) (r : ParseRet),
      parseFields parse tf l ds cache = .ret r → r.err = none →
      (i, f) ∈ l → l.Pairwise (fun p q => p.2.Name ≠ q.2.Name) →
      ∃ d, mapGet r.documentStruct f.Name = some d ∧ d.Index = i ∧ d.Children = []
        ∧ ∀ idx, fieldIndexByName (populateNameOf f.PopulateTag) tf = some idx →
            d.PopulateIndex = idx ∧ d.PopulateName = populateNameOf f.PopulateTag
            ∧ d.PopulateFind = populateFindOf f.PopulateTag := by
  intro l
  induction l with
  | nil => intro ds cache r _ _ hmem; simp at hmem
  | cons p rest ih =>
    intro ds cache r h herr hmem hpw
    rw [List.pairwise_cons] at hpw
    obtain ⟨hhead, hpw2⟩ := hpw
    rcases List.mem_cons.mp hmem with heq | hin
    · subst heq
      have hrest : ∀ p ∈ rest, p.2.Name ≠ f.Name := fun p hp => Ne.symm (hhead p hp)
      unfold parseFields at h
      simp only [hbase, if_false, hrel, and_false, not_false_eq_true, if_true, ne_eq] at h
      rw [parseFields_frame parse tf f.Name _ _ _ _ h herr hrest, mapGet_mapSet_same]
      refine ⟨_, rfl, ?_⟩
      split
      · rename_i idx0 hidx0
        refine ⟨rfl, rfl, ?_⟩
        intro idx hidx
        rw [hidx0] at hidx
        cases hidx
        exact ⟨rfl, rfl, rfl⟩
      · rename_i hnone
        refine ⟨rfl, rfl, ?_⟩
        intro idx hidx
        rw [hnone] at hidx
        cases hidx
    · obtain ⟨i0, f0⟩ := p
      unfold parseFields at h
      simp only [] at h
      split at h
      · exact ih _ _ _ h herr hin hpw2
      · split at h
        · exact ih _ _ _ h herr hin hpw2
        · split at h
          · exact ih _ _ _ h herr hin hpw2
          · split at h
            · split at h
              · split at h
                · cases h
                  simp at herr
                · exact ih _ _ _ h herr hin hpw2
              · cases h
              · cases h
            · exact ih _ _ _ h herr hin hpw2

/-- On a cache miss the result of `DocumentStructParse` for a struct type (or
a pointer to one) is what the field loop built. -/
theorem DocumentStructParse_miss (env : TypeEnv) (fuel : Nat) (cache : Cache) (t0 : GoType)
    (n : String) (ht : t0 = .struct n ∨ t0 = .ptr (.struct n))
    (hmiss : cache.Get (.struct n) = none) (r : ParseRet)
    (hret : DocumentStructParse env fuel cache t0 = .ret r) (herr : r.err = none) :
    ∃ fuel2 r2, parseFields (DocumentStructParse env fuel2) (env.fieldsOf (.struct n))
        (indexed (env.fieldsOf (.struct n))) [] cache = .ret r2
      ∧ r2.err = none ∧ r2.documentStruct = r.documentStruct := by
  cases fuel with
  | zero => simp [DocumentStructParse] at hret
  | succ fuel =>
    refine ⟨fuel, ?_⟩
    have hunf : DocumentStructParse env (fuel + 1) cache t0
        = DocumentStructParse env (fuel + 1) cache (.struct n) := by
      rcases ht with h | h <;> subst h <;> simp [DocumentStructParse]
    rw [hunf] at hret
    simp only [DocumentStructParse, GoType.Kind, ne_eq, not_true_eq_false, if_false, hmiss] at hret
    split at hret
    · rename_i r2 hr2
      split at hret
      · cases hret
        simp_all
      · rename_i hnone
        split at hret
        · cases hret
          exact ⟨r2, hr2, hnone, rfl⟩
        · cases hret
        · cases hret
    · cases hret
    · cases hret

/-- C6 (amended). Let `t0` be a struct type (or a pointer to one) that is
parsed on a cache miss, with pairwise distinct field names, and let `f` be its
field number `i`, other than the `DocumentBase` marker, whose `populate` tag is
the relation annotation `name[,find]` (`name` or `find` non-empty, `-`
counting as an empty name).  If the struct has a field called by the id-field
name (position `idx`), the metadata filed under `f` records the relation: id
field name `name` (`ID` when only the lookup field is given), lookup field
`find` (`ID` when only the id field is given), the position of the id field,
and no children. -/
theorem DocumentStructParse_relation_descriptor (env : TypeEnv) (fuel : Nat) (cache : Cache)
    (t0 : GoType) (n : String) (i : Nat) (f : StructField) (name find : String) (idx : Nat)
    (r : ParseRet)
    (ht : t0 = .struct n ∨ t0 = .ptr (.struct n))
    (hfield : (env.fieldsOf (.struct n))[i]? = some f)
    (hnames : (env.fieldsOf (.struct n)).Pairwise (fun a b => a.Name ≠ b.Name))
    (hbase : f.Name ≠ "DocumentBase")
    (hcomma : ',' ∉ name.data)
    (htag : (f.PopulateTag = name ∧ find = "") ∨ f.PopulateTag = name ++ "," ++ find)
    (hann : ¬ ((name = "" ∨ name = "-") ∧ find = ""))
    (hid : fieldIndexByName (if name = "" ∨ name = "-" then "ID" else name)
      (env.fieldsOf (.struct n)) = some idx)
    (hmiss : cache.Get (.struct n) = none)
    (hret : DocumentStructParse env fuel cache t0 = .ret r) (herr : r.err = none) :
    ∃ d, mapGet r.documentStruct f.Name = some d
      ∧ d.PopulateName = (if name = "" ∨ name = "-" then "ID" else name)
      ∧ d.PopulateFind = (if find = "" then "ID" else find)
      ∧ d.PopulateIndex = idx
      ∧ d.Children = [] := by
  obtain ⟨hN, hF, hne⟩ := populateNameOf_eq f.PopulateTag name find hcomma htag hann
  obtain ⟨fuel2, r2, hr2, herr2, hds⟩ :=
    DocumentStructParse_miss env fuel cache t0 n ht hmiss r hret herr
  have hpw : (indexed (env.fieldsOf (.struct n))).Pairwise
      (fun p q => p.2.Name ≠ q.2.Name) := by
    have := (List.pairwise_map (f := Prod.snd) (R := fun a b : StructField => a.Name ≠ b.Name)
      (l := indexed (env.fieldsOf (.struct n)))).mp
    apply this
    rw [indexed_map_snd]
    exact hnames
  obtain ⟨d, hd, _, hch, hrel⟩ :=
    parseFields_relation (DocumentStructParse env fuel2) (env.fieldsOf (.struct n)) i f hbase hne
      _ _ _ _ hr2 herr2 ((mem_indexed _ _ _).mpr hfield) hpw
  rw [hN] at hrel
  obtain ⟨h1, h2, h3⟩ := hrel idx hid
  refine ⟨d, ?_, ?_, ?_, h1, hch⟩
  · rw [← hds]; exact hd
  · exact h2
  · rw [h3, hF]

/-- Witness for C6: the field `Author` of `Post`, annotated `AuthorID`; the
lookup field defaults to `ID`, the id field sits at position 1. -/
theorem DocumentStructParse_relation_descriptor_witness :
    ∃ r, DocumentStructParse exampleEnv 5 [] (.ptr (.struct "Post")) = .ret r ∧ r.err = none
      ∧ ∃ d, mapGet r.documentStruct "Author" = some d
        ∧ d.PopulateName = "AuthorID" ∧ d.PopulateFind = "ID"
        ∧ d.PopulateIndex = 1 ∧ d.Children = [] :=
  ⟨_, rfl, rfl,
    DocumentStructParse_relation_descriptor exampleEnv 5 [] (.ptr (.struct "Post")) "Post" 2
      ⟨"Author", "", "", "AuthorID", .ptr (.struct "User")⟩ "AuthorID" "" 1 _
      (Or.inr rfl) (by decide) (by decide) (by decide) (by decide) (Or.inl ⟨rfl, rfl⟩)
      (by decide) (by decide) rfl rfl rfl⟩

/-- C6 (counterexample). The field `Owner` carries the relation annotation
`OwnerID`, but the struct has no field of that name: the parse succeeds and
the metadata of `Owner` records no relation (empty id-field and lookup-field
names). -/
theorem DocumentStructParse_relation_without_id_field :
    (match DocumentStructParse
        [("Orphan", [⟨"Owner", "", "", "OwnerID", .ptr (.struct "User")⟩])] 5 []
        (.struct "Orphan") with
      | .ret r =>
        (r.err, (mapGet r.documentStruct "Owner").map
          (fun d => (d.PopulateName, d.PopulateFind)))
      | _ => (some "no result", none)) = (none, some ("", "")) := by
  decide

/-! ## `Update`: the field-level delta -/

/-- The interface value `Field(Index).Interface()` of a record for a metadata
entry (nil when the record has no such field). -/
def fieldInterface (record : Val) (sf : DocumentStructField) : Val :=
  ((record.Field sf.Index).bind Val.Interface).getD .nil

/-- The field has a non-empty storage name and its live value is not
deep-equal to the snapshot's value. -/
def fieldChanged (DeepEqual : Val → Val → Bool) (documentv documentOldv : Val)
    (sf : DocumentStructField) : Bool :=
  sf.BSON ≠ "" && !DeepEqual (fieldInterface documentv sf) (fieldInterface documentOldv sf)

/-- Emptiness of a live value as the amended claim words it: length 0 for
sequence, mapping and text kinds, zero for signed integer kinds, the nil
interface for every other kind. -/
def liveValueEmpty (v1 : Val) : Bool :=
  if v1.Kind = .Slice ∨ v1.Kind = .Map ∨ v1.Kind = .String then v1.Len = some 0
  else if isSignedIntKind v1.Kind then v1.Int = some 0
  else v1.Interface = some .nil

/-- Both the live record and the snapshot have the field of a metadata entry
with a storage name. -/
def fieldReadable (documentv documentOldv : Val) (sf : DocumentStructField) : Prop :=
  sf.BSON ≠ "" →
    (documentv.Field sf.Index).isSome ∧ (documentOldv.Field sf.Index).isSome
    ∧ ((documentv.Field sf.Index).bind Val.Interface).isSome
    ∧ ((documentOldv.Field sf.Index).bind Val.Interface).isSome

/-- One pass of the loop body of `Update` on the two maps. -/
def deltaStep (DeepEqual : Val → Val → Bool) (documentv documentOldv : Val)
    (sf : DocumentStructField) (d : Delta) : Delta :=
  if fieldChanged DeepEqual documentv documentOldv sf then
    if sf.BSONOmitempty ∧ liveValueEmpty ((documentv.Field sf.Index).getD .nil) then
      ⟨d.set, mapSet d.unset sf.BSON (.lit (.str .string ""))⟩
    else ⟨mapSet d.set sf.BSON (.lit (fieldInterface documentv sf)), d.unset⟩
  else d

theorem updateDelta_cons (deq : Val → Val → Bool) (v vo : Val) (nm : String)
    (sf : DocumentStructField) (rest : DocumentStruct) (d : Delta)
    (h : fieldReadable v vo sf) :
    updateDelta deq v vo ((nm, sf) :: rest) d
      = updateDelta deq v vo rest (deltaStep deq v vo sf d) := by
  rw [updateDelta]
  by_cases hb : sf.BSON = ""
  · simp [hb, deltaStep, fieldChanged]
  · obtain ⟨h1, h2, h3, h4⟩ := h hb
    obtain ⟨v1, hv1⟩ := Option.isSome_iff_exists.mp h1
    obtain ⟨v2, hv2⟩ := Option.isSome_iff_exists.mp h2
    rw [hv1] at h3
    rw [hv2] at h4
    obtain ⟨i1, hi1⟩ := Option.isSome_iff_exists.mp h3
    obtain ⟨i2, hi2⟩ := Option.isSome_iff_exists.mp h4
    simp only [Option.some_bind] at hi1 hi2
    simp only [hb, if_false, hv1, hv2, hi1, hi2]
    by_cases hd : deq i1 i2 = true
    · simp [hd, deltaStep, fieldChanged, fieldInterface, hv1, hv2, hi1, hi2]
    · simp only [hd, if_false]
      have hc : fieldChanged deq v vo sf = true := by
        simp [fieldChanged, fieldInterface, hv1, hv2, hi1, hi2, hb, hd]
      simp only [deltaStep, hc, if_true, hv1, Option.getD_some, fieldInterface, hi1,
        Option.some_bind]
      by_cases hk : v1.Kind = .Slice ∨ v1.Kind = .Map ∨ v1.Kind = .String
      · simp only [liveValueEmpty, hk, if_true]
        by_cases ho : sf.BSONOmitempty = true <;> by_cases hl : v1.Len = some 0 <;> simp [ho, hl]
      · simp only [liveValueEmpty, hk, if_false]
        by_cases hs : isSignedIntKind v1.Kind = true
        · simp only [hs, if_true]
          by_cases ho : sf.BSONOmitempty = true <;> by_cases hl : v1.Int = some 0 <;> simp [ho, hl]
        · simp only [hs, if_false]
          by_cases ho : sf.BSONOmitempty = true <;> by_cases hl : i1 = Val.nil <;>
            simp [ho, hl, hi1]

theorem updateDelta_eq_foldl (deq : Val → Val → Bool) (v vo : Val) :
    ∀ (ds : DocumentStruct) (d : Delta), (∀ p ∈ ds, fieldReadable v vo p.2) →
      updateDelta deq v vo ds d = .ret (ds.foldl (fun d p => deltaStep deq v vo p.2 d) d) := by
  intro ds
  induction ds with
  | nil => intro d _; simp [updateDelta]
  | cons p rest ih =>
    intro d h
    obtain ⟨nm, sf⟩ := p
    rw [updateDelta_cons deq v vo nm sf rest d (h (nm, sf) (by simp)),
      ih _ (fun p hp => h p (by simp [hp]))]
    rfl

theorem deltaStep_frame (deq : Val → Val → Bool) (v vo : Val) (sf : DocumentStructField)
    (d : Delta) (k : String) (h : fieldChanged deq v vo sf = true → sf.BSON ≠ k) :
    mapGet (deltaStep deq v vo sf d).set k = mapGet d.set k
    ∧ mapGet (deltaStep deq v vo sf d).unset k = mapGet d.unset k := by
  unfold deltaStep
  by_cases hc : fieldChanged deq v vo sf = true
  · have hk := h hc
    simp only [hc, if_true]
    split
    · exact ⟨rfl, mapGet_mapSet_other _ _ _ _ (Ne.symm hk)⟩
    · exact ⟨mapGet_mapSet_other _ _ _ _ (Ne.symm hk), rfl⟩
  · simp [hc]

theorem deltaFold_frame (deq : Val → Val → Bool) (v vo : Val) (k : String) :
    ∀ (ds : DocumentStruct) (d : Delta),
      (∀ p ∈ ds, fieldChanged deq v vo p.2 = true → p.2.BSON ≠ k) →
      mapGet (ds.foldl (fun d p => deltaStep deq v vo p.2 d) d).set k = mapGet d.set k
      ∧ mapGet (ds.foldl (fun d p => deltaStep deq v vo p.2 d) d).unset k = mapGet d.unset k := by
  intro ds
  induction ds with
  | nil => intro d _; exact ⟨rfl, rfl⟩
  | cons p rest ih =>
    intro d h
    simp only [List.foldl_cons]
    obtain ⟨h1, h2⟩ := ih (deltaStep deq v vo p.2 d) (fun q hq => h q (by simp [hq]))
    obtain ⟨h3, h4⟩ := deltaStep_frame deq v vo p.2 d k (h p (by simp))
    exact ⟨h1.trans h3, h2.trans h4⟩

theorem deltaStep_at (deq : Val → Val → Bool) (v vo : Val) (sf : DocumentStructField)
    (d : Delta) (hc : fieldChanged deq v vo sf = true) :
    mapGet (deltaStep deq v vo sf d).set sf.BSON
        = (if sf.BSONOmitempty ∧ liveValueEmpty ((v.Field sf.Index).getD .nil) then
            mapGet d.set sf.BSON else some (.lit (fieldInterface v sf)))
    ∧ mapGet (deltaStep deq v vo sf d).unset sf.BSON
        = (if sf.BSONOmitempty ∧ liveValueEmpty ((v.Field sf.Index).getD .nil) then
            some (.lit (.str .string "")) else mapGet d.unset sf.BSON) := by
  unfold deltaStep
  simp only [hc, if_true]
  split
  · exact ⟨rfl, mapGet_mapSet_same _ _ _⟩
  · exact ⟨mapGet_mapSet_same _ _ _, rfl⟩

theorem deltaFold_hit (deq : Val → Val → Bool) (v vo : Val) (p : String × DocumentStructField)
    (hc : fieldChanged deq v vo p.2 = true) :
    ∀ (ds : DocumentStruct) (d : Delta), p ∈ ds →
      ds.Pairwise (fun a b => a.2.BSON ≠ "" → a.2.BSON ≠ b.2.BSON) →
      mapGet (ds.foldl (fun d p => deltaStep deq v vo p.2 d) d).set p.2.BSON
          = mapGet (deltaStep deq v vo p.2 d).set p.2.BSON
      ∧ mapGet (ds.foldl (fun d p => deltaStep deq v vo p.2 d) d).unset p.2.BSON
          = mapGet (deltaStep deq v vo p.2 d).unset p.2.BSON := by
  have hb : p.2.BSON ≠ "" := by
    intro e
    simp [fieldChanged, e] at hc
  intro ds
  induction ds with
  | nil => intro d hm; simp at hm
  | cons q rest ih =>
    intro d hm hpw
    rw [List.pairwise_cons] at hpw
    obtain ⟨hhead, hpw2⟩ := hpw
    simp only [List.foldl_cons]
    rcases List.mem_cons.mp hm with heq | hin
    · subst heq
      apply deltaFold_frame
      intro q hq hcq
      exact Ne.symm (hhead q hq hb)
    · obtain ⟨h1, h2⟩ := ih (deltaStep deq v vo q.2 d) hin hpw2
      rw [h1, h2]
      have hfr : mapGet (deltaStep deq v vo q.2 d).set p.2.BSON = mapGet d.set p.2.BSON
          ∧ mapGet (deltaStep deq v vo q.2 d).unset p.2.BSON = mapGet d.unset p.2.BSON := by
        apply deltaStep_frame
        intro hcq
        have hqb : q.2.BSON ≠ "" := by
          intro e
          simp [fieldChanged, e] at hcq
        exact hhead p hin hqb
      obtain ⟨a1, a2⟩ := deltaStep_at deq v vo p.2 (deltaStep deq v vo q.2 d) hc
      obtain ⟨b1, b2⟩ := deltaStep_at deq v vo p.2 d hc
      rw [a1, a2, b1, b2, hfr.1, hfr.2]
      exact ⟨rfl, rfl⟩

theorem deltaFold_unchanged (deq : Val → Val → Bool) (v vo : Val) :
    ∀ (ds : DocumentStruct) (d : Delta),
      (∀ p ∈ ds, fieldChanged deq v vo p.2 = false) →
      ds.foldl (fun d p => deltaStep deq v vo p.2 d) d = d := by
  intro ds
  induction ds with
  | nil => intro d _; rfl
  | cons p rest ih =>
    intro d h
    have hp : fieldChanged deq v vo p.2 = false := h p (by simp)
    have : deltaStep deq v vo p.2 d = d := by simp [deltaStep, hp]
    simp only [List.foldl_cons, this]
    exact ih d (fun q hq => h q (by simp [hq]))

/-- C8 (amended). For a record and a snapshot that both have every field the
metadata names, and metadata whose storage names are pairwise distinct, the
loop of `Update` returns maps `set` / `unset` such that: a key occurs in one
of them if and only if it is the storage name of a field that has a storage
name and whose live value is not deep-equal to the snapshot's; each such field
occurs in exactly one of the two, in `unset` exactly when its omit-empty flag
is set and the live value is empty (length 0 for slice, map and string kinds,
zero for signed integer kinds, the nil interface for any other kind), and
otherwise in `set` with the live value; when no field changed the update
document is empty and `Update` (its hooks passing) returns no error and sends
no storage request. -/
theorem Update_delta (deq : Val → Val → Bool) (documentv documentOldv : Val)
    (ds : DocumentStruct)
    (hreads : ∀ p ∈ ds, fieldReadable documentv documentOldv p.2)
    (hdistinct : ds.Pairwise (fun a b => a.2.BSON ≠ "" → a.2.BSON ≠ b.2.BSON)) :
    ∃ d, updateDelta deq documentv documentOldv ds ⟨[], []⟩ = .ret d
      ∧ (∀ k, ((mapGet d.set k).isSome ∨ (mapGet d.unset k).isSome) ↔
          ∃ p ∈ ds, p.2.BSON = k ∧ fieldChanged deq documentv documentOldv p.2 = true)
      ∧ (∀ p ∈ ds, fieldChanged deq documentv documentOldv p.2 = true →
          ((mapGet d.unset p.2.BSON).isSome ↔
            (p.2.BSONOmitempty = true
              ∧ liveValueEmpty ((documentv.Field p.2.Index).getD .nil) = true))
          ∧ ((mapGet d.set p.2.BSON).isSome ↔
            ¬ (p.2.BSONOmitempty = true
              ∧ liveValueEmpty ((documentv.Field p.2.Index).getD .nil) = true))
          ∧ ((mapGet d.set p.2.BSON).isSome →
            mapGet d.set p.2.BSON = some (.lit (fieldInterface documentv p.2))))
      ∧ ((∀ p ∈ ds, fieldChanged deq documentv documentOldv p.2 = false) →
          updateDocument d = [])
      ∧ (∀ (env : TypeEnv) (parse : GoType → Res ParseRet) (document : DocumentBase)
          (ref ref1 ref2 : Val) (pr : ParseRet),
          document.IsNew = false → document.Ref = some ref → ref.Indirect.IsValid = true →
          parse ref.Indirect.Typ = .ret pr → pr.err = none → pr.documentStruct = ds →
          document.Model.DoEvent "save" ref = .ret (none, ref1) →
          document.Model.DoEvent "update" ref1 = .ret (none, ref2) →
          ref2.Indirect = documentv → indirectOf document.Old = documentOldv →
          (∀ p ∈ ds, fieldChanged deq documentv documentOldv p.2 = false) →
          ∃ r, document.Update env deq parse = .ret r ∧ r.err = none ∧ r.requests = []) := by
  refine ⟨_, updateDelta_eq_foldl deq documentv documentOldv ds ⟨[], []⟩ hreads, ?_, ?_, ?_, ?_⟩
  · intro k
    constructor
    · intro h
      by_contra hno
      have hfr := deltaFold_frame deq documentv documentOldv k ds ⟨[], []⟩ (by
        intro p hp hc hk
        exact hno ⟨p, hp, hk, hc⟩)
      rw [hfr.1, hfr.2] at h
      simp [mapGet] at h
    · rintro ⟨p, hp, hk, hc⟩
      subst hk
      obtain ⟨h1, h2⟩ := deltaFold_hit deq documentv documentOldv p hc ds ⟨[], []⟩ hp hdistinct
      obtain ⟨a1, a2⟩ := deltaStep_at deq documentv documentOldv p.2 ⟨[], []⟩ hc
      rw [h1, h2, a1, a2]
      split <;> simp
  · intro p hp hc
    obtain ⟨h1, h2⟩ := deltaFold_hit deq documentv documentOldv p hc ds ⟨[], []⟩ hp hdistinct
    obtain ⟨a1, a2⟩ := deltaStep_at deq documentv documentOldv p.2 ⟨[], []⟩ hc
    rw [h1, h2, a1, a2]
    by_cases hcond : p.2.BSONOmitempty = true
        ∧ liveValueEmpty ((documentv.Field p.2.Index).getD .nil) = true
    · simp [hcond, mapGet]
    · simp [hcond, mapGet]
  · intro h
    rw [deltaFold_unchanged deq documentv documentOldv ds ⟨[], []⟩ h]
    simp [updateDocument]
  · intro env parse document ref ref1 ref2 pr hnew href hvalid hparse hperr hds hsave hupd
      hv hvo hun
    subst hds hv hvo
    refine ⟨⟨none, { document with Ref := some ref2 }, []⟩, ?_, rfl, rfl⟩
    unfold DocumentBase.Update
    simp only [hnew, href, hvalid, hparse, hperr, hsave, hupd,
      updateDelta_eq_foldl deq _ _ _ ⟨[], []⟩ hreads,
      deltaFold_unchanged deq _ _ _ ⟨[], []⟩ hun]
    simp [updateDocument]

/-- Metadata of the witness: an id and an omit-empty sequence of tags. -/
def taggedStruct : DocumentStruct :=
  [("ID", .mk 0 "ID" false "_id" false 0 "" "" []),
   ("Tags", .mk 1 "Tags" false "tags" true 0 "" "" [])]

/-- A record of the witness with the given tags. -/
def taggedRecord (tags : Val) : Val :=
  .struct (.struct "Tagged") [.str .string "t1", tags]

/-- Witness for C8: the tags of the live record are the nil slice, the
snapshot had one tag; the field is omit-empty, so its storage name goes to
`unset` and not to `set`. -/
theorem Update_delta_witness :
    ∃ d, updateDelta exampleDeepEqual (taggedRecord (.slice (.slice .string) 0 []))
        (taggedRecord (.slice (.slice .string) 21 [.str .string "a"])) taggedStruct ⟨[], []⟩
        = .ret d
      ∧ (mapGet d.unset "tags").isSome ∧ ¬ (mapGet d.set "tags").isSome := by
  obtain ⟨d, hd, _, h2, _⟩ :=
    Update_delta exampleDeepEqual (taggedRecord (.slice (.slice .string) 0 []))
      (taggedRecord (.slice (.slice .string) 21 [.str .string "a"])) taggedStruct
      (by
        intro p hp
        simp only [taggedStruct, List.mem_cons, List.mem_singleton, List.not_mem_nil,
          or_false] at hp
        rcases hp with h | h <;> subst h <;> intro _ <;> decide)
      (by decide)
  have h := h2 ("Tags", .mk 1 "Tags" false "tags" true 0 "" "" [])
    (by simp [taggedStruct]) (by decide)
  refine ⟨d, hd, h.1.mpr (by decide), ?_⟩
  intro hs
  exact (h.2.1.mp hs) (by decide)

/-- Metadata of the first counterexample: an omit-empty unsigned counter. -/
def counterStruct : DocumentStruct :=
  [("ID", .mk 0 "ID" false "_id" false 0 "" "" []),
   ("Hits", .mk 1 "Hits" false "hits" true 0 "" "" [])]

/-- A record with the given unsigned counter. -/
def counterRecord (hits : Int) : Val :=
  .struct (.struct "Counter") [.str .string "c1", .int .uint hits]

/-- Metadata of the second counterexample: two fields with one storage name. -/
def clashStruct : DocumentStruct :=
  [("A", .mk 0 "A" false "x" false 0 "" "" []),
   ("B", .mk 1 "B" false "x" true 0 "" "" [])]

/-- A record with the two string fields. -/
def clashRecord (a b : String) : Val :=
  .struct (.struct "Clash") [.str .string a, .str .string b]

/-- C8 (counterexample). An omit-empty field of an unsigned integer kind
whose live value is zero (the snapshot held 5) goes to `set`, not to `unset`;
and two changed fields that share the storage name `x`, one of them
omit-empty and empty, put `x` into both `set` and `unset`. -/
theorem Update_delta_unsigned_zero_is_set :
    (match updateDelta exampleDeepEqual (counterRecord 0) (counterRecord 5) counterStruct
        ⟨[], []⟩ with
      | .ret d => ((mapGet d.set "hits").isSome, (mapGet d.unset "hits").isSome)
      | _ => (false, false)) = (true, false)
    ∧ (match updateDelta exampleDeepEqual (clashRecord "new" "") (clashRecord "old" "b")
        clashStruct ⟨[], []⟩ with
      | .ret d => ((mapGet d.set "x").isSome, (mapGet d.unset "x").isSome)
      | _ => (false, false)) = (true, true) := by
  refine ⟨by decide, by decide⟩

/-! ## Metadata parse: errors, the cache ceiling and nesting -/

/-- The type `DocumentStructParse` works on: one pointer layer followed. -/
def derefType : GoType → GoType
  | .ptr e => e
  | e => e

/-- Whether the loop of `DocumentStructParse` parses children for the field:
the field is kept, carries no relation annotation, has a storage name, and its
element type is a struct other than `time.Time`. -/
def hasChildren (field : StructField) : Bool :=
  field.Name ≠ "DocumentBase"
    ∧ populateNameOf field.PopulateTag = ""
    ∧ externalName field.BsonTag field.Name ≠ ""
    ∧ (childElem field.Typ).Kind = .Struct
    ∧ childElem field.Typ ≠ timeType

/-- The struct types nested below `t` through fields with children are at most
`n` levels deep. -/
def nestingWithin (env : TypeEnv) : Nat → GoType → Bool
  | 0, _ => false
  | n + 1, t =>
    (env.fieldsOf t).all (fun f => !hasChildren f || nestingWithin env n (childElem f.Typ))

/-- A bound on the number of types a parse of `t` adds to the cache. -/
def parseBudget (env : TypeEnv) : Nat → GoType → Nat
  | 0, _ => 0
  | n + 1, t =>
    1 + ((env.fieldsOf t).map
      (fun f => if hasChildren f then parseBudget env n (childElem f.Typ) else 0)).sum

theorem mapSet_length_le {α β : Type} [DecidableEq α] (m : List (α × β)) (k : α) (v : β) :
    (mapSet m k v).length ≤ m.length + 1 := by
  induction m with
  | nil => simp [mapSet]
  | cons p rest ih =>
    obtain ⟨k2, v2⟩ := p
    by_cases h : k2 = k
    · simp [mapSet, h]
    · simp [mapSet, h]
      omega

theorem struct_kind_deref (t : GoType) (h : t.Kind = .Struct) : derefType t = t := by
  cases t <;> simp_all [GoType.Kind, derefType]

theorem derefType_struct (t0 : GoType) (h : (derefType t0).Kind = .Struct) :
    ∃ s, derefType t0 = .struct s ∧ (t0 = .struct s ∨ t0 = .ptr (.struct s)) := by
  cases t0 with
  | ptr e =>
    cases e <;> simp_all [GoType.Kind, derefType]
  | struct s => exact ⟨s, rfl, Or.inl rfl⟩
  | _ => simp_all [GoType.Kind, derefType]

theorem DocumentStructParse_deref (env : TypeEnv) (fuel : Nat) (cache : Cache) (t0 : GoType)
    (h : (derefType t0).Kind = .Struct) :
    DocumentStructParse env fuel cache t0 = DocumentStructParse env fuel cache (derefType t0) := by
  obtain ⟨s, hs, ht⟩ := derefType_struct t0 h
  cases fuel with
  | zero => rfl
  | succ n =>
    rcases ht with e | e <;> subst e <;> simp [DocumentStructParse, derefType]

theorem DocumentStructParse_not_struct (env : TypeEnv) (fuel : Nat) (cache : Cache)
    (t0 : GoType) (h : (derefType t0).Kind ≠ .Struct) :
    DocumentStructParse env (fuel + 1) cache t0 = .ret ⟨[], some "Document not struct", cache⟩ := by
  cases t0 <;> simp_all [DocumentStructParse, derefType, GoType.Kind]

theorem parseFields_no_error (parse : Cache → GoType → Res ParseRet) (tf : List StructField)
    (hparse : ∀ cache t r, t.Kind = .Struct → parse cache t = .ret r → r.err = none) :
    ∀ (l : List (Nat × StructField)) (ds : DocumentStruct) (cache : Cache) (r : ParseRet),
      parseFields parse tf l ds cache = .ret r → r.err = none := by
  intro l
  induction l with
  | nil =>
    intro ds cache r h
    simp [parseFields] at h
    subst h; rfl
  | cons p rest ih =>
    intro ds cache r h
    obtain ⟨i, field⟩ := p
    unfold parseFields at h
    simp only [] at h
    split at h
    · exact ih _ _ _ h
    · split at h
      · exact ih _ _ _ h
      · split at h
        · exact ih _ _ _ h
        · split at h
          · rename_i hcond
            split at h
            · rename_i r2 hr2
              have := hparse _ _ _ hcond.2.1 hr2
              split at h
              · rename_i e he
                rw [this] at he
                cases he
              · exact ih _ _ _ h
            · cases h
            · cases h
          · exact ih _ _ _ h

theorem DocumentStructParse_struct_no_error (env : TypeEnv) :
    ∀ (fuel : Nat) (cache : Cache) (t : GoType) (r : ParseRet), t.Kind = .Struct →
      DocumentStructParse env fuel cache t = .ret r → r.err = none := by
  intro fuel
  induction fuel with
  | zero => intro cache t r _ h; simp [DocumentStructParse] at h
  | succ n ih =>
    intro cache t r hk h
    obtain ⟨s, hs, _⟩ := derefType_struct t (by rw [struct_kind_deref t hk]; exact hk)
    rw [struct_kind_deref t hk] at hs
    subst hs
    simp only [DocumentStructParse, GoType.Kind, ne_eq, not_true_eq_false, if_false] at h
    split at h
    · cases h; rfl
    · split at h
      · rename_i r2 hr2
        have := parseFields_no_error (DocumentStructParse env n) _ ih _ _ _ _ hr2
        split at h
        · rename_i e he
          rw [this] at he
          cases he
        · split at h
          · cases h; rfl
          · cases h
          · cases h
      · cases h
      · cases h

theorem parseFields_total (env : TypeEnv) (n : Nat) (tf : List StructField)
    (ih : ∀ (cache : Cache) (t : GoType), t.Kind = .Struct → nestingWithin env n t = true →
      cache.length + parseBudget env n t ≤ cacheCeiling →
      ∃ r, DocumentStructParse env n cache t = .ret r ∧ r.err = none
        ∧ r.cache.length ≤ cache.length + parseBudget env n t) :
    ∀ (l : List (Nat × StructField)) (ds : DocumentStruct) (cache : Cache),
      (∀ p ∈ l, hasChildren p.2 = true → nestingWithin env n (childElem p.2.Typ) = true) →
      cache.length + (l.map (fun p =>
        if hasChildren p.2 then parseBudget env n (childElem p.2.Typ) else 0)).sum
          ≤ cacheCeiling →
      ∃ r, parseFields (DocumentStructParse env n) tf l ds cache = .ret r ∧ r.err = none
        ∧ r.cache.length ≤ cache.length + (l.map (fun p =>
            if hasChildren p.2 then parseBudget env n (childElem p.2.Typ) else 0)).sum := by
  intro l
  induction l with
  | nil =>
    intro ds cache _ _
    exact ⟨⟨ds, none, cache⟩, by simp [parseFields], rfl, by simp⟩
  | cons p rest ihl =>
    intro ds cache hnest hbound
    obtain ⟨i, field⟩ := p
    simp only [List.map_cons, List.sum_cons] at hbound ⊢
    have hrestnest : ∀ p ∈ rest, hasChildren p.2 = true →
        nestingWithin env n (childElem p.2.Typ) = true :=
      fun p hp => hnest p (by simp [hp])
    have plain : ∀ ds2, ∃ r, parseFields (DocumentStructParse env n) tf rest ds2 cache = .ret r
        ∧ r.err = none
        ∧ r.cache.length ≤ cache.length +
          ((if hasChildren field then parseBudget env n (childElem field.Typ) else 0) +
            (rest.map (fun p =>
              if hasChildren p.2 then parseBudget env n (childElem p.2.Typ) else 0)).sum) := by
      intro ds2
      obtain ⟨r, h1, h2, h3⟩ := ihl ds2 cache hrestnest (by omega)
      exact ⟨r, h1, h2, by omega⟩
    unfold parseFields
    simp only []
    split
    · exact plain _
    · rename_i hbase
      split
      · exact plain _
      · split
        · exact plain _
        · rename_i hpop
          split
          · rename_i hcond
            have hch : hasChildren field = true := by
              simp only [hasChildren, decide_eq_true_eq]
              refine ⟨hbase, ?_, hcond.1, hcond.2.1, hcond.2.2⟩
              simpa using hpop
            simp only [hch, if_true] at hbound ⊢
            obtain ⟨r2, hr2, herr2, hlen2⟩ :=
              ih cache (childElem field.Typ) hcond.2.1 (hnest (i, field) (by simp) hch) (by omega)
            rw [hr2]
            simp only [herr2]
            obtain ⟨r, h1, h2, h3⟩ := ihl (mapSet ds field.Name
              (.mk i (externalName field.JsonTag field.Name)
                (tagRest field.JsonTag = some "omitempty")
                (externalName field.BsonTag field.Name)
                (tagRest field.BsonTag = some "omitempty") 0 "" "" r2.documentStruct))
              r2.cache hrestnest (by omega)
            exact ⟨r, h1, h2, by omega⟩
          · exact plain _

theorem DocumentStructParse_total (env : TypeEnv) :
    ∀ (n : Nat) (cache : Cache) (t : GoType), t.Kind = .Struct → nestingWithin env n t = true →
      cache.length + parseBudget env n t ≤ cacheCeiling →
      ∃ r, DocumentStructParse env n cache t = .ret r ∧ r.err = none
        ∧ r.cache.length ≤ cache.length + parseBudget env n t := by
  intro n
  induction n with
  | zero => intro cache t _ h; simp [nestingWithin] at h
  | succ n ih =>
    intro cache t hk hnest hbound
    obtain ⟨s, hs, _⟩ := derefType_struct t (by rw [struct_kind_deref t hk]; exact hk)
    rw [struct_kind_deref t hk] at hs
    subst hs
    simp only [DocumentStructParse, GoType.Kind, ne_eq, not_true_eq_false, if_false]
    cases hget : Cache.Get cache (.struct s) with
    | some ds => exact ⟨_, rfl, rfl, by simp⟩
    | none =>
      simp only []
      have hsum : ((indexed (env.fieldsOf (.struct s))).map (fun p =>
          if hasChildren p.2 then parseBudget env n (childElem p.2.Typ) else 0)).sum
          = ((env.fieldsOf (.struct s)).map (fun f =>
            if hasChildren f then parseBudget env n (childElem f.Typ) else 0)).sum := by
        conv_rhs => rw [← indexed_map_snd (env.fieldsOf (.struct s))]
        rw [List.map_map]
        rfl
      simp only [parseBudget] at hbound
      obtain ⟨r, h1, h2, h3⟩ := parseFields_total env n (env.fieldsOf (.struct s)) ih
        (indexed (env.fieldsOf (.struct s))) [] cache
        (by
          intro p hp hc
          simp only [nestingWithin, List.all_eq_true, Bool.or_eq_true, Bool.not_eq_true'] at hnest
          have hmem : p.2 ∈ env.fieldsOf (.struct s) := by
            rw [← indexed_map_snd (env.fieldsOf (.struct s))]
            exact List.mem_map_of_mem _ hp
          rcases hnest p.2 hmem with h | h
          · rw [hc] at h; cases h
          · exact h)
        (by rw [hsum]; omega)
      rw [h1]
      simp only [h2]
      have hlen := mapSet_length_le r.cache (.struct s) r.documentStruct
      rw [hsum] at h3
      have hle : ¬ (mapSet r.cache (GoType.struct s) r.documentStruct).length > cacheCeiling := by
        omega
      simp only [Cache.Set, hle, if_false]
      refine ⟨_, rfl, rfl, ?_⟩
      simp only [parseBudget]
      omega

/-- C5 (amended). `DocumentStructParse(t0)` returns an error exactly when `t0`,
after following one level of pointer, is not a struct type: it does so for
every such type, and no call on a struct type (or a pointer to one) ever
returns an error.  For a struct type whose nested struct types are at most
`fuel` levels deep and whose parse stays below the ceiling of the cache (the
cache has room for the types the parse adds), the call returns a metadata map
and no error, children included. -/
theorem DocumentStructParse_error_iff_not_struct (env : TypeEnv) (fuel : Nat) (cache : Cache)
    (t0 : GoType) :
    ((derefType t0).Kind ≠ .Struct →
      ∃ r, DocumentStructParse env (fuel + 1) cache t0 = .ret r ∧ r.err.isSome = true)
    ∧ (∀ r, DocumentStructParse env fuel cache t0 = .ret r →
        (r.err.isSome = true ↔ (derefType t0).Kind ≠ .Struct))
    ∧ ((derefType t0).Kind = .Struct → nestingWithin env fuel (derefType t0) = true →
        cache.length + parseBudget env fuel (derefType t0) ≤ cacheCeiling →
        ∃ r, DocumentStructParse env fuel cache t0 = .ret r ∧ r.err = none) := by
  refine ⟨?_, ?_, ?_⟩
  · intro h
    exact ⟨_, DocumentStructParse_not_struct env fuel cache t0 h, rfl⟩
  · intro r hr
    by_cases hk : (derefType t0).Kind = .Struct
    · rw [DocumentStructParse_deref env fuel cache t0 hk] at hr
      have := DocumentStructParse_struct_no_error env fuel cache _ r hk hr
      simp [this, hk]
    · cases fuel with
      | zero => simp [DocumentStructParse] at hr
      | succ n =>
        rw [DocumentStructParse_not_struct env n cache t0 hk] at hr
        cases hr
        simp [hk]
  · intro hk hnest hbound
    rw [DocumentStructParse_deref env fuel cache t0 hk]
    obtain ⟨r, h1, h2, _⟩ := DocumentStructParse_total env fuel cache _ hk hnest hbound
    exact ⟨r, h1, h2⟩

/-- Witness for C5: a pointer to `Outer`, whose field `A` nests the struct
`Inner`, parses from the empty cache without an error. -/
theorem DocumentStructParse_error_iff_not_struct_witness :
    (derefType (.ptr (.struct "Outer"))).Kind = .Struct
    ∧ nestingWithin exampleEnv 3 (derefType (.ptr (.struct "Outer"))) = true
    ∧ ∃ r, DocumentStructParse exampleEnv 3 [] (.ptr (.struct "Outer")) = .ret r
        ∧ r.err = none :=
  ⟨by decide, by decide,
    (DocumentStructParse_error_iff_not_struct exampleEnv 3 [] (.ptr (.struct "Outer"))).2.2
      (by decide) (by decide) (by decide)⟩

/-- A tree node that contains itself through `Children []*Node`. -/
def nodeEnv : TypeEnv :=
  [("Node", [⟨"ID", "", "_id", "", .string⟩,
             ⟨"Children", "", "children", "", .slice (.ptr (.struct "Node"))⟩])]

/-- On the self-referential `Node` no depth of nested calls is enough: the
parse of `Node` calls itself on `Node` before anything is cached. -/
theorem DocumentStructParse_Node_diverges :
    ∀ fuel, DocumentStructParse nodeEnv fuel [] (.struct "Node") = .diverge := by
  intro fuel
  induction fuel with
  | zero => rfl
  | succ n ih =>
    have hf : nodeEnv.fieldsOf (.struct "Node")
        = [⟨"ID", "", "_id", "", .string⟩,
           ⟨"Children", "", "children", "", .slice (.ptr (.struct "Node"))⟩] := by decide
    have hc : childElem (.slice (.ptr (.struct "Node"))) = .struct "Node" := rfl
    simp only [DocumentStructParse, GoType.Kind, ne_eq, not_true_eq_false, if_false, Cache.Get,
      mapGet, hf, indexed]
    have h1 : parseFields (DocumentStructParse nodeEnv n)
        [⟨"ID", "", "_id", "", .string⟩,
           ⟨"Children", "", "children", "", .slice (.ptr (.struct "Node"))⟩]
        ((List.range 2).zip [⟨"ID", "", "_id", "", .string⟩,
           ⟨"Children", "", "children", "", .slice (.ptr (.struct "Node"))⟩]) [] []
        = .diverge := by
      have hr : (List.range 2).zip [(⟨"ID", "", "_id", "", .string⟩ : StructField),
           ⟨"Children", "", "children", "", .slice (.ptr (.struct "Node"))⟩]
          = [(0, ⟨"ID", "", "_id", "", .string⟩),
             (1, ⟨"Children", "", "children", "", .slice (.ptr (.struct "Node"))⟩)] := by decide
      rw [hr]
      unfold parseFields
      have e1 : externalName "" "ID" = "ID" := by decide
      have e2 : externalName "_id" "ID" = "_id" := by decide
      have e3 : populateNameOf "" = "" := by decide
      have e4 : ("ID" : String) ≠ "DocumentBase" := by decide
      have e5 : childElem GoType.string = .string := rfl
      simp only [e1, e2, e3, e4, e5, GoType.Kind, if_false, ne_eq, not_true_eq_false,
        false_and, and_false, not_false_eq_true, and_true, true_and, reduceCtorEq]
      unfold parseFields
      have f1 : externalName "" "Children" = "Children" := by decide
      have f2 : externalName "children" "Children" = "children" := by decide
      have f4 : ("Children" : String) ≠ "DocumentBase" := by decide
      have f5 : ("children" : String) ≠ "" := by decide
      have f6 : GoType.struct "Node" ≠ timeType := by decide
      have f7 : ("Children" : String) ≠ "" := by decide
      simp only [f1, f2, e3, f4, f5, f6, f7, hc, GoType.Kind, if_false, ne_eq, not_true_eq_false,
        false_and, and_false, not_false_eq_true, and_true, true_and, if_true, and_self, ih,
        ite_self]
    simp only [List.length_cons, List.length_nil] at h1 ⊢
    rw [h1]

theorem mapGet_eq_none {α β : Type} [DecidableEq α] (m : List (α × β)) (k : α)
    (h : ∀ p ∈ m, p.1 ≠ k) : mapGet m k = none := by
  induction m with
  | nil => rfl
  | cons p rest ih =>
    obtain ⟨k2, v2⟩ := p
    have h1 : k2 ≠ k := h (k2, v2) (by simp)
    simp [mapGet, h1, ih (fun q hq => h q (by simp [hq]))]

theorem mapSet_length_absent {α β : Type} [DecidableEq α] (m : List (α × β)) (k : α) (v : β)
    (h : ∀ p ∈ m, p.1 ≠ k) : (mapSet m k v).length = m.length + 1 := by
  induction m with
  | nil => rfl
  | cons p rest ih =>
    obtain ⟨k2, v2⟩ := p
    have h1 : k2 ≠ k := h (k2, v2) (by simp)
    simp [mapSet, h1, ih (fun q hq => h q (by simp [hq]))]

/-- A cache that holds 10000 distinct struct types `a`, `aa`, `aaa`, ... -/
def fullCache : Cache :=
  (List.range cacheCeiling).map
    (fun i => (GoType.struct (String.mk (List.replicate (i + 1) 'a')), []))

/-- A record type with one field that is not in `fullCache`. -/
def leafEnv : TypeEnv := [("Leaf", [⟨"ID", "", "_id", "", .string⟩])]

theorem fullCache_absent : ∀ p ∈ fullCache, p.1 ≠ GoType.struct "Leaf" := by
  intro p hp
  simp only [fullCache, List.mem_map, List.mem_range] at hp
  obtain ⟨i, _, rfl⟩ := hp
  intro h
  injection h with h
  have := congrArg String.data h
  simp [List.replicate_succ] at this

/-- With the cache at its ceiling, the parse of a type that is not cached yet
ends in the panic of `documentStructCache.Set`. -/
theorem DocumentStructParse_at_ceiling_panics (cache : Cache) (n : Nat)
    (habs : ∀ p ∈ cache, p.1 ≠ GoType.struct "Leaf") (hfull : cache.length = cacheCeiling) :
    DocumentStructParse leafEnv (n + 1) cache (.struct "Leaf") = .panic := by
  have hf : leafEnv.fieldsOf (.struct "Leaf") = [⟨"ID", "", "_id", "", .string⟩] := by decide
  have hget : Cache.Get cache (.struct "Leaf") = none := mapGet_eq_none _ _ habs
  have hlen : (mapSet cache (GoType.struct "Leaf")
      [("ID", DocumentStructField.mk 0 "ID" false "_id" false 0 "" "" [])]).length
        > cacheCeiling := by
    rw [mapSet_length_absent _ _ _ habs, hfull]
    exact Nat.lt_succ_self _
  have hi : indexed [(⟨"ID", "", "_id", "", .string⟩ : StructField)]
      = [(0, ⟨"ID", "", "_id", "", .string⟩)] := by decide
  have e1 : externalName "" "ID" = "ID" := by decide
  have e2 : externalName "_id" "ID" = "_id" := by decide
  have e3 : populateNameOf "" = "" := by decide
  have e4 : ("ID" : String) ≠ "DocumentBase" := by decide
  have e5 : childElem GoType.string = .string := rfl
  have e6 : tagRest "" = none := by decide
  have e7 : tagRest "_id" = none := by decide
  have e8 : ("ID" : String) ≠ "" := by decide
  have hp : parseFields (DocumentStructParse leafEnv n) [⟨"ID", "", "_id", "", .string⟩]
      [(0, ⟨"ID", "", "_id", "", .string⟩)] [] cache
      = .ret ⟨[("ID", DocumentStructField.mk 0 "ID" false "_id" false 0 "" "" [])], none,
          cache⟩ := by
    unfold parseFields
    simp only [e1, e2, e3, e4, e5, e6, e7, e8, GoType.Kind, if_false, ne_eq, not_true_eq_false,
      false_and, and_false, not_false_eq_true, and_true, true_and, reduceCtorEq]
    unfold parseFields
    simp [mapSet]
  simp only [DocumentStructParse, GoType.Kind, ne_eq, not_true_eq_false, if_false, hget, hf, hi,
    hp]
  unfold Cache.Set
  rw [if_pos hlen]

/-- C5 (counterexample). Two struct types for which `DocumentStructParse`
returns neither a metadata map nor an error: with 10000 types cached, the
parse of one more type ends in the panic of the cache; and the parse of the
self-referential `Node` never returns, whatever the depth allowed. -/
theorem DocumentStructParse_does_not_always_return :
    fullCache.length = cacheCeiling
    ∧ DocumentStructParse leafEnv 2 fullCache (.struct "Leaf") = .panic
    ∧ ¬ ∃ fuel r, DocumentStructParse nodeEnv fuel [] (.struct "Node") = .ret r := by
  refine ⟨by simp [fullCache],
    DocumentStructParse_at_ceiling_panics fullCache 1 fullCache_absent (by simp [fullCache]), ?_⟩
  rintro ⟨fuel, r, h⟩
  rw [DocumentStructParse_Node_diverges fuel] at h
  cases h

/-! ## Populate: the walk, the pending ids and the batched fetch -/

/-- Add an id to a list of distinct ids. -/
def addKey (ks : List Val) (id : Val) : List Val :=
  if id ∈ ks then ks else ks ++ [id]

/-- The ids of a pending-slot map, in the order of the map. -/
def pendingKeys (maps : PendingMap) : List Val := maps.map (·.1)

/-- The id a value contributes: none when it is empty. -/
def idOf (v : Val) : Option Val :=
  if reflectValueEmpty v then none else v.Interface

/-- The non-empty ids an id-bearing field holds: the field itself when it is
a scalar, its elements when it is a sequence or a mapping of ids. -/
def nonEmptyIds (idValue : Val) : List Val :=
  if reflectValueEmpty idValue then []
  else
    match idValue with
    | .map _ _ ks vs => (ks.zip vs).filterMap (fun p => idOf p.2)
    | .slice _ _ es => es.filterMap idOf
    | v => (v.Interface).toList

/-- The non-empty foreign ids found in one record along a relation path: at
every hop the metadata names the field; a non-terminal hop goes through all
values of a mapping, all elements of a sequence, or the nested field itself;
the terminal hop reads the id-bearing field of the relation. -/
def foreignIds : List String → Val → DocumentStruct → List Val
  | [], _, _ => []
  | name :: fieldPath, value0, valueStruct =>
    match mapGet valueStruct name with
    | none => []
    | some fieldStruct =>
      match fieldPath with
      | [] =>
        match value0.Indirect.Field fieldStruct.PopulateIndex with
        | some idValue => nonEmptyIds idValue
        | none => []
      | _ :: _ =>
        match value0.Indirect.Field fieldStruct.Index with
        | some (.map _ _ ks vs) =>
          (ks.zip vs).flatMap (fun p => foreignIds fieldPath p.2 fieldStruct.Children)
        | some (.slice _ _ es) =>
          es.flatMap (fun e => foreignIds fieldPath e fieldStruct.Children)
        | some field => foreignIds fieldPath field fieldStruct.Children
        | none => []

/-- Every entry of a pending-slot map lists at least one slot. -/
def slotsNonempty (maps : PendingMap) : Prop := ∀ e ∈ maps, e.2 ≠ []

theorem pendingKeys_mapSet (maps : PendingMap) (id : Val) (v : List reflectValue) :
    pendingKeys (mapSet maps id v) = addKey (pendingKeys maps) id := by
  induction maps with
  | nil => simp [mapSet, pendingKeys, addKey]
  | cons p rest ih =>
    obtain ⟨k, w⟩ := p
    simp only [pendingKeys] at ih ⊢
    by_cases h : k = id
    · subst h
      simp [mapSet, addKey]
    · simp only [mapSet, h, if_false, List.map_cons, ih, addKey, List.mem_cons]
      have : ¬ id = k := fun e => h e.symm
      by_cases hm : id ∈ List.map (fun x => x.1) rest
      · simp [hm]
      · simp [hm, this]

theorem slotsNonempty_mapSet (maps : PendingMap) (id : Val) (v : List reflectValue)
    (hv : v ≠ []) (h : slotsNonempty maps) : slotsNonempty (mapSet maps id v) := by
  induction maps with
  | nil =>
    intro e he
    simp [mapSet] at he
    subst he; exact hv
  | cons p rest ih =>
    obtain ⟨k, w⟩ := p
    intro e he
    by_cases hk : k = id
    · simp only [mapSet, hk, if_true, List.mem_cons] at he
      rcases he with he | he
      · subst he; exact hv
      · exact h e (by simp [he])
    · simp only [mapSet, hk, if_false, List.mem_cons] at he
      rcases he with he | he
      · subst he; exact h (k, w) (by simp)
      · exact ih (fun e he => h e (by simp [he])) e he

theorem pendingAdd_keys (maps maps2 : PendingMap) (id : Val) (slot : reflectValue)
    (h : pendingAdd maps id slot = .ret maps2) :
    pendingKeys maps2 = addKey (pendingKeys maps) id
    ∧ (slotsNonempty maps → slotsNonempty maps2) := by
  unfold pendingAdd at h
  split at h
  · cases h
    exact ⟨pendingKeys_mapSet _ _ _, slotsNonempty_mapSet _ _ _ (by simp)⟩
  · cases h

theorem addIds_keys (field : Loc) :
    ∀ (pairs : List (Val × Val)) (maps maps2 : PendingMap),
      addIds field pairs maps = .ret maps2 →
      pendingKeys maps2 = (pairs.filterMap (fun p => idOf p.2)).foldl addKey (pendingKeys maps)
      ∧ (slotsNonempty maps → slotsNonempty maps2) := by
  intro pairs
  induction pairs with
  | nil =>
    intro maps maps2 h
    simp [addIds] at h
    subst h
    exact ⟨rfl, id⟩
  | cons p rest ih =>
    intro maps maps2 h
    obtain ⟨key, val⟩ := p
    unfold addIds at h
    by_cases he : reflectValueEmpty val = true
    · simp only [he, Bool.not_true, Bool.false_eq_true, if_false] at h
      obtain ⟨h1, h2⟩ := ih _ _ h
      refine ⟨?_, h2⟩
      rw [h1]
      simp [List.filterMap_cons, idOf, he]
    · simp only [he, Bool.not_false, if_true] at h
      simp only [Bool.not_eq_true] at he
      split at h
      · rename_i idv hid
        split at h
        · rename_i m2 hm2
          obtain ⟨k1, k2⟩ := pendingAdd_keys _ _ _ _ hm2
          obtain ⟨h1, h2⟩ := ih _ _ h
          refine ⟨?_, fun hs => h2 (k2 hs)⟩
          rw [h1, k1]
          simp [List.filterMap_cons, idOf, he, hid]
        · cases h
        · cases h
      · cases h

theorem foldl_addKey_append (ks a b : List Val) :
    (a ++ b).foldl addKey ks = b.foldl addKey (a.foldl addKey ks) := by
  simp [List.foldl_append]

theorem findLoop_keys (f : PendingMap → Val → Loc → Res FindRet) (g : Val → List Val) :
    ∀ (items : List (Val × Loc)) (acc r : FindRet),
      (∀ m v l r, (v, l) ∈ items → f m v l = .ret r → r.err = none →
        pendingKeys r.maps = (g v).foldl addKey (pendingKeys m)
        ∧ (slotsNonempty m → slotsNonempty r.maps)) →
      findLoop f items acc = .ret r → acc.err = none → r.err = none →
      pendingKeys r.maps = (items.flatMap (fun p => g p.1)).foldl addKey (pendingKeys acc.maps)
      ∧ (slotsNonempty acc.maps → slotsNonempty r.maps) := by
  intro items
  induction items with
  | nil =>
    intro acc r _ h _ _
    simp [findLoop] at h
    subst h
    exact ⟨rfl, id⟩
  | cons p rest ih =>
    intro acc r hf h hacc herr
    obtain ⟨v, l⟩ := p
    unfold findLoop at h
    split at h
    · rename_i r1 hr1
      split at h
      · rename_i hsome
        cases h
        rw [herr] at hsome
        cases hsome
      · rename_i hnone
        have hr1err : r1.err = none := by
          cases hh : r1.err with
          | none => rfl
          | some e => rw [hh] at hnone; simp at hnone
        obtain ⟨k1, k2⟩ := hf acc.maps v l r1 (by simp) hr1 hr1err
        obtain ⟨h1, h2⟩ := ih r1 r (fun m v l r hm => hf m v l r (by simp [hm])) h hr1err herr
        refine ⟨?_, fun hs => h2 (k2 hs)⟩
        rw [h1, k1, List.flatMap_cons, foldl_addKey_append]
    · cases h
    · cases h

theorem ptr_elem_indirect (value0 : Val) :
    (if value0.Kind = .Ptr then value0.Elem else some value0) = some value0.Indirect := by
  cases value0 with
  | int t n => cases t <;> simp [Val.Kind, intKind, Val.Indirect]
  | _ => simp [Val.Kind, Val.Indirect, Val.Elem]

theorem foreignIds_hop (name p2 : String) (rest : List String) (value0 : Val)
    (valueStruct : DocumentStruct) (fieldStruct : DocumentStructField)
    (hget : mapGet valueStruct name = some fieldStruct) :
    foreignIds (name :: p2 :: rest) value0 valueStruct
      = match value0.Indirect.Field fieldStruct.Index with
        | some (.map _ _ ks vs) =>
          (ks.zip vs).flatMap (fun p => foreignIds (p2 :: rest) p.2 fieldStruct.Children)
        | some (.slice _ _ es) =>
          es.flatMap (fun e => foreignIds (p2 :: rest) e fieldStruct.Children)
        | some field => foreignIds (p2 :: rest) field fieldStruct.Children
        | none => [] := by
  rw [foreignIds]
  simp only [hget]

theorem foreignIds_terminal (name : String) (value0 : Val)
    (valueStruct : DocumentStruct) (fieldStruct : DocumentStructField)
    (hget : mapGet valueStruct name = some fieldStruct) :
    foreignIds [name] value0 valueStruct
      = match value0.Indirect.Field fieldStruct.PopulateIndex with
        | some idValue => nonEmptyIds idValue
        | none => [] := by
  rw [foreignIds]
  simp only [hget]

theorem reflectFind_keys :
    ∀ (path : List String) (maps : PendingMap) (value0 : Val) (loc0 : Loc)
      (valueStruct : DocumentStruct) (r : FindRet),
      reflectFind maps path value0 loc0 valueStruct = .ret r → r.err = none →
      pendingKeys r.maps = (foreignIds path value0 valueStruct).foldl addKey (pendingKeys maps)
      ∧ (slotsNonempty maps → slotsNonempty r.maps) := by
  intro path
  induction path with
  | nil =>
    intro maps value0 loc0 valueStruct r h
    simp [reflectFind] at h
  | cons name fieldPath ih =>
    intro maps value0 loc0 valueStruct r h herr
    unfold reflectFind at h
    rw [ptr_elem_indirect] at h
    simp only [] at h
    split at h
    · -- the value is not valid: nothing is recorded
      rename_i hinv
      cases h
      have hnil : value0.Indirect = .nil := by
        cases hv : value0.Indirect <;> simp_all [Val.IsValid]
      refine ⟨?_, id⟩
      unfold foreignIds
      cases hm : mapGet valueStruct name with
      | none => rfl
      | some fs =>
        simp only [hnil, Val.Field]
        cases fieldPath <;> rfl
    · split at h
      · cases h; cases herr
      · split at h
        · cases h; cases herr
        · rename_i fieldStruct hget
          split at h
          · cases h
          · rename_i field hfield
            split at h
            · -- a non-terminal hop
              rename_i p2 rest2
              rw [foreignIds_hop name p2 rest2 value0 valueStruct fieldStruct hget, hfield]
              split at h
              · rename_i t a ks vs
                have := findLoop_keys _ (fun v => foreignIds (p2 :: rest2) v fieldStruct.Children)
                  (withKeyLocs
                    ((if value0.Kind = Kind.Ptr then loc0 ++ [Step.elem] else loc0) ++
                      [Step.field fieldStruct.Index]) ks vs)
                  ⟨"", none, maps⟩ r
                  (fun m v l r _ hr he => ih m v l fieldStruct.Children r hr he) h rfl herr
                refine ⟨?_, this.2⟩
                rw [this.1]
                simp only [withKeyLocs, List.flatMap_map]
              · rename_i t a es
                have := findLoop_keys _ (fun v => foreignIds (p2 :: rest2) v fieldStruct.Children)
                  (withIndexLocs
                    ((if value0.Kind = Kind.Ptr then loc0 ++ [Step.elem] else loc0) ++
                      [Step.field fieldStruct.Index]) es)
                  ⟨"", none, maps⟩ r
                  (fun m v l r _ hr he => ih m v l fieldStruct.Children r hr he) h rfl herr
                refine ⟨?_, this.2⟩
                rw [this.1]
                simp only [withIndexLocs, List.flatMap_map]
                conv_rhs => rw [← indexed_map_snd es, List.flatMap_map]
              · rename_i hnm hns
                have := ih _ _ _ _ _ h herr
                refine ⟨?_, this.2⟩
                rw [this.1]
                split
                · rename_i heq
                  cases heq
                  exact absurd rfl (hnm _ _ _ _)
                · rename_i heq
                  cases heq
                  exact absurd rfl (hns _ _ _)
                · rename_i heq
                  cases heq
                  rfl
                · rename_i heq
                  cases heq
            · -- the terminal hop
              rw [foreignIds_terminal name value0 valueStruct fieldStruct hget]
              split at h
              · cases h; cases herr
              · split at h
                · cases h
                · rename_i idValue hid
                  simp only [hid]
                  split at h
                  · rename_i hempty
                    cases h
                    refine ⟨?_, id⟩
                    simp [nonEmptyIds, hempty]
                  · rename_i hne
                    split at h
                    · rename_i t a ks vs
                      split at h
                      · rename_i maps2 hadd
                        cases h
                        obtain ⟨k1, k2⟩ := addIds_keys _ _ _ _ hadd
                        refine ⟨?_, k2⟩
                        rw [k1]
                        simp [nonEmptyIds, hne]
                      · cases h
                      · cases h
                    · rename_i t a es
                      split at h
                      · rename_i maps2 hadd
                        cases h
                        obtain ⟨k1, k2⟩ := addIds_keys _ _ _ _ hadd
                        refine ⟨?_, k2⟩
                        rw [k1]
                        simp [nonEmptyIds, hne, List.filterMap_map, Function.comp_def]
                      · cases h
                      · cases h
                    · rename_i hnm hns
                      split at h
                      · rename_i idv hidv
                        split at h
                        · rename_i maps2 hadd
                          cases h
                          obtain ⟨k1, k2⟩ := pendingAdd_keys _ _ _ _ hadd
                          refine ⟨?_, k2⟩
                          rw [k1]
                          simp only [nonEmptyIds, hne, if_false]
                          cases idValue with
                          | map t a ks vs => exact (hnm _ _ _ _ rfl).elim
                          | slice t a es => exact (hns _ _ _ rfl).elim
                          | _ => simp [hidv]
                        · cases h
                        · cases h
                      · cases h

/-- The record behind an element of the batch: the content of an interface,
the element itself otherwise. -/
def unwrapIface : Val → Val
  | .iface v => v
  | v => v

/-- The non-empty foreign ids found in all root records along a path. -/
def batchForeignIds (names : List String) (documentStruct : DocumentStruct)
    (es : List Val) : List Val :=
  es.flatMap (fun e => foreignIds names (unwrapIface e) documentStruct)

/-- A slot already holds a resolved value for the element type `sliceTyp`: a
non-empty value of exactly that type, or a sequence of that element type with
at least one element. -/
def holdsResolved (sliceTyp : GoType) (cur : Val) : Bool :=
  !reflectValueEmpty cur &&
    (cur.Typ == sliceTyp ||
      match cur with
      | .slice t _ es => t.Elem == some sliceTyp && !es.isEmpty
      | _ => false)

theorem iface_elem_unwrap (v : Val) :
    (if v.Kind = .Interface then v.Elem else some v) = some (unwrapIface v) := by
  cases v with
  | int t n => cases t <;> simp [Val.Kind, intKind, unwrapIface]
  | _ => simp [Val.Kind, unwrapIface, Val.Elem]

theorem walkDocuments_keys (names : List String) (documentStruct : DocumentStruct) :
    ∀ (items : List (Val × Loc)) (acc r : FindRet),
      walkDocuments names documentStruct items acc = .ret r → acc.err = none → r.err = none →
      pendingKeys r.maps
        = (items.flatMap (fun p => foreignIds names (unwrapIface p.1) documentStruct)).foldl
            addKey (pendingKeys acc.maps) := by
  intro items
  induction items with
  | nil =>
    intro acc r h _ _
    simp [walkDocuments] at h
    subst h
    rfl
  | cons p rest ih =>
    intro acc r h hacc herr
    obtain ⟨v, l⟩ := p
    unfold walkDocuments at h
    rw [iface_elem_unwrap] at h
    simp only [] at h
    split at h
    · rename_i r1 hr1
      split at h
      · rename_i hsome
        cases h
        rw [herr] at hsome
        cases hsome
      · rename_i hnone
        have hr1err : r1.err = none := by
          cases hh : r1.err with
          | none => rfl
          | some e => rw [hh] at hnone; simp at hnone
        have k1 := (reflectFind_keys names acc.maps _ _ documentStruct r1 hr1 hr1err).1
        rw [ih r1 r h hr1err herr, k1, List.flatMap_cons, foldl_addKey_append]
    · cases h
    · cases h

theorem foldl_addKey_nodup (ids : List Val) :
    ∀ ks : List Val, ks.Nodup → (ids.foldl addKey ks).Nodup := by
  induction ids with
  | nil => intro ks h; exact h
  | cons id rest ih =>
    intro ks h
    simp only [List.foldl_cons]
    apply ih
    unfold addKey
    split
    · exact h
    · rename_i hn
      rw [List.nodup_append]
      refine ⟨h, by simp, ?_⟩
      intro a ha hb
      simp only [List.mem_singleton] at hb
      subst hb
      exact hn ha

theorem foldl_addKey_mem (ids : List Val) :
    ∀ (ks : List Val) (k : Val), k ∈ ids.foldl addKey ks ↔ k ∈ ks ∨ k ∈ ids := by
  induction ids with
  | nil => intro ks k; simp
  | cons id rest ih =>
    intro ks k
    simp only [List.foldl_cons, ih, List.mem_cons]
    unfold addKey
    split
    · rename_i hin
      constructor
      · rintro (h | h)
        · exact Or.inl h
        · exact Or.inr (Or.inr h)
      · rintro (h | h | h)
        · exact Or.inl h
        · subst h; exact Or.inl hin
        · exact Or.inr h
    · simp only [List.mem_append, List.mem_singleton]
      tauto

theorem scanValues_unresolved (root : Val) (sliceTyp : GoType) :
    ∀ (values : List reflectValue) (existsValue : List Val),
      (∀ slot ∈ values, ∃ cur, root.read slot.value = some cur
        ∧ holdsResolved sliceTyp cur = false) →
      scanValues root sliceTyp values existsValue = some (false, existsValue) := by
  intro values
  induction values with
  | nil => intro ev _; rfl
  | cons slot rest ih =>
    intro ev h
    obtain ⟨cur, hread, hres⟩ := h slot (by simp)
    have hrest := ih ev (fun s hs => h s (by simp [hs]))
    unfold scanValues
    simp only [hread]
    by_cases he : reflectValueEmpty cur = true
    · simp only [he, if_true]
      exact hrest
    · simp only [he, if_false]
      simp only [holdsResolved, he, Bool.not_false, Bool.true_and, Bool.or_eq_false_iff,
        beq_eq_false_iff_ne, ne_eq] at hres
      obtain ⟨hty, hsl⟩ := hres
      simp only [hty, if_false]
      cases cur with
      | slice t a es =>
        simp only [] at hsl ⊢
        by_cases hel : t.Elem = some sliceTyp
        · simp only [hel, if_true]
          simp only [hel, beq_self_eq_true, Bool.true_and, Bool.not_eq_false',
            List.isEmpty_iff] at hsl
          subst hsl
          simpa using hrest
        · simp only [hel, if_false]
          exact hrest
      | _ => exact hrest

theorem scanMap_unresolved (root : Val) (sliceTyp : GoType) :
    ∀ (maps : PendingMap) (existsValue findValue : List Val),
      (∀ e ∈ maps, ∀ slot ∈ e.2, ∃ cur, root.read slot.value = some cur
        ∧ holdsResolved sliceTyp cur = false) →
      scanMap root sliceTyp maps existsValue findValue
        = some (existsValue, findValue ++ pendingKeys maps) := by
  intro maps
  induction maps with
  | nil => intro ev fv _; simp [scanMap, pendingKeys]
  | cons e rest ih =>
    intro ev fv h
    obtain ⟨key, values⟩ := e
    unfold scanMap
    rw [scanValues_unresolved root sliceTyp values ev (h (key, values) (by simp))]
    simp only []
    rw [ih ev (fv ++ [key]) (fun e he => h e (by simp [he]))]
    simp [pendingKeys]

theorem Query.Name_Options (query : Query) (name operator : String) (value : QValue) :
    (query.Name name operator value).Options = query.Options := by
  obtain ⟨md, ex, pop, opts⟩ := query
  simp only [Query.Name, Query.Expr]
  split <;> rfl

theorem Query.All_fetches (popAll : MgoModel.Populate → Val → Traced PopRet) (query : Query)
    (documents : Val) (filter : Document) (h : query.Map = .ret filter) :
    (query.All popAll documents).fetches = [⟨filter, query.Options⟩] := by
  unfold Query.All
  rw [h]
  simp only []
  split
  · rfl
  · split
    · rfl
    · split <;> rfl

theorem reflectPopulate_fetches (parse : GoType → Res ParseRet)
    (popAll : Populate → Val → Traced PopRet) (fuel : Nat) (root : Val)
    (findPath : List String) (maps : PendingMap) (query : Query)
    (sliceTyp : GoType) (findPath2 : List String) (rpath : List reflectPath) (filter : Document)
    (hne : maps ≠ [])
    (hsl : sliceTypOf root maps = some sliceTyp)
    (hun : ∀ e ∈ maps, ∀ slot ∈ e.2, ∃ cur, root.read slot.value = some cur
      ∧ holdsResolved sliceTyp cur = false)
    (hlook : mapLookupPath parse sliceTyp findPath = .ret (none, findPath2, rpath))
    (hmap : (query.In (joinDots findPath2) (.list ((pendingKeys maps).map .lit))).Map
      = .ret filter) :
    (reflectPopulate parse popAll fuel root findPath maps query).fetches
      = [⟨filter, query.Options⟩] := by
  have hkeys : (pendingKeys maps).length ≠ 0 := by
    cases maps with
    | nil => exact absurd rfl hne
    | cons e rest => simp [pendingKeys]
  unfold reflectPopulate
  simp only [hsl, scanMap_unresolved root sliceTyp maps [] [] hun, List.length_nil, ne_eq,
    not_true_eq_false, if_false, List.nil_append, hkeys, hlook]
  have hf := Query.All_fetches popAll _
    (.ptr (.ptr (.slice sliceTyp)) 1 (.slice (.slice sliceTyp) 1 [])) filter hmap
  have ho : (query.In (joinDots findPath2) (.list ((pendingKeys maps).map .lit))).Options
      = query.Options := Query.Name_Options _ _ _ _
  rw [ho] at hf
  split
  · exact hf
  · exact hf
  · split
    · exact hf
    · exact hf

/-- C2 (amended). One relation path over the root records `es` of a batch,
whose walk (`reflectFind` over every record) succeeds with the pending-slot
map `found.maps`.  The ids of that map are pairwise distinct and are exactly
the non-empty foreign ids found in the root records.  If there is none, no
fetch is issued.  Otherwise, if no slot holds a resolved value for the element
type, the lookup path resolves in the metadata of the element type and the
sub-query compiles, exactly one fetch is issued: the compiled form of the
sub-query whose `in` operand for the lookup field is the list of those ids. -/
theorem populatePaths_one_batched_fetch (parse : GoType → Res ParseRet)
    (popAll : Populate → Val → Traced PopRet) (fuel : Nat) (documentStruct : DocumentStruct)
    (sliceLoc : Loc) (path : String) (query : Query) (root : Val)
    (t : GoType) (a : Nat) (es : List Val) (found : FindRet)
    (hslice : root.read sliceLoc = some (.slice t a es))
    (hwalk : walkDocuments (splitPath path) documentStruct (withIndexLocs sliceLoc es)
      ⟨"", none, []⟩ = .ret found)
    (hwalkerr : found.err = none) :
    (pendingKeys found.maps).Nodup
    ∧ (∀ k, k ∈ pendingKeys found.maps ↔
        k ∈ batchForeignIds (splitPath path) documentStruct es)
    ∧ (batchForeignIds (splitPath path) documentStruct es = [] →
        (populatePaths parse popAll fuel documentStruct sliceLoc [(path, query)] root
          none).fetches = [])
    ∧ (batchForeignIds (splitPath path) documentStruct es ≠ [] →
        ∀ (sliceTyp : GoType) (findPath2 : List String) (rpath : List reflectPath)
          (filter : Document),
          sliceTypOf root found.maps = some sliceTyp →
          (∀ e ∈ found.maps, ∀ slot ∈ e.2, ∃ cur, root.read slot.value = some cur
            ∧ holdsResolved sliceTyp cur = false) →
          mapLookupPath parse sliceTyp
            (if found.findPath ≠ "" then splitPath found.findPath else [])
            = .ret (none, findPath2, rpath) →
          (query.In (joinDots findPath2)
            (.list ((pendingKeys found.maps).map .lit))).Map = .ret filter →
          (populatePaths parse popAll fuel documentStruct sliceLoc [(path, query)] root
            none).fetches = [⟨filter, query.Options⟩]
          ∧ ∃ m, mapGet (query.In (joinDots findPath2)
                (.list ((pendingKeys found.maps).map .lit))).Expr
                (storedName (joinDots findPath2)) = some (.msi m)
              ∧ mapGet m "in" = some (.list ((pendingKeys found.maps).map .lit))) := by
  have hkeys : pendingKeys found.maps
      = (batchForeignIds (splitPath path) documentStruct es).foldl addKey [] := by
    have := walkDocuments_keys (splitPath path) documentStruct (withIndexLocs sliceLoc es)
      ⟨"", none, []⟩ found hwalk rfl hwalkerr
    rw [this]
    simp only [pendingKeys, List.map_nil, withIndexLocs, List.flatMap_map, batchForeignIds]
    conv_rhs => rw [← indexed_map_snd es, List.flatMap_map]
  have hmaps : found.maps = [] ↔ batchForeignIds (splitPath path) documentStruct es = [] := by
    constructor
    · intro h
      have hk : pendingKeys found.maps = [] := by simp [pendingKeys, h]
      rw [hkeys] at hk
      by_contra hne
      obtain ⟨x, hx⟩ := List.exists_mem_of_ne_nil _ hne
      have := (foldl_addKey_mem _ [] x).mpr (Or.inr hx)
      rw [hk] at this
      cases this
    · intro h
      rw [h] at hkeys
      simp only [List.foldl_nil, pendingKeys, List.map_eq_nil_iff] at hkeys
      exact hkeys
  refine ⟨?_, ?_, ?_, ?_⟩
  · rw [hkeys]
    exact foldl_addKey_nodup _ [] List.nodup_nil
  · intro k
    rw [hkeys, foldl_addKey_mem]
    simp
  · intro hnone
    have hm := hmaps.mpr hnone
    unfold populatePaths
    simp only [hslice, hwalk, hwalkerr, hm, List.length_nil, ne_eq, not_true_eq_false, if_false]
    unfold populatePaths
    rfl
  · intro hsome sliceTyp findPath2 rpath filter hsl hun hlook hmap
    have hm : found.maps ≠ [] := fun e => hsome (hmaps.mp e)
    have hlen : found.maps.length ≠ 0 := by
      cases hf : found.maps with
      | nil => exact absurd hf hm
      | cons e rest => simp
    have hf := reflectPopulate_fetches parse popAll fuel root _ found.maps query sliceTyp
      findPath2 rpath filter hm hsl hun hlook hmap
    constructor
    · unfold populatePaths
      simp only [hslice, hwalk, hwalkerr, hlen, ne_eq, not_false_eq_true, if_true]
      split
      · simp only [populatePaths, List.append_nil]
        exact hf
      · exact hf
      · exact hf
    · obtain ⟨m, h1, h2, _⟩ := Query.Name_entry query (joinDots findPath2) "in"
        (.list ((pendingKeys found.maps).map .lit))
      exact ⟨m, h1, h2⟩

/-- The metadata of `Post`, as `DocumentStructParse` yields it. -/
def postStruct : DocumentStruct :=
  [("ID", .mk 0 "ID" false "_id" false 0 "" "" []),
   ("AuthorID", .mk 1 "AuthorID" false "AuthorID" false 0 "" "" []),
   ("Author", .mk 2 "Author" false "Author" false 1 "AuthorID" "ID" [])]

/-- Three posts with empty author slots that reference two distinct users. -/
def threePosts : List Val :=
  [examplePost "p1" "u1" nilUser, examplePost "p2" "u2" nilUser, examplePost "p3" "u1" nilUser]

/-- The author slot of post number `i` of a batch. -/
def authorSlot (i : Nat) : reflectValue :=
  ⟨.nil, [Step.elem, Step.index i, Step.elem, Step.field 2]⟩

/-- What the walk over `threePosts` along `Author` returns. -/
def threePostsFound : FindRet :=
  ⟨"ID", none,
    [(.str .string "u1", [authorSlot 0, authorSlot 2]), (.str .string "u2", [authorSlot 1])]⟩

/-- The filter of the batched fetch for `threePosts`. -/
def threePostsFilter : Document :=
  [("_id", .msi [("$in", .list [.lit (.str .string "u1"), .lit (.str .string "u2")])])]

/-- Witness for C2: three posts that reference the users `u1`, `u2`, `u1`; the
walk records the two distinct ids, and one fetch with the filter
`_id in [u1, u2]` is issued. -/
theorem populatePaths_one_batched_fetch_witness :
    walkDocuments (splitPath "Author") postStruct
        (withIndexLocs [Step.elem] threePosts) ⟨"", none, []⟩ = .ret threePostsFound
    ∧ pendingKeys threePostsFound.maps = [.str .string "u1", .str .string "u2"]
    ∧ batchForeignIds (splitPath "Author") postStruct threePosts
        = [.str .string "u1", .str .string "u2", .str .string "u1"]
    ∧ (populatePaths exampleParse (Populate.All exampleParse 2) 3 postStruct [Step.elem]
        [("Author", (exampleModel (none, [])).Query)] (examplePosts threePosts) none).fetches
      = [⟨threePostsFilter, (exampleModel (none, [])).Query.Options⟩] := by
  have hwalk : walkDocuments (splitPath "Author") postStruct
      (withIndexLocs [Step.elem] threePosts) ⟨"", none, []⟩ = .ret threePostsFound := by decide
  refine ⟨hwalk, by decide, by decide, ?_⟩
  have h := (populatePaths_one_batched_fetch exampleParse (Populate.All exampleParse 2) 3
    postStruct [Step.elem] "Author" (exampleModel (none, [])).Query (examplePosts threePosts)
    (.slice (.ptr (.struct "Post"))) 8 threePosts threePostsFound rfl hwalk rfl).2.2.2
    (by decide) (.ptr (.struct "User")) ["_id"] [⟨.str .string "_id", 0⟩] threePostsFilter
    (by decide)
    (by
      intro e he slot hs
      simp only [threePostsFound, List.mem_cons, List.mem_singleton, List.not_mem_nil,
        or_false] at he
      rcases he with he | he <;> subst he <;>
        simp only [List.mem_cons, List.mem_singleton, List.not_mem_nil, or_false] at hs
      · rcases hs with hs | hs <;> subst hs <;> exact ⟨nilUser, by decide, by decide⟩
      · subst hs
        exact ⟨nilUser, by decide, by decide⟩)
    (by decide) rfl
  exact h.1

/-- A comment behind a pointer, with an empty author slot. -/
def exampleComment (id authorID : String) : Val :=
  .ptr (.ptr (.struct "Comment")) 600
    (.struct (.struct "Comment") [.str .string id, .str .string authorID, nilUser])

/-- The batch `[]*Comment` with one comment that references user `u1`. -/
def exampleComments : Val :=
  .ptr (.ptr (.slice (.ptr (.struct "Comment")))) 11
    (.slice (.slice (.ptr (.struct "Comment"))) 12 [exampleComment "c1" "u1"])

/-- The metadata of `Comment`: the relation of `Author` looks `_id` up. -/
def commentStruct : DocumentStruct :=
  [("ID", .mk 0 "ID" false "_id" false 0 "" "" []),
   ("AuthorID", .mk 1 "AuthorID" false "AuthorID" false 0 "" "" []),
   ("Author", .mk 2 "Author" false "Author" false 1 "AuthorID" "_id" [])]

/-- C2 (counterexample). One comment with an empty author slot references the
user `u1`, and the relation annotation names the lookup field `_id`, which is
the storage name and not a field name of `User`.  A non-empty foreign id is
found and no slot holds a resolved value, yet no fetch is issued:
`reflectPopulate` stops with its "Path not found" error. -/
theorem Populate_All_unresolved_lookup_path_no_fetch :
    batchForeignIds (splitPath "Author") commentStruct [exampleComment "c1" "u1"]
        = [.str .string "u1"]
    ∧ reflectValueEmpty nilUser = true
    ∧ (Populate.All exampleParse 3 [("Author", (exampleModel (none, [])).Query)]
        exampleComments).fetches.length = 0
    ∧ (Populate.All exampleParse 3 [("Author", (exampleModel (none, [])).Query)]
        exampleComments).out = .ret ⟨some "Path not found", exampleComments⟩ := by
  refine ⟨by decide, by decide, by decide, by decide⟩

/-! ## The filter compiler on one recorded call -/

theorem startsWithDollar_storedName (name : String) :
    startsWithDollar (storedName name) = false := by
  unfold storedName
  split
  · simp [startsWithDollar, String.data_append]
  · rename_i h
    simpa using h

/-- A fresh query compiles one recorded operator whose operand is no
`QueryVariable`, under an operator other than the lone `eq`, to the operator
sub-document of the field. -/
theorem Query.Map_single_operator (model : ModelInterface) (f operator : String) (v : QValue)
    (hv : v.isQueryVariable = false) (hop : normalizeOperator operator ≠ "eq")
    (hop2 : normalizeOperator operator ≠ "$eq") :
    (model.Query.Name f operator v).Map
      = .ret [(storedName f, .msi [(if startsWithDollar (normalizeOperator operator) then
          normalizeOperator operator else "$" ++ normalizeOperator operator, v)])] := by
  have hs := startsWithDollar_storedName f
  by_cases hd : startsWithDollar (normalizeOperator operator) = true
  · simp [Query.Map, ModelInterface.Query, Query.Name, Query.Expr, Query.withExpr, mapGet, mapSet,
      mapEntries, mapOperators, hs, hv, hd, hop2, mapExpr, Query.Options]
  · have hne : ("$" ++ normalizeOperator operator) ≠ "$eq" := by
      intro h
      apply hop
      have h2 := congrArg String.data h
      simp [String.data_append] at h2
      exact String.ext h2
    simp [Query.Map, ModelInterface.Query, Query.Name, Query.Expr, Query.withExpr, mapGet, mapSet,
      mapEntries, mapOperators, hs, hv, hd, hne, mapExpr, Query.Options]

/-- C11. The operator tokens `=` and the empty token are not normalised: on a
fresh query, `Name(f, "=", v)` compiles to the sub-document `{"$=": v}` of the
field and `Name(f, "", v)` to `{"$": v}`, for every field and every operand
that is no `QueryVariable`; neither is the bare assignment `f -> v`. -/
theorem Query.Name_equals_sign_is_not_bare (model : ModelInterface) (f : String) (v : QValue)
    (hv : v.isQueryVariable = false) :
    (model.Query.Name f "=" v).Map = .ret [(storedName f, .msi [("$=", v)])]
    ∧ (model.Query.Name f "" v).Map = .ret [(storedName f, .msi [("$", v)])] := by
  constructor
  · have h := Query.Map_single_operator model f "=" v hv (by decide) (by decide)
    simpa [normalizeOperator, startsWithDollar] using h
  · have h := Query.Map_single_operator model f "" v hv (by decide) (by decide)
    simpa [normalizeOperator, startsWithDollar] using h

/-- The operand `5` on the field `age`: `=` and the empty token against `==`. -/
theorem Query.Name_equals_sign_is_not_bare_witness :
    ((exampleModel (none, [])).Query.Name "age" "=" (.lit (.int .int 5))).Map
        = .ret [("age", .msi [("$=", .lit (.int .int 5))])]
    ∧ ((exampleModel (none, [])).Query.Name "age" "" (.lit (.int .int 5))).Map
        = .ret [("age", .msi [("$", .lit (.int .int 5))])]
    ∧ ((exampleModel (none, [])).Query.Name "age" "==" (.lit (.int .int 5))).Map
        = .ret [("age", .lit (.int .int 5))] :=
  ⟨(Query.Name_equals_sign_is_not_bare (exampleModel (none, [])) "age" (.lit (.int .int 5)) rfl).1,
   (Query.Name_equals_sign_is_not_bare (exampleModel (none, [])) "age" (.lit (.int .int 5)) rfl).2,
   rfl⟩

/-! ## `QueryVariable` operands -/

theorem mem_mapSet_self {α β : Type} [DecidableEq α] (m : List (α × β)) (k : α) (v : β) :
    (k, v) ∈ mapSet m k v := by
  induction m with
  | nil => simp [mapSet]
  | cons p rest ih =>
    obtain ⟨k2, v2⟩ := p
    by_cases h : k2 = k
    · simp [mapSet, h]
    · simp only [mapSet, if_neg h]
      exact List.mem_cons_of_mem _ ih

/-- The assertion `val.(string)` fails on every `QueryVariable`. -/
theorem assertString_QueryVariable (v : QValue) (h : v.isQueryVariable = true) :
    v.assertString = none := by
  cases v with
  | lit x =>
    cases x with
    | str t s =>
      simp only [QValue.isQueryVariable, beq_iff_eq] at h
      subst h
      rfl
    | _ => simp [QValue.isQueryVariable] at h
  | _ => simp [QValue.isQueryVariable] at h

/-- The inner loop of `Map` returns or panics. -/
theorem mapOperators_ret_or_panic (name : String) (n : Nat) (ops : List (String × QValue)) :
    ∀ st : MapState, (∃ st2, mapOperators name n ops st = .ret st2)
      ∨ mapOperators name n ops st = .panic := by
  induction ops with
  | nil => intro st; exact Or.inl ⟨st, by simp [mapOperators]⟩
  | cons p rest ih =>
    intro st
    obtain ⟨operator0, val⟩ := p
    rw [mapOperators]
    repeat' split
    all_goals first
      | exact ih _
      | exact Or.inr rfl

/-- The inner loop of `Map` panics when an operand is a `QueryVariable`. -/
theorem mapOperators_panics (name : String) (n : Nat) (ops : List (String × QValue)) :
    ∀ st : MapState, (∃ p ∈ ops, p.2.isQueryVariable = true) →
      mapOperators name n ops st = .panic := by
  induction ops with
  | nil => intro st h; obtain ⟨p, hp, _⟩ := h; cases hp
  | cons p rest ih =>
    intro st h
    obtain ⟨operator0, val⟩ := p
    by_cases hqv : val.isQueryVariable = true
    · rw [mapOperators]
      simp [hqv, assertString_QueryVariable val hqv]
    · have hrest : ∃ p ∈ rest, p.2.isQueryVariable = true := by
        obtain ⟨p, hp, hq⟩ := h
        rcases List.mem_cons.mp hp with h1 | h1
        · subst h1; exact absurd hq hqv
        · exact ⟨p, h1, hq⟩
      rw [mapOperators]
      repeat' split
      all_goals first
        | exact ih _ hrest
        | rfl

/-- The outer loop of `Map` panics when a recorded field holds a
`QueryVariable` operand. -/
theorem mapEntries_panics (es : List (String × QValue)) :
    ∀ st : MapState,
      (∃ e ∈ es, startsWithDollar e.1 = false
        ∧ ∃ vm, e.2 = .msi vm ∧ ∃ p ∈ vm, p.2.isQueryVariable = true) →
      mapEntries es st = .panic := by
  induction es with
  | nil => intro st h; obtain ⟨e, he, _⟩ := h; cases he
  | cons e rest ih =>
    intro st h
    obtain ⟨name, value⟩ := e
    obtain ⟨e, he, hd, vm, hvm, hp⟩ := h
    rcases List.mem_cons.mp he with h1 | h1
    · subst h1
      simp only at hd hvm
      subst hvm
      simp [mapEntries, hd, mapOperators_panics name vm.length vm st hp]
    · have hrest : ∃ e ∈ rest, startsWithDollar e.1 = false
          ∧ ∃ vm, e.2 = .msi vm ∧ ∃ p ∈ vm, p.2.isQueryVariable = true :=
        ⟨e, h1, hd, vm, hvm, hp⟩
      by_cases hd2 : startsWithDollar name = true
      · simp only [mapEntries, hd2, if_true]
        exact ih _ hrest
      · cases value with
        | msi valueMap =>
          rcases mapOperators_ret_or_panic name valueMap.length valueMap st with ⟨st2, h2⟩ | h2
          · simp only [mapEntries, hd2, h2]
            exact ih _ hrest
          · simp [mapEntries, hd2, h2]
        | lit v =>
          simp only [mapEntries, hd2]
          exact ih _ hrest
        | list v =>
          simp only [mapEntries, hd2]
          exact ih _ hrest
        | strs v =>
          simp only [mapEntries, hd2]
          exact ih _ hrest

/-- C12. A `QueryVariable` operand never compiles: for every query, field,
operator and named field, `Map()` of the query after
`Name(a, op, QueryVariable(b))` panics (the assertion `val.(string)` fails on
a `QueryVariable`), so no `$expr` entry is ever returned. -/
theorem Query.Map_panics_on_QueryVariable (query : Query) (a op b : String) :
    (query.Name a op (.lit (.str queryVariableType b))).Map = .panic := by
  obtain ⟨m, h1, h2, _⟩ := Query.Name_entry query a op (.lit (.str queryVariableType b))
  have hmem : ∀ {α β : Type} [DecidableEq α] (l : List (α × β)) (k : α) (v : β),
      mapGet l k = some v → (k, v) ∈ l := by
    intro α β _ l k v
    induction l with
    | nil => intro h; simp [mapGet] at h
    | cons p rest ih =>
      obtain ⟨k2, v2⟩ := p
      intro h
      by_cases hk : k2 = k
      · simp only [mapGet, if_pos hk] at h
        cases h; subst hk; exact List.mem_cons_self _ _
      · simp only [mapGet, if_neg hk] at h
        exact List.mem_cons_of_mem _ (ih h)
  have hp := mapEntries_panics (query.Name a op (.lit (.str queryVariableType b))).Expr ⟨[], []⟩
    ⟨_, hmem _ _ _ h1, startsWithDollar_storedName a, m, rfl, _, hmem _ _ _ h2, by
      simp [QValue.isQueryVariable]⟩
  unfold Query.Map
  rw [hp]

/-! ## Recorded expressions that compile -/

/-- The operator key `Map` writes: `$` is put in front of an operator that
lacks it. -/
def nativeOperator (operator : String) : String :=
  if !startsWithDollar operator then "$" ++ operator else operator

/-- An operand on which the inner loop of `Map` does not panic: it is no
`QueryVariable`, and it is not the nil interface under a lone `eq`; `n` is the
number of operators of the field. -/
def operandCompiles (n : Nat) (p : String × QValue) : Bool :=
  !p.2.isQueryVariable && !(decide (nativeOperator p.1 = "$eq") && n == 1 && p.2.typeKind.isNone)

/-- A recorded entry on which `Map` does not panic. -/
def entryCompiles (e : String × QValue) : Bool :=
  startsWithDollar e.1 ||
    match e.2 with
    | .msi valueMap => valueMap.all (operandCompiles valueMap.length)
    | _ => true

/-- A recorded filter expression on which `Map` does not panic. -/
def operandsCompile (expr : Document) : Bool := expr.all entryCompiles

theorem mem_keys_mapSet {α β : Type} [DecidableEq α] (m : List (α × β)) (k : α) (v : β) (x : α)
    (h : x ∈ (mapSet m k v).map Prod.fst) : x = k ∨ x ∈ m.map Prod.fst := by
  induction m with
  | nil => simp [mapSet] at h; exact Or.inl h
  | cons p rest ih =>
    obtain ⟨k2, v2⟩ := p
    by_cases hk : k2 = k
    · simp [mapSet, hk] at h
      rcases h with h | h
      · exact Or.inl h
      · right; simp; right; exact h
    · simp [mapSet, hk] at h
      rcases h with h | h
      · right; simp [h]
      · rcases ih (by simpa using h) with h2 | h2
        · exact Or.inl h2
        · right; simp at h2 ⊢; right; exact h2

theorem mapGet_isSome_mapSet {α β : Type} [DecidableEq α] (m : List (α × β)) (k k2 : α) (v : β)
    (h : (mapGet m k2).isSome) : (mapGet (mapSet m k v) k2).isSome := by
  by_cases hk : k2 = k
  · subst hk; simp [mapGet_mapSet_same]
  · rw [mapGet_mapSet_other _ _ _ _ hk]; exact h

/-- The inner loop of `Map` returns on operands that compile; it leaves the
collected expressions and every other field alone and writes the field when
there is an operator. -/
theorem mapOperators_ret (name : String) (n : Nat) (ops : List (String × QValue)) :
    ∀ st : MapState, (∀ p ∈ ops, operandCompiles n p = true) →
    ∃ maps2, mapOperators name n ops st = .ret ⟨maps2, st.expr⟩
      ∧ (∀ k, k ≠ name → mapGet maps2 k = mapGet st.maps k)
      ∧ (∀ k ∈ maps2.map Prod.fst, k = name ∨ k ∈ st.maps.map Prod.fst)
      ∧ (∀ k, (mapGet st.maps k).isSome → (mapGet maps2 k).isSome)
      ∧ (ops ≠ [] → (mapGet maps2 name).isSome) := by
  induction ops with
  | nil =>
    intro st _
    exact ⟨st.maps, by simp [mapOperators], fun _ _ => rfl, fun k hk => Or.inr hk,
      fun _ h => h, fun h => absurd rfl h⟩
  | cons p rest ih =>
    intro st hall
    obtain ⟨operator0, val⟩ := p
    have hp := hall (operator0, val) (List.mem_cons_self _ _)
    have hrest : ∀ p ∈ rest, operandCompiles n p = true :=
      fun p hp => hall p (List.mem_cons_of_mem _ hp)
    simp only [operandCompiles, Bool.and_eq_true, Bool.not_eq_true', Bool.and_eq_false_imp,
      decide_eq_true_eq, beq_iff_eq] at hp
    obtain ⟨hqv, hnil⟩ := hp
    -- every branch that is taken continues with a state that has the field set
    have key : ∀ maps1 : Document, (∀ k, k ≠ name → mapGet maps1 k = mapGet st.maps k) →
        (∀ k ∈ maps1.map Prod.fst, k = name ∨ k ∈ st.maps.map Prod.fst) →
        (∀ k, (mapGet st.maps k).isSome → (mapGet maps1 k).isSome) →
        (mapGet maps1 name).isSome →
        ∃ maps2, mapOperators name n rest ⟨maps1, st.expr⟩ = .ret ⟨maps2, st.expr⟩
          ∧ (∀ k, k ≠ name → mapGet maps2 k = mapGet st.maps k)
          ∧ (∀ k ∈ maps2.map Prod.fst, k = name ∨ k ∈ st.maps.map Prod.fst)
          ∧ (∀ k, (mapGet st.maps k).isSome → (mapGet maps2 k).isSome)
          ∧ ((operator0, val) :: rest ≠ [] → (mapGet maps2 name).isSome) := by
      intro maps1 h1 h2 h3 h4
      obtain ⟨maps2, e, g1, g2, g3, _⟩ := ih ⟨maps1, st.expr⟩ hrest
      refine ⟨maps2, e, ?_, ?_, ?_, ?_⟩
      · intro k hk; rw [g1 k hk]; exact h1 k hk
      · intro k hk
        rcases g2 k hk with h | h
        · exact Or.inl h
        · exact h2 k h
      · intro k hk; exact g3 k (h3 k hk)
      · intro _; exact g3 name h4
    have setOk : ∀ v : QValue,
        ∃ maps2, mapOperators name n rest ⟨mapSet st.maps name v, st.expr⟩ = .ret ⟨maps2, st.expr⟩
          ∧ (∀ k, k ≠ name → mapGet maps2 k = mapGet st.maps k)
          ∧ (∀ k ∈ maps2.map Prod.fst, k = name ∨ k ∈ st.maps.map Prod.fst)
          ∧ (∀ k, (mapGet st.maps k).isSome → (mapGet maps2 k).isSome)
          ∧ ((operator0, val) :: rest ≠ [] → (mapGet maps2 name).isSome) := by
      intro v
      apply key
      · intro k hk; exact mapGet_mapSet_other _ _ _ _ hk
      · intro k hk; exact mem_keys_mapSet _ _ _ _ hk
      · intro k hk; exact mapGet_isSome_mapSet _ _ _ _ hk
      · simp [mapGet_mapSet_same]
    have hop : (if (!startsWithDollar operator0) = true then "$" ++ operator0 else operator0)
        = nativeOperator operator0 := rfl
    rw [mapOperators]
    simp only [hop, hqv, Bool.false_eq_true, if_false]
    by_cases hcase : nativeOperator operator0 = "$eq" ∧ n = 1
    · rw [if_pos hcase]
      cases htk : val.typeKind with
      | none =>
        exfalso
        have := hnil hcase
        simp [htk] at this
      | some k =>
        simp only []
        split
        · exact setOk _
        · split <;> exact setOk _
    · rw [if_neg hcase]
      split <;> exact setOk _

/-- The outer loop of `Map` returns on entries that compile: it collects no
expression, writes only fields that are recorded, and writes every recorded
field whose entry is not an empty operator map. -/
theorem mapEntries_ret (es : List (String × QValue)) :
    ∀ st : MapState, (∀ e ∈ es, entryCompiles e = true) →
    ∃ maps2, mapEntries es st = .ret ⟨maps2, st.expr⟩
      ∧ (∀ k, mapGet es k = none → mapGet maps2 k = mapGet st.maps k)
      ∧ (∀ k ∈ maps2.map Prod.fst, k ∈ es.map Prod.fst ∨ k ∈ st.maps.map Prod.fst)
      ∧ (∀ k, (mapGet st.maps k).isSome → (mapGet maps2 k).isSome)
      ∧ (∀ k c, mapGet es k = some c → c ≠ .msi [] → (mapGet maps2 k).isSome) := by
  induction es with
  | nil =>
    intro st _
    refine ⟨st.maps, by simp [mapEntries], fun _ _ => rfl, fun k hk => Or.inr hk,
      fun _ h => h, ?_⟩
    intro k c h; simp [mapGet] at h
  | cons e rest ih =>
    intro st hall
    obtain ⟨name, value⟩ := e
    have he := hall (name, value) (List.mem_cons_self _ _)
    have hrest : ∀ e ∈ rest, entryCompiles e = true :=
      fun e h => hall e (List.mem_cons_of_mem _ h)
    have key : ∀ maps1 : Document,
        mapEntries ((name, value) :: rest) st = mapEntries rest ⟨maps1, st.expr⟩ →
        (∀ k, k ≠ name → mapGet maps1 k = mapGet st.maps k) →
        (∀ k ∈ maps1.map Prod.fst, k = name ∨ k ∈ st.maps.map Prod.fst) →
        (∀ k, (mapGet st.maps k).isSome → (mapGet maps1 k).isSome) →
        (value ≠ .msi [] → (mapGet maps1 name).isSome) →
        ∃ maps2, mapEntries ((name, value) :: rest) st = .ret ⟨maps2, st.expr⟩
          ∧ (∀ k, mapGet ((name, value) :: rest) k = none → mapGet maps2 k = mapGet st.maps k)
          ∧ (∀ k ∈ maps2.map Prod.fst,
              k ∈ ((name, value) :: rest).map Prod.fst ∨ k ∈ st.maps.map Prod.fst)
          ∧ (∀ k, (mapGet st.maps k).isSome → (mapGet maps2 k).isSome)
          ∧ (∀ k c, mapGet ((name, value) :: rest) k = some c → c ≠ .msi [] →
              (mapGet maps2 k).isSome) := by
      intro maps1 hstep h1 h2 h3 h4
      obtain ⟨maps2, e, g1, g2, g3, g4⟩ := ih ⟨maps1, st.expr⟩ hrest
      refine ⟨maps2, by rw [hstep]; exact e, ?_, ?_, ?_, ?_⟩
      · intro k hk
        by_cases hkn : name = k
        · simp [mapGet, hkn] at hk
        · simp only [mapGet, if_neg hkn] at hk
          rw [g1 k hk]
          exact h1 k (fun h => hkn h.symm)
      · intro k hk
        rcases g2 k hk with h | h
        · left; simp only [List.map_cons, List.mem_cons]; exact Or.inr h
        · rcases h2 k h with h | h
          · left; simp [h]
          · exact Or.inr h
      · intro k hk; exact g3 k (h3 k hk)
      · intro k c hk hc
        by_cases hkn : name = k
        · simp only [mapGet, if_pos hkn] at hk
          cases hk
          subst hkn
          exact g3 name (h4 hc)
        · simp only [mapGet, if_neg hkn] at hk
          exact g4 k c hk hc
    have setOk : mapEntries ((name, value) :: rest) st
          = mapEntries rest ⟨mapSet st.maps name value, st.expr⟩ →
        ∃ maps2, mapEntries ((name, value) :: rest) st = .ret ⟨maps2, st.expr⟩
          ∧ (∀ k, mapGet ((name, value) :: rest) k = none → mapGet maps2 k = mapGet st.maps k)
          ∧ (∀ k ∈ maps2.map Prod.fst,
              k ∈ ((name, value) :: rest).map Prod.fst ∨ k ∈ st.maps.map Prod.fst)
          ∧ (∀ k, (mapGet st.maps k).isSome → (mapGet maps2 k).isSome)
          ∧ (∀ k c, mapGet ((name, value) :: rest) k = some c → c ≠ .msi [] →
              (mapGet maps2 k).isSome) := by
      intro hstep
      apply key _ hstep
      · intro k hk; exact mapGet_mapSet_other _ _ _ _ hk
      · intro k hk; exact mem_keys_mapSet _ _ _ _ hk
      · intro k hk; exact mapGet_isSome_mapSet _ _ _ _ hk
      · intro _; simp [mapGet_mapSet_same]
    by_cases hd : startsWithDollar name = true
    · exact setOk (by simp [mapEntries, hd])
    · cases value with
      | msi valueMap =>
        have hvm : ∀ p ∈ valueMap, operandCompiles valueMap.length p = true := by
          simpa [entryCompiles, hd] using he
        obtain ⟨maps1, e1, f1, f2, f3, f4⟩ := mapOperators_ret name valueMap.length valueMap st hvm
        apply key maps1 _ f1 f2 f3
        · intro hne
          apply f4
          intro h; apply hne; rw [h]
        · simp [mapEntries, hd, e1]
      | lit v => exact setOk (by simp [mapEntries, hd])
      | list v => exact setOk (by simp [mapEntries, hd])
      | strs v => exact setOk (by simp [mapEntries, hd])

/-- Compiling the recorded constraints alone, as `Map` does in include-all
mode. -/
theorem Query.Map_include_all (query : Query) (h : query.Options.Trash = 0) :
    query.Map = match mapEntries query.Expr ⟨[], []⟩ with
      | .ret st => .ret (mapExpr st)
      | .panic => .panic
      | .diverge => .diverge := by
  unfold Query.Map
  cases mapEntries query.Expr ⟨[], []⟩ with
  | ret st => simp [h]
  | panic => rfl
  | diverge => rfl

/-- On a recorded expression that compiles, `Map` in include-all mode returns
a document whose fields are recorded fields. -/
theorem Query.Map_compiles (query : Query) (h : query.Options.Trash = 0)
    (hok : operandsCompile query.Expr = true) :
    ∃ doc, mapEntries query.Expr ⟨[], []⟩ = .ret ⟨doc, []⟩ ∧ query.Map = .ret doc
      ∧ (∀ k, mapGet query.Expr k = none → mapGet doc k = none)
      ∧ (∀ k ∈ doc.map Prod.fst, k ∈ query.Expr.map Prod.fst)
      ∧ (∀ k c, mapGet query.Expr k = some c → c ≠ .msi [] → (mapGet doc k).isSome) := by
  have hall : ∀ e ∈ query.Expr, entryCompiles e = true := by
    simpa [operandsCompile] using hok
  obtain ⟨doc, e, g1, g2, _, g4⟩ := mapEntries_ret query.Expr ⟨[], []⟩ hall
  refine ⟨doc, e, ?_, ?_, ?_, g4⟩
  · rw [Query.Map_include_all query h, e]; simp [mapExpr]
  · intro k hk; rw [g1 k hk]; rfl
  · intro k hk
    rcases g2 k hk with h | h
    · exact h
    · simp at h

/-! ## Soft-delete scoping and the trash mode -/

theorem Query.Trash_Expr (query : Query) (trash : Int) : (query.Trash trash).Expr = query.Expr := by
  cases query; rfl

theorem Query.Trash_Options (query : Query) (trash : Int) :
    (query.Trash trash).Options.Trash = trash := by
  cases query; rfl

/-- The soft-delete arm of `Map` for a type with a `DeletedAt` field and no
`Deleted` field. -/
theorem mapTrash_DeletedAt (documentStruct : DocumentStruct) (tag : DocumentStructField)
    (flag : Bool) (maps : Document)
    (hflag : mapGet documentStruct "Deleted" = none)
    (hat : mapGet documentStruct "DeletedAt" = some tag) (hd : tag.BSON ≠ "") :
    mapTrash documentStruct flag maps
      = match mapGet maps tag.BSON with
        | some _ => maps
        | none => mapSet maps tag.BSON (.msi [("$exists", .lit (.bool flag))]) := by
  simp only [mapTrash, hflag, hat, hd, ne_eq, not_false_eq_true, if_true]

/-- C13. Soft-delete scoping.  The target type declares a `DeletedAt` field
with storage name `d` and no `Deleted` field, and the recorded constraints
compile (`doc0` is what they compile to, the result of `Map()` in include-all
mode).  When the query records nothing for `d`, `doc0` has no entry for `d`
and `Map()` returns `doc0` with `d -> {"$exists": false}` set for `Trash < 0`
and with `d -> {"$exists": true}` set for `Trash > 0`.  When the query
constrains `d` (an entry other than an empty operator map, which holds no
constraint), `Map()` returns `doc0` itself, in which `d` is the query's own
compiled constraint. -/
theorem Query.Map_soft_delete_scope (query : Query) (documentStruct : DocumentStruct)
    (tag : DocumentStructField)
    (hds : query.Model.DocumentStruct = .ret documentStruct)
    (hflag : mapGet documentStruct "Deleted" = none)
    (hat : mapGet documentStruct "DeletedAt" = some tag) (hd : tag.BSON ≠ "")
    (hok : operandsCompile query.Expr = true) :
    ∃ doc0, (query.Trash 0).Map = .ret doc0
      ∧ (mapGet query.Expr tag.BSON = none →
          mapGet doc0 tag.BSON = none
          ∧ (query.Options.Trash < 0 →
              query.Map = .ret (mapSet doc0 tag.BSON (.msi [("$exists", .lit (.bool false))])))
          ∧ (query.Options.Trash > 0 →
              query.Map = .ret (mapSet doc0 tag.BSON (.msi [("$exists", .lit (.bool true))]))))
      ∧ (∀ c, mapGet query.Expr tag.BSON = some c → c ≠ .msi [] →
          (mapGet doc0 tag.BSON).isSome ∧ query.Map = .ret doc0) := by
  obtain ⟨doc0, e, hmap, hnone, _, hsome⟩ :=
    Query.Map_compiles (query.Trash 0) (Query.Trash_Options query 0)
      (by rw [Query.Trash_Expr]; exact hok)
  rw [Query.Trash_Expr] at e hnone hsome
  have hexpr : mapExpr ⟨doc0, []⟩ = doc0 := by simp [mapExpr]
  refine ⟨doc0, hmap, ?_, ?_⟩
  · intro hk
    have h0 := hnone _ hk
    refine ⟨h0, ?_, ?_⟩
    · intro ht
      have ht2 : ¬ query.Options.Trash > 0 := by omega
      simp [Query.Map, e, hexpr, ht, ht2, hds,
        mapTrash_DeletedAt documentStruct tag _ doc0 hflag hat hd, h0]
    · intro ht
      simp [Query.Map, e, hexpr, ht, hds,
        mapTrash_DeletedAt documentStruct tag _ doc0 hflag hat hd, h0]
  · intro c hc hne
    have h1 := hsome _ c hc hne
    refine ⟨h1, ?_⟩
    obtain ⟨x, hx⟩ := Option.isSome_iff_exists.mp h1
    unfold Query.Map
    rw [e]
    simp only [hexpr, hds, mapTrash_DeletedAt documentStruct tag _ doc0 hflag hat hd, hx]
    split
    · rfl
    · split <;> rfl

/-- Metadata of a record type with a `DeletedAt` timestamp stored as
`deleted_at`. -/
def softDeleteStruct : DocumentStruct :=
  [("ID", .mk 0 "" false "_id" false 0 "" "" []),
   ("DeletedAt", .mk 1 "" false "deleted_at" true 0 "" "" [])]

/-- A model whose record type has the metadata `softDeleteStruct`. -/
def softDeleteModel : ModelInterface :=
  { Name := "posts"
    DocumentStruct := .ret softDeleteStruct
    DoEvent := fun _ v => .ret (none, v)
    dbFindAll := fun _ => (none, [])
    dbUpdate := fun _ _ => none
    dbInsert := fun _ => none }

/-- A query on `age` in exclude-deleted mode, and one that constrains
`deleted_at` itself. -/
theorem Query.Map_soft_delete_scope_witness :
    (∃ doc0, (((softDeleteModel.Query.Name "age" ">" (.lit (.int .int 5))).Trash (-1)).Trash 0).Map
        = .ret doc0
      ∧ (mapGet ((softDeleteModel.Query.Name "age" ">" (.lit (.int .int 5))).Trash (-1)).Expr
            "deleted_at" = none →
          mapGet doc0 "deleted_at" = none
          ∧ (((softDeleteModel.Query.Name "age" ">" (.lit (.int .int 5))).Trash (-1)).Options.Trash < 0 →
              ((softDeleteModel.Query.Name "age" ">" (.lit (.int .int 5))).Trash (-1)).Map
                = .ret (mapSet doc0 "deleted_at" (.msi [("$exists", .lit (.bool false))])))
          ∧ (((softDeleteModel.Query.Name "age" ">" (.lit (.int .int 5))).Trash (-1)).Options.Trash > 0 →
              ((softDeleteModel.Query.Name "age" ">" (.lit (.int .int 5))).Trash (-1)).Map
                = .ret (mapSet doc0 "deleted_at" (.msi [("$exists", .lit (.bool true))]))))
      ∧ (∀ c, mapGet ((softDeleteModel.Query.Name "age" ">" (.lit (.int .int 5))).Trash (-1)).Expr
            "deleted_at" = some c → c ≠ .msi [] →
          (mapGet doc0 "deleted_at").isSome
          ∧ ((softDeleteModel.Query.Name "age" ">" (.lit (.int .int 5))).Trash (-1)).Map = .ret doc0))
    ∧ ((softDeleteModel.Query.Name "age" ">" (.lit (.int .int 5))).Trash (-1)).Map
        = .ret [("age", .msi [("$gt", .lit (.int .int 5))]),
                ("deleted_at", .msi [("$exists", .lit (.bool false))])]
    ∧ ((softDeleteModel.Query.Name "age" ">" (.lit (.int .int 5))).Trash 1).Map
        = .ret [("age", .msi [("$gt", .lit (.int .int 5))]),
                ("deleted_at", .msi [("$exists", .lit (.bool true))])]
    ∧ ((softDeleteModel.Query.Name "deleted_at" "lt" (.lit (.int .int64 9))).Trash (-1)).Map
        = .ret [("deleted_at", .msi [("$lt", .lit (.int .int64 9))])] :=
  ⟨Query.Map_soft_delete_scope
      ((softDeleteModel.Query.Name "age" ">" (.lit (.int .int 5))).Trash (-1))
      softDeleteStruct (.mk 1 "" false "deleted_at" true 0 "" "" []) rfl rfl rfl (by decide) rfl,
   rfl, rfl, rfl⟩

/-! ## Queries built by `Name` calls -/

/-- A sequence of `Name` calls on a query, in order; a call is (field,
operator, operand). -/
def Query.Names (query : Query) (calls : List (String × String × QValue)) : Query :=
  calls.foldl (fun q c => q.Name c.1 c.2.1 c.2.2) query

/-- Every recorded entry is an operator map whose operands are literals:
no `QueryVariable` and not the nil interface. -/
def literalOperands (expr : Document) : Prop :=
  ∀ e ∈ expr, ∃ vm, e.2 = .msi vm ∧ ∀ p ∈ vm, p.2.isQueryVariable = false ∧ p.2 ≠ .lit .nil

theorem mem_mapSet {α β : Type} [DecidableEq α] (m : List (α × β)) (k : α) (v : β) (x : α × β)
    (h : x ∈ mapSet m k v) : x = (k, v) ∨ x ∈ m := by
  induction m with
  | nil => simp [mapSet] at h; exact Or.inl h
  | cons p rest ih =>
    obtain ⟨k2, v2⟩ := p
    by_cases hk : k2 = k
    · simp only [mapSet, if_pos hk, List.mem_cons] at h
      rcases h with h | h
      · exact Or.inl h
      · exact Or.inr (List.mem_cons_of_mem _ h)
    · simp only [mapSet, if_neg hk, List.mem_cons] at h
      rcases h with h | h
      · exact Or.inr (by rw [h]; exact List.mem_cons_self _ _)
      · rcases ih h with h2 | h2
        · exact Or.inl h2
        · exact Or.inr (List.mem_cons_of_mem _ h2)

theorem mem_of_mapGet {α β : Type} [DecidableEq α] (l : List (α × β)) (k : α) (v : β)
    (h : mapGet l k = some v) : (k, v) ∈ l := by
  induction l with
  | nil => simp [mapGet] at h
  | cons p rest ih =>
    obtain ⟨k2, v2⟩ := p
    by_cases hk : k2 = k
    · simp only [mapGet, if_pos hk] at h
      cases h; subst hk; exact List.mem_cons_self _ _
    · simp only [mapGet, if_neg hk] at h
      exact List.mem_cons_of_mem _ (ih h)

/-- The recorded expression after `Name`: the field's entry is replaced or
added under the stored name. -/
theorem Query.Name_Expr (query : Query) (name operator : String) (value : QValue) :
    ∃ vm, (query.Name name operator value).Expr = mapSet query.Expr (storedName name) (.msi vm)
      ∧ ∀ p ∈ vm, p = (normalizeOperator operator, value)
          ∨ ∃ vm0, (storedName name, QValue.msi vm0) ∈ query.Expr ∧ p ∈ vm0 := by
  obtain ⟨md, ex, pop, opts⟩ := query
  simp only [Query.Name, Query.Expr]
  cases h : mapGet ex (storedName name) with
  | none =>
    exact ⟨[(normalizeOperator operator, value)], rfl, fun p hp => Or.inl (by simpa using hp)⟩
  | some x =>
    cases x with
    | msi val =>
      refine ⟨mapSet val (normalizeOperator operator) value, rfl, ?_⟩
      intro p hp
      rcases mem_mapSet _ _ _ _ hp with h1 | h1
      · exact Or.inl h1
      · exact Or.inr ⟨val, mem_of_mapGet _ _ _ h, h1⟩
    | lit v =>
      exact ⟨[(normalizeOperator operator, value)], rfl, fun p hp => Or.inl (by simpa using hp)⟩
    | list v =>
      exact ⟨[(normalizeOperator operator, value)], rfl, fun p hp => Or.inl (by simpa using hp)⟩
    | strs v =>
      exact ⟨[(normalizeOperator operator, value)], rfl, fun p hp => Or.inl (by simpa using hp)⟩

theorem Query.Name_literalOperands (query : Query) (name operator : String) (value : QValue)
    (h : literalOperands query.Expr) (hv : value.isQueryVariable = false ∧ value ≠ .lit .nil) :
    literalOperands (query.Name name operator value).Expr := by
  obtain ⟨vm, e, hvm⟩ := Query.Name_Expr query name operator value
  rw [e]
  intro x hx
  rcases mem_mapSet _ _ _ _ hx with h1 | h1
  · subst h1
    refine ⟨vm, rfl, ?_⟩
    intro p hp
    rcases hvm p hp with h2 | ⟨vm0, h2, h3⟩
    · subst h2; exact hv
    · obtain ⟨vm1, e1, g1⟩ := h _ h2
      cases e1
      exact g1 p h3
  · exact h x h1

theorem Query.Name_keys (query : Query) (name operator : String) (value : QValue)
    (h : ∀ k ∈ query.Expr.map Prod.fst, startsWithDollar k = false) :
    ∀ k ∈ (query.Name name operator value).Expr.map Prod.fst, startsWithDollar k = false := by
  obtain ⟨vm, e, _⟩ := Query.Name_Expr query name operator value
  rw [e]
  intro k hk
  rcases mem_keys_mapSet _ _ _ _ hk with h1 | h1
  · rw [h1]; exact startsWithDollar_storedName name
  · exact h k h1

theorem typeKind_isNone (v : QValue) (h : v ≠ .lit .nil) : v.typeKind.isNone = false := by
  cases v with
  | lit x => cases x <;> simp [QValue.typeKind] at h ⊢
  | _ => simp [QValue.typeKind]

theorem literalOperands_compile (expr : Document) (h : literalOperands expr) :
    operandsCompile expr = true := by
  simp only [operandsCompile, List.all_eq_true]
  intro e he
  obtain ⟨vm, e1, g⟩ := h e he
  obtain ⟨k, v⟩ := e
  simp only at e1
  subst e1
  simp only [entryCompiles, Bool.or_eq_true, List.all_eq_true]
  right
  intro p hp
  obtain ⟨g1, g2⟩ := g p hp
  simp [operandCompiles, g1, typeKind_isNone p.2 g2]

theorem Query.Names_invariant (calls : List (String × String × QValue)) :
    ∀ query : Query, (∀ c ∈ calls, c.2.2.isQueryVariable = false ∧ c.2.2 ≠ .lit .nil) →
    literalOperands query.Expr → (∀ k ∈ query.Expr.map Prod.fst, startsWithDollar k = false) →
    (query.Names calls).Options = query.Options
    ∧ literalOperands (query.Names calls).Expr
    ∧ ∀ k ∈ (query.Names calls).Expr.map Prod.fst, startsWithDollar k = false := by
  induction calls with
  | nil => intro query _ h1 h2; exact ⟨rfl, h1, h2⟩
  | cons c rest ih =>
    intro query hc h1 h2
    have hh := hc c (List.mem_cons_self _ _)
    obtain ⟨g1, g2, g3⟩ := ih (query.Name c.1 c.2.1 c.2.2)
      (fun c2 h => hc c2 (List.mem_cons_of_mem _ h))
      (Query.Name_literalOperands query _ _ _ h1 hh)
      (Query.Name_keys query _ _ _ h2)
    refine ⟨?_, g2, g3⟩
    simp only [Query.Names, List.foldl_cons] at g1 ⊢
    rw [g1, Query.Name_Options]

theorem Query.Names_Options (calls : List (String × String × QValue)) :
    ∀ query : Query, (query.Names calls).Options = query.Options := by
  induction calls with
  | nil => intro query; rfl
  | cons c rest ih =>
    intro query
    simp only [Query.Names, List.foldl_cons] at ih ⊢
    rw [ih, Query.Name_Options]

/-! ## The default trash mode -/

/-- C14 (amended). A query obtained from `Model.Query` on which only `Name`
was called, never `Trash`, is in include-all mode (`Trash = 0`); when its
recorded constraints compile, `Map()` returns a document in which a field the
query does not constrain has no entry: no soft-delete clause is injected,
whatever the metadata of the target type declares. -/
theorem Model_Query_default_is_include_all (model : ModelInterface)
    (calls : List (String × String × QValue))
    (hok : operandsCompile (model.Query.Names calls).Expr = true) :
    (model.Query.Names calls).Options.Trash = 0
    ∧ ∃ doc, (model.Query.Names calls).Map = .ret doc
        ∧ ∀ k, mapGet (model.Query.Names calls).Expr k = none → mapGet doc k = none := by
  have ht : (model.Query.Names calls).Options.Trash = 0 := by
    rw [Query.Names_Options]; rfl
  obtain ⟨doc, _, h1, h2, _, _⟩ := Query.Map_compiles (model.Query.Names calls) ht hok
  exact ⟨ht, doc, h1, h2⟩

/-- One `Name` call on the model whose type declares `DeletedAt`. -/
theorem Model_Query_default_is_include_all_witness :
    operandsCompile (softDeleteModel.Query.Names [("age", ">", .lit (.int .int 5))]).Expr = true
    ∧ (softDeleteModel.Query.Names [("age", ">", .lit (.int .int 5))]).Options.Trash = 0
    ∧ ∃ doc, (softDeleteModel.Query.Names [("age", ">", .lit (.int .int 5))]).Map = .ret doc
        ∧ ∀ k, mapGet (softDeleteModel.Query.Names [("age", ">", .lit (.int .int 5))]).Expr k = none →
            mapGet doc k = none :=
  ⟨rfl, Model_Query_default_is_include_all softDeleteModel [("age", ">", .lit (.int .int 5))] rfl⟩

/-- Metadata of a record type with a `Deleted` flag stored as `deleted`. -/
def flagDeleteStruct : DocumentStruct :=
  [("ID", .mk 0 "" false "_id" false 0 "" "" []),
   ("Deleted", .mk 1 "" false "deleted" true 0 "" "" [])]

/-- A model whose record type has the metadata `flagDeleteStruct`. -/
def flagDeleteModel : ModelInterface :=
  { Name := "posts"
    DocumentStruct := .ret flagDeleteStruct
    DoEvent := fun _ v => .ret (none, v)
    dbFindAll := fun _ => (none, [])
    dbUpdate := fun _ _ => none
    dbInsert := fun _ => none }

/-- C14 (counterexample). The target types declare `DeletedAt` (stored as
`deleted_at`) and `Deleted` (stored as `deleted`); the queries come from
`Model.Query`, `Trash` is never called and nothing constrains the field.
`Map()` returns the empty document, not the exclude-deleted clause; the clause
appears only after `Trash(-1)`. -/
theorem Model_Query_default_injects_no_clause :
    (mapGet softDeleteStruct "DeletedAt").map DocumentStructField.BSON = some "deleted_at"
    ∧ mapGet softDeleteModel.Query.Expr "deleted_at" = none
    ∧ softDeleteModel.Query.Map = .ret []
    ∧ (softDeleteModel.Query.Trash (-1)).Map
        = .ret [("deleted_at", .msi [("$exists", .lit (.bool false))])]
    ∧ (mapGet flagDeleteStruct "Deleted").map DocumentStructField.BSON = some "deleted"
    ∧ mapGet flagDeleteModel.Query.Expr "deleted" = none
    ∧ flagDeleteModel.Query.Map = .ret []
    ∧ (flagDeleteModel.Query.Trash (-1)).Map = .ret [("deleted", .lit (.bool false))] :=
  ⟨rfl, rfl, rfl, rfl, rfl, rfl, rfl, rfl⟩

/-! ## Field names that begin with the operator sign -/

/-- C15. `Query.Name` leaves every entry whose key begins with `$` as it was
(none is created, none is modified): a field name that begins with `$` is
filed under `..invalid$` followed by the name.  So for every query built from
`Model.Query` by `Name` calls only, with operands that are neither a
`QueryVariable` nor nil, `Map()` returns a document none of whose top-level
keys begins with `$`. -/
theorem Query.Name_never_writes_dollar_key (model : ModelInterface)
    (calls : List (String × String × QValue))
    (hlit : ∀ c ∈ calls, c.2.2.isQueryVariable = false ∧ c.2.2 ≠ .lit .nil) :
    (∀ (query : Query) (name operator : String) (value : QValue) (k : String),
        startsWithDollar k = true →
          mapGet (query.Name name operator value).Expr k = mapGet query.Expr k)
    ∧ (∀ (query : Query) (name operator : String) (value : QValue),
        startsWithDollar name = true →
          ∃ m, mapGet (query.Name name operator value).Expr ("..invalid$" ++ name)
              = some (.msi m)
            ∧ mapGet m (normalizeOperator operator) = some value)
    ∧ (model.Query.Names calls).Options.Trash = 0
    ∧ ∃ doc, (model.Query.Names calls).Map = .ret doc
        ∧ ∀ k ∈ doc.map Prod.fst, startsWithDollar k = false := by
  refine ⟨?_, ?_, ?_, ?_⟩
  · intro query name operator value k hk
    obtain ⟨vm, e, _⟩ := Query.Name_Expr query name operator value
    rw [e]
    apply mapGet_mapSet_other
    intro h
    rw [h, startsWithDollar_storedName] at hk
    cases hk
  · intro query name operator value hn
    obtain ⟨m, h1, h2, _⟩ := Query.Name_entry query name operator value
    refine ⟨m, ?_, h2⟩
    simpa [storedName, hn] using h1
  · rw [Query.Names_Options]; rfl
  · have h0 : literalOperands model.Query.Expr := by
      intro e he; cases he
    have h1 : ∀ k ∈ model.Query.Expr.map Prod.fst, startsWithDollar k = false := by
      intro k hk; cases hk
    obtain ⟨g1, g2, g3⟩ := Query.Names_invariant calls model.Query hlit h0 h1
    have ht : (model.Query.Names calls).Options.Trash = 0 := by rw [g1]; rfl
    obtain ⟨doc, _, e, _, hkeys, _⟩ :=
      Query.Map_compiles (model.Query.Names calls) ht (literalOperands_compile _ g2)
    exact ⟨doc, e, fun k hk => g3 k (hkeys k hk)⟩

/-- Three `Name` calls, one of them with the field name `$where`. -/
theorem Query.Name_never_writes_dollar_key_witness :
    (softDeleteModel.Query.Names
        [("age", ">", .lit (.int .int 5)), ("$where", "eq", .lit (.str .string "1")),
         ("age", "<", .lit (.int .int 9))]).Map
      = .ret [("age", .msi [("$gt", .lit (.int .int 5)), ("$lt", .lit (.int .int 9))]),
              ("..invalid$$where", .lit (.str .string "1"))]
    ∧ ∃ doc, (softDeleteModel.Query.Names
        [("age", ">", .lit (.int .int 5)), ("$where", "eq", .lit (.str .string "1")),
         ("age", "<", .lit (.int .int 9))]).Map = .ret doc
        ∧ ∀ k ∈ doc.map Prod.fst, startsWithDollar k = false :=
  ⟨rfl, (Query.Name_never_writes_dollar_key softDeleteModel
      [("age", ">", .lit (.int .int 5)), ("$where", "eq", .lit (.str .string "1")),
       ("age", "<", .lit (.int .int 9))]
      (by
        intro c hc
        simp only [List.mem_cons, List.mem_singleton, List.not_mem_nil, or_false] at hc
        rcases hc with h | h | h <;> subst h <;> exact ⟨rfl, by simp⟩)).2.2.2⟩

/-! ## Insert: id validation -/

/-- C16. An `ID` field of type `int`, `int16` or `int32` never passes the id
switch of `Insert`: for every unpersisted handle with a present record whose
`ID` holds such an integer, zero or not, `Insert` panics at the assertion
`val.(int64)`; it returns no validation error and reaches neither the hooks
nor the storage insert. -/
theorem Insert_int_id_panics (env : TypeEnv) (newObjectId : String) (document : DocumentBase)
    (ref : Val) (t : GoType) (n : Int)
    (hnew : document.IsNew = true) (href : document.Ref = some ref)
    (hid : ref.Indirect.FieldByName env "ID" = some (.int t n))
    (ht : t = .int ∨ t = .int16 ∨ t = .int32) :
    document.Insert env newObjectId = .panic := by
  have h64 : t ≠ .int64 := by
    rcases ht with h | h | h <;> subst h <;> decide
  have hcase : t = .int ∨ t = .int16 ∨ t = .int32 ∨ t = .int64 := by
    rcases ht with h | h | h
    · exact Or.inl h
    · exact Or.inr (Or.inl h)
    · exact Or.inr (Or.inr (Or.inl h))
  have hins : insertID env newObjectId ref (.int t n) = .panic := by
    simp only [insertID]
    rw [if_pos hcase, if_neg h64]
  simp [DocumentBase.Insert, hnew, href, hid, Val.IsValid, Val.Interface, hins]

/-- Record types whose `ID` is a `string`, an `int` and an `int64`. -/
def idEnv : TypeEnv :=
  [("Note", [⟨"ID", "", "_id", "", .string⟩]),
   ("Row", [⟨"ID", "", "_id", "", .int⟩]),
   ("Item", [⟨"ID", "", "_id", "", .int64⟩])]

/-- An unpersisted handle on a record of type `typ` with the given `ID`; the
hooks accept every record and the storage insert succeeds. -/
def freshHandle (typ : String) (id : Val) : DocumentBase :=
  { IsNew := true
    Model := exampleModel (none, [])
    Ref := some (.ptr (.ptr (.struct typ)) 300 (.struct (.struct typ) [id]))
    Old := none }

/-- What an `Insert` call did, for comparison: the error, the effects and
`IsNew` afterwards; `none` stands for a panic or a call that does not return. -/
def insertSummary (r : Res InsertRet) : Option (Option String × List Effect × Bool) :=
  match r with
  | .ret r => some (r.err, r.trace, r.document.IsNew)
  | _ => none

/-- Row ids 0 and 5 of type `int` against ids of type `string` and `int64`. -/
theorem Insert_int_id_panics_witness :
    (freshHandle "Row" (.int .int 0)).Insert idEnv "new" = .panic
    ∧ insertSummary ((freshHandle "Row" (.int .int 5)).Insert idEnv "new") = none
    ∧ insertSummary ((freshHandle "Item" (.int .int64 0)).Insert idEnv "new")
        = some (some "Document ID empty", [], true)
    ∧ insertSummary ((freshHandle "Note" (.str .string "")).Insert idEnv "new")
        = some (some "Document ID empty", [], true)
    ∧ insertSummary ((freshHandle "Item" (.int .int64 7)).Insert idEnv "new")
        = some (none, [.hook "save", .hook "insert",
            .store (.ptr (.ptr (.struct "Item")) 300 (.struct (.struct "Item") [.int .int64 7]))],
            false)
    ∧ insertSummary ((freshHandle "Note" (.str .string "n1")).Insert idEnv "new")
        = some (none, [.hook "save", .hook "insert",
            .store (.ptr (.ptr (.struct "Note")) 300
              (.struct (.struct "Note") [.str .string "n1"]))], false) :=
  ⟨Insert_int_id_panics idEnv "new" (freshHandle "Row" (.int .int 0)) _ .int 0 rfl rfl rfl
      (Or.inl rfl),
   by decide, by decide, by decide, by decide, by decide⟩

/-! ## Insert: the hooks it runs -/

/-- Every run of `Insert` that returns ran none of the `validate` hooks, and
a run that returns no error ran `save`, `insert` and the storage insert, in
this order. -/
theorem Insert_trace (env : TypeEnv) (newObjectId : String) (document : DocumentBase)
    (r : InsertRet) (h : document.Insert env newObjectId = .ret r) :
    Effect.hook "validate" ∉ r.trace
    ∧ (r.err = none → ∃ record,
        r.trace = [.hook "save", .hook "insert", .store record] ∧ r.document.IsNew = false) := by
  unfold DocumentBase.Insert at h
  repeat' split at h
  all_goals first
    | (cases h; simp [DocumentBase.ResetDocumentOld])
    | simp at h

/-- C17 (amended). Hooks of `Insert`, for an unpersisted handle with a
present record whose id passes validation.  `Insert` runs the `save` hooks,
then the `insert` hooks, then the storage insert, and on success the handle
is persisted; when the `save` chain returns an error nothing else runs, when
the `insert` chain returns an error the storage insert is not performed, and
in both cases the error is returned and `IsNew` stays true.  No run of
`Insert` runs the `validate` hooks. -/
theorem Insert_hook_order (env : TypeEnv) (newObjectId : String) (document : DocumentBase)
    (ref field val ref0 : Val)
    (hnew : document.IsNew = true) (href : document.Ref = some ref)
    (hfield : ref.Indirect.FieldByName env "ID" = some field) (hvalid : field.IsValid = true)
    (hval : field.Interface = some val)
    (hid : insertID env newObjectId ref val = .ret (none, ref0)) :
    (∀ e ref1, document.Model.DoEvent "save" ref0 = .ret (some e, ref1) →
      ∃ r, document.Insert env newObjectId = .ret r ∧ r.err = some e
        ∧ r.trace = [.hook "save"] ∧ r.document.IsNew = true)
    ∧ (∀ ref1 e ref2, document.Model.DoEvent "save" ref0 = .ret (none, ref1) →
        document.Model.DoEvent "insert" ref1 = .ret (some e, ref2) →
      ∃ r, document.Insert env newObjectId = .ret r ∧ r.err = some e
        ∧ r.trace = [.hook "save", .hook "insert"] ∧ r.document.IsNew = true)
    ∧ (∀ ref1 ref2, document.Model.DoEvent "save" ref0 = .ret (none, ref1) →
        document.Model.DoEvent "insert" ref1 = .ret (none, ref2) →
        document.Model.dbInsert ref2 = none →
      ∃ r, document.Insert env newObjectId = .ret r ∧ r.err = none
        ∧ r.trace = [.hook "save", .hook "insert", .store ref2] ∧ r.document.IsNew = false)
    ∧ (∀ r, document.Insert env newObjectId = .ret r → Effect.hook "validate" ∉ r.trace) := by
  refine ⟨?_, ?_, ?_, ?_⟩
  · intro e ref1 h1
    simp only [DocumentBase.Insert, hnew, href, hfield, hvalid, hval, hid, h1, Bool.not_true,
      Bool.false_eq_true, if_false]
    exact ⟨_, rfl, rfl, rfl, rfl⟩
  · intro ref1 e ref2 h1 h2
    simp only [DocumentBase.Insert, hnew, href, hfield, hvalid, hval, hid, h1, h2, Bool.not_true,
      Bool.false_eq_true, if_false]
    exact ⟨_, rfl, rfl, rfl, rfl⟩
  · intro ref1 ref2 h1 h2 h3
    simp only [DocumentBase.Insert, hnew, href, hfield, hvalid, hval, hid, h1, h2, h3,
      Bool.not_true, Bool.false_eq_true, if_false]
    exact ⟨_, rfl, rfl, rfl, rfl⟩
  · intro r hr
    exact (Insert_trace env newObjectId document r hr).1

/-- A model whose `validate` hooks reject every record and whose `save` and
`insert` hooks accept it. -/
def strictModel : ModelInterface :=
  { Name := "notes"
    DocumentStruct := .ret []
    DoEvent := fun name v => if name = "validate" then .ret (some "invalid", v) else .ret (none, v)
    dbFindAll := fun _ => (none, [])
    dbUpdate := fun _ _ => none
    dbInsert := fun _ => none }

/-- A model whose `insert` hooks reject every record. -/
def rejectInsertModel : ModelInterface :=
  { Name := "notes"
    DocumentStruct := .ret []
    DoEvent := fun name v => if name = "insert" then .ret (some "rejected", v) else .ret (none, v)
    dbFindAll := fun _ => (none, [])
    dbUpdate := fun _ _ => none
    dbInsert := fun _ => none }

/-- The note `n1` on a model whose hooks accept it. -/
theorem Insert_hook_order_witness :
    ∃ r, (freshHandle "Note" (.str .string "n1")).Insert idEnv "new" = .ret r ∧ r.err = none
      ∧ r.trace = [.hook "save", .hook "insert",
          .store (.ptr (.ptr (.struct "Note")) 300 (.struct (.struct "Note") [.str .string "n1"]))]
      ∧ r.document.IsNew = false :=
  (Insert_hook_order idEnv "new" (freshHandle "Note" (.str .string "n1"))
    (.ptr (.ptr (.struct "Note")) 300 (.struct (.struct "Note") [.str .string "n1"]))
    (.str .string "n1") (.str .string "n1")
    (.ptr (.ptr (.struct "Note")) 300 (.struct (.struct "Note") [.str .string "n1"]))
    rfl rfl rfl rfl rfl rfl).2.2.1 _ _ rfl rfl rfl

/-- C17 (counterexample). The `validate` hooks of the model reject the record
(`Validate` returns their error), and `Insert` of the same handle succeeds:
it runs `save` and `insert` only and stores the record.  On a model whose
`insert` hooks reject, the storage insert is not performed and `IsNew` stays
true. -/
theorem Insert_skips_validate_hooks :
    insertSummary ({ freshHandle "Note" (.str .string "n1") with Model := strictModel }.Validate
        none) = some (some "invalid", [.hook "validate"], true)
    ∧ insertSummary ({ freshHandle "Note" (.str .string "n1") with Model := strictModel }.Insert
        idEnv "new")
      = some (none, [.hook "save", .hook "insert",
          .store (.ptr (.ptr (.struct "Note")) 300
            (.struct (.struct "Note") [.str .string "n1"]))], false)
    ∧ insertSummary ({ freshHandle "Note" (.str .string "n1") with
        Model := rejectInsertModel }.Insert idEnv "new")
      = some (some "rejected", [.hook "save", .hook "insert"], true) := by
  refine ⟨by decide, by decide, by decide⟩

/-! ## The hook chain -/

/-- The stages a log shows as invoked, in the order of their invocation. -/
def callsOf (log : List ChainEvent) : List Nat :=
  log.filterMap (fun e => match e with
    | .call j => some j
    | .back _ _ => none)

/-- The log entry of a stage that returns an error. -/
def isFailure : ChainEvent → Bool
  | .back _ (some _) => true
  | _ => false

/-- The log entry of an invocation. -/
def isCall : ChainEvent → Bool
  | .call _ => true
  | _ => false

/-- No stage of the log returns an error. -/
def noFailure (log : List ChainEvent) : Bool := log.all (fun e => !isFailure e)

/-- After the first stage that returns an error, the log shows no
invocation. -/
def quietAfterFailure : List ChainEvent → Bool
  | [] => true
  | e :: rest => if isFailure e then rest.all (fun x => !isCall x) else quietAfterFailure rest

/-- A stage that hands the error of `next()` on: when a call of `next()`
returns an error, the stage returns an error without calling `next()` again. -/
def Stage.propagates : Stage → Prop
  | .done _ => True
  | .callNext k => (∀ e, ∃ e2, k (some e) = .done (some e2)) ∧ (k none).propagates

theorem callsOf_append (a b : List ChainEvent) : callsOf (a ++ b) = callsOf a ++ callsOf b := by
  simp [callsOf, List.filterMap_append]

theorem noFailure_append (a b : List ChainEvent) :
    noFailure (a ++ b) = (noFailure a && noFailure b) := by
  simp [noFailure, List.all_append]

theorem quiet_of_noCalls (b : List ChainEvent) (h : b.all (fun x => !isCall x) = true) :
    quietAfterFailure b = true := by
  induction b with
  | nil => rfl
  | cons e rest ih =>
    simp only [List.all_cons, Bool.and_eq_true] at h
    simp only [quietAfterFailure]
    split
    · exact h.2
    · exact ih h.2

theorem quiet_append_noCalls (a b : List ChainEvent) (ha : quietAfterFailure a = true)
    (hb : b.all (fun x => !isCall x) = true) : quietAfterFailure (a ++ b) = true := by
  induction a with
  | nil => exact quiet_of_noCalls b hb
  | cons e rest ih =>
    simp only [quietAfterFailure, List.cons_append] at ha ⊢
    split
    · rename_i hf
      simp only [hf, if_true] at ha
      simp [List.all_append, ha, hb]
    · rename_i hf
      simp only [hf] at ha
      exact ih ha

theorem quiet_noFailure_append (a b : List ChainEvent) (ha : noFailure a = true)
    (hb : quietAfterFailure b = true) : quietAfterFailure (a ++ b) = true := by
  induction a with
  | nil => exact hb
  | cons e rest ih =>
    simp only [noFailure, List.all_cons, Bool.and_eq_true, Bool.not_eq_true'] at ha
    simp only [quietAfterFailure, List.cons_append, ha.1, Bool.false_eq_true, if_false]
    exact ih (by simpa [noFailure] using ha.2)

theorem quiet_of_noFailure (a : List ChainEvent) (ha : noFailure a = true) :
    quietAfterFailure a = true := by
  have := quiet_noFailure_append a [] ha rfl
  simpa using this

/-- What a step of the chain does to the state: `i` grows and stays within the
number of stages, the invocations stay `0, 1, ..., i - 1`, the log is
extended, and, under `P`, the extension shows no invocation after an error and
no error at all when the step returns none. -/
def advances (len : Nat) (P : Prop) (s : ChainState) (err : Option String) (s2 : ChainState) :
    Prop :=
  s.i ≤ s2.i ∧ s2.i ≤ len
    ∧ (callsOf s.log = List.range s.i → callsOf s2.log = List.range s2.i)
    ∧ ∃ ext, s2.log = s.log ++ ext
        ∧ (P → quietAfterFailure ext = true ∧ (err = none → noFailure ext = true))

/-- A stage run with a closure `next` that advances the state advances it. -/
theorem runStage_advances (len fuel : Nat) (H : Prop)
    (next : ChainState → Res (Option String × ChainState))
    (hnext : ∀ s, s.i ≤ len → s.i + fuel > len →
      ∃ err s2, next s = .ret (err, s2) ∧ advances len H s err s2) :
    ∀ (stage : Stage) (s : ChainState), s.i ≤ len → s.i + fuel > len →
      ∃ err s2, runStage next stage s = .ret (err, s2)
        ∧ advances len (H ∧ stage.propagates) s err s2 := by
  intro stage
  induction stage with
  | done e =>
    intro s h1 _
    refine ⟨e, s, rfl, Nat.le_refl _, h1, fun h => h, [], by simp, ?_⟩
    intro _; exact ⟨rfl, fun _ => rfl⟩
  | callNext k ih =>
    intro s h1 h2
    obtain ⟨e1, s1, hn, a1, a2, a3, ext1, a4, a5⟩ := hnext s h1 h2
    obtain ⟨e2, s2, hr, b1, b2, b3, ext2, b4, b5⟩ := ih e1 s1 a2 (by omega)
    refine ⟨e2, s2, ?_, Nat.le_trans a1 b1, b2, fun h => b3 (a3 h), ext1 ++ ext2, ?_, ?_⟩
    · simp only [runStage, hn]; exact hr
    · rw [b4, a4, List.append_assoc]
    · intro ⟨hH, hp⟩
      obtain ⟨hp1, hp2⟩ := hp
      obtain ⟨q1, n1⟩ := a5 hH
      cases e1 with
      | some e =>
        obtain ⟨e3, hk⟩ := hp1 e
        rw [hk] at hr
        simp only [runStage, Res.ret.injEq, Prod.mk.injEq] at hr
        obtain ⟨hr1, hr2⟩ := hr
        subst hr2
        have hext2 : ext2 = [] := by
          have := b4
          simpa using this
        subst hext2
        subst hr1
        refine ⟨by simpa using q1, fun h => by cases h⟩
      | none =>
        obtain ⟨q2, n2⟩ := b5 ⟨hH, hp2⟩
        have hn1 := n1 rfl
        refine ⟨quiet_noFailure_append _ _ hn1 q2, fun h => ?_⟩
        rw [noFailure_append, hn1, n2 h]; rfl

/-- The closure `next` returns and advances the state; it invokes a stage when
one is left. -/
theorem chainNext_advances (events : List Stage) :
    ∀ (fuel : Nat) (s : ChainState), s.i ≤ events.length → s.i + fuel > events.length →
      ∃ err s2, chainNext events fuel s = .ret (err, s2)
        ∧ advances events.length (∀ stage ∈ events, stage.propagates) s err s2
        ∧ (s.i < events.length → s.i < s2.i) := by
  intro fuel
  induction fuel with
  | zero => intro s h1 h2; omega
  | succ fuel ih =>
    intro s h1 h2
    by_cases hlt : events.length > s.i
    · have hget : events[s.i]? = some events[s.i] := List.getElem?_eq_getElem hlt
      have hmem : events[s.i] ∈ events := List.getElem_mem hlt
      obtain ⟨e, s2, hr, b1, b2, b3, ext, b4, b5⟩ :=
        runStage_advances events.length fuel (∀ stage ∈ events, stage.propagates)
          (chainNext events fuel)
          (fun s h1 h2 => by
            obtain ⟨err, s2, g1, g2, _⟩ := ih s h1 h2
            exact ⟨err, s2, g1, g2⟩)
          events[s.i] ⟨s.i + 1, s.log ++ [.call s.i]⟩ (by simpa using hlt)
          (by simp only; omega)
      simp only at b1 b2 b3 b4
      refine ⟨e, ⟨s2.i, s2.log ++ [.back s.i e]⟩, ?_, ⟨?_, b2, ?_, ?_⟩, ?_⟩
      · simp only [chainNext, hlt, if_true, hget, hr]
      · simp only; omega
      · intro hc
        have h3 := b3 (by rw [callsOf_append, hc, List.range_succ]; rfl)
        simp only [callsOf_append, h3]
        simp [callsOf]
      · refine ⟨[.call s.i] ++ ext ++ [.back s.i e], ?_, ?_⟩
        · simp only [b4, List.append_assoc]
        · intro hH
          obtain ⟨q, n⟩ := b5 ⟨hH, hH _ hmem⟩
          refine ⟨?_, ?_⟩
          · rw [List.append_assoc]
            exact quiet_noFailure_append [.call s.i] (ext ++ [.back s.i e]) rfl
              (quiet_append_noCalls ext [.back s.i e] q rfl)
          · intro he
            subst he
            rw [noFailure_append, noFailure_append, n rfl]
            rfl
      · intro _; simp only; omega
    · refine ⟨none, s, ?_, ⟨Nat.le_refl _, h1, fun h => h, [], by simp, ?_⟩, ?_⟩
      · simp only [chainNext, hlt, if_false]
      · intro _; exact ⟨rfl, fun _ => rfl⟩
      · intro h; omega

/-- The loop of `DoEvent` returns: with an error, or with none after every
stage was invoked. -/
theorem chainLoop_advances (events : List Stage) (depth : Nat)
    (hdepth : depth > events.length) :
    ∀ (n : Nat) (s : ChainState), s.i ≤ events.length → s.i + n > events.length →
      ∃ err s2, chainLoop events depth n s = .ret (err, s2)
        ∧ advances events.length (∀ stage ∈ events, stage.propagates) s err s2
        ∧ (err = none → s2.i = events.length) := by
  intro n
  induction n with
  | zero => intro s h1 h2; omega
  | succ n ih =>
    intro s h1 h2
    by_cases hlt : events.length > s.i
    · obtain ⟨e1, s1, hn, ⟨a1, a2, a3, ext1, a4, a5⟩, hstrict⟩ :=
        chainNext_advances events depth s h1 (by omega)
      cases e1 with
      | some e =>
        refine ⟨some e, s1, ?_, ⟨a1, a2, a3, ext1, a4, a5⟩, fun h => by cases h⟩
        simp only [chainLoop, hlt, if_true, hn]
      | none =>
        have hs := hstrict hlt
        obtain ⟨e2, s2, hl, ⟨b1, b2, b3, ext2, b4, b5⟩, hfin⟩ := ih s1 a2 (by omega)
        refine ⟨e2, s2, ?_, ⟨Nat.le_trans a1 b1, b2, fun h => b3 (a3 h), ext1 ++ ext2, ?_, ?_⟩,
          hfin⟩
        · simp only [chainLoop, hlt, if_true, hn]; exact hl
        · rw [b4, a4, List.append_assoc]
        · intro hH
          obtain ⟨_, n1⟩ := a5 hH
          obtain ⟨q2, n2⟩ := b5 hH
          have hn1 := n1 rfl
          refine ⟨quiet_noFailure_append _ _ hn1 q2, fun h => ?_⟩
          rw [noFailure_append, hn1, n2 h]; rfl
    · refine ⟨none, s, ?_, ⟨Nat.le_refl _, h1, fun h => h, [], by simp, ?_⟩, ?_⟩
      · simp only [chainLoop, hlt, if_false]
      · intro _; exact ⟨rfl, fun _ => rfl⟩
      · intro _; omega

/-- C18 (amended). The hook chain of `Model.DoEvent` for an event with
registered stages `events` (`OnEvent` appends to them, so their index is the
order of registration).  `DoEvent` returns; the stages it invoked are those
with index `0, 1, ..., k - 1`, in this order and each once, whether or not a
stage calls `next`, and `k` is the number of stages when the error is nil.
If every stage hands on the error of `next()` (it returns an error, without
another call of `next()`, when a call of `next()` returned one), then no
stage is invoked after a stage has returned an error, and a run in which a
stage returned an error ends with a non-nil error. -/
theorem Model.DoEvent_chain (model : Model) (name : String) (events : List Stage)
    (hev : model.Events.bind (fun registered => mapGet registered name) = some events) :
    (∀ funcs, (model.OnEvent name funcs).Events.bind (fun registered => mapGet registered name)
        = some (events ++ funcs))
    ∧ ∃ err log, model.DoEvent name = .ret (err, log)
      ∧ (∃ k, k ≤ events.length ∧ callsOf log = List.range k
          ∧ (err = none → k = events.length))
      ∧ ((∀ stage ∈ events, stage.propagates) →
          quietAfterFailure log = true ∧ (noFailure log = false → err ≠ none)) := by
  cases hreg : model.Events with
  | none => rw [hreg] at hev; cases hev
  | some registered =>
    rw [hreg] at hev
    simp only [Option.bind] at hev
    refine ⟨?_, ?_⟩
    · intro funcs
      simp [Model.OnEvent, hreg, hev, mapGet_mapSet_same]
    · obtain ⟨err, s2, hl, ⟨_, a2, a3, ext, a4, a5⟩, hfin⟩ :=
        chainLoop_advances events (events.length + 1) (by omega) (events.length + 1) ⟨0, []⟩
          (Nat.zero_le _) (by simp only; omega)
      simp only [List.nil_append] at a4
      refine ⟨err, s2.log, ?_, ⟨s2.i, a2, a3 rfl, hfin⟩, ?_⟩
      · simp only [Model.DoEvent, hreg, hev, hl]
      · intro hH
        obtain ⟨q, n⟩ := a5 hH
        rw [a4]
        refine ⟨q, fun hf he => ?_⟩
        rw [n he] at hf
        cases hf

/-- A stage that calls `next()` once and returns what it returned. -/
def passStage : Stage :=
  .callNext (fun err => .done err)

/-- A stage that calls `next()` once and returns nil whatever it returned. -/
def swallowStage : Stage :=
  .callNext (fun _ => .done none)

/-- A model with the given stages registered for `save`. -/
def chainModel (stages : List Stage) : Model :=
  ({ Name := "notes", Events := none } : Model).OnEvent "save" stages

/-- Three stages: the first wraps the rest and hands the error on, the second
rejects, the third accepts. -/
theorem Model.DoEvent_chain_witness :
    (∀ stage ∈ [passStage, .done (some "rejected"), .done none], stage.propagates)
    ∧ (chainModel [passStage, .done (some "rejected"), .done none]).DoEvent "save"
        = .ret (some "rejected",
            [.call 0, .call 1, .back 1 (some "rejected"), .back 0 (some "rejected")])
    ∧ ∃ err log, (chainModel [passStage, .done (some "rejected"), .done none]).DoEvent "save"
          = .ret (err, log)
        ∧ (∃ k, k ≤ [passStage, Stage.done (some "rejected"), Stage.done none].length
            ∧ callsOf log = List.range k
            ∧ (err = none → k = [passStage, Stage.done (some "rejected"), Stage.done none].length))
        ∧ ((∀ stage ∈ [passStage, Stage.done (some "rejected"), Stage.done none],
              stage.propagates) →
            quietAfterFailure log = true ∧ (noFailure log = false → err ≠ none)) :=
  ⟨by
      intro stage h
      simp only [List.mem_cons, List.mem_singleton, List.not_mem_nil, or_false] at h
      rcases h with h | h | h <;> subst h
      · exact ⟨fun e => ⟨e, rfl⟩, trivial⟩
      · trivial
      · trivial,
   by decide,
   (Model.DoEvent_chain (chainModel [passStage, .done (some "rejected"), .done none]) "save"
      [passStage, .done (some "rejected"), .done none] rfl).2⟩

/-- C18 (counterexample). Three registered stages: the first calls `next()`
and returns nil whatever `next()` returned, the second returns an error, the
third returns nil.  The second stage returns its error to the first, the loop
of `DoEvent` goes on, the third stage is invoked after the error, and
`DoEvent` returns nil. -/
theorem Model.DoEvent_error_swallowed :
    (chainModel [swallowStage, .done (some "rejected"), .done none]).DoEvent "save"
      = .ret (none,
          [.call 0, .call 1, .back 1 (some "rejected"), .back 0 none, .call 2, .back 2 none]) := by
  decide

/-! ## Record types that contain themselves -/

/-- While the type `t` is not cached and no call of `parse` on `t` returns,
the field loop keeps `t` out of the cache and, when it returns without an
error, has met no field whose children are of type `t`. -/
theorem parseFields_avoids (t : GoType) (hst : t.Kind = .Struct)
    (parse : Cache → GoType → Res ParseRet)
    (hparse : ∀ cache u r, cache.Get t = none → parse cache u = .ret r →
      r.cache.Get t = none ∧ derefType u ≠ t)
    (tf : List StructField) :
    ∀ (l : List (Nat × StructField)) (ds : DocumentStruct) (cache : Cache) (r : ParseRet),
      cache.Get t = none → parseFields parse tf l ds cache = .ret r →
      r.cache.Get t = none
        ∧ (r.err = none → ∀ p ∈ l, ¬ (hasChildren p.2 = true ∧ childElem p.2.Typ = t)) := by
  intro l
  induction l with
  | nil =>
    intro ds cache r hc h
    simp only [parseFields, Res.ret.injEq] at h
    subst h
    exact ⟨hc, fun _ p hp => by cases hp⟩
  | cons p rest ih =>
    intro ds cache r hc h
    obtain ⟨i, field⟩ := p
    have step : ∀ ds2 cache2, cache2.Get t = none →
        parseFields parse tf rest ds2 cache2 = .ret r →
        ¬ (hasChildren field = true ∧ childElem field.Typ = t) →
        r.cache.Get t = none
          ∧ (r.err = none → ∀ p ∈ (i, field) :: rest,
              ¬ (hasChildren p.2 = true ∧ childElem p.2.Typ = t)) := by
      intro ds2 cache2 hc2 h2 hhead
      obtain ⟨g1, g2⟩ := ih ds2 cache2 r hc2 h2
      refine ⟨g1, fun he p hp => ?_⟩
      rcases List.mem_cons.mp hp with h3 | h3
      · subst h3; exact hhead
      · exact g2 he p h3
    unfold parseFields at h
    simp only [] at h
    split at h
    · rename_i hn
      exact step _ _ hc h (by simp [hasChildren, hn])
    · split at h
      · rename_i hn
        exact step _ _ hc h (by simp [hasChildren, hn.2.1])
      · split at h
        · rename_i hn
          exact step _ _ hc h (by simp [hasChildren, hn])
        · split at h
          · split at h
            · rename_i r2 hr2
              obtain ⟨k1, k2⟩ := hparse _ _ _ hc hr2
              split at h
              · cases h
                exact ⟨k1, fun he => by cases he⟩
              · refine step _ _ k1 h ?_
                intro hh
                apply k2
                rw [hh.2]
                exact struct_kind_deref t hst
            · cases h
            · cases h
          · rename_i hn
            refine step _ _ hc h ?_
            intro hh
            apply hn
            simp only [hasChildren, decide_eq_true_eq] at hh
            exact ⟨hh.1.2.2.1, hh.1.2.2.2.1, hh.1.2.2.2.2⟩

/-- While the type `t`, which has a field whose children are of type `t`
itself, is not cached, a call of `DocumentStructParse` that returns was not a
call on `t` and leaves `t` uncached. -/
theorem DocumentStructParse_avoids (env : TypeEnv) (t : GoType) (f : StructField)
    (hst : t.Kind = .Struct) (hf : f ∈ env.fieldsOf t) (hch : hasChildren f = true)
    (hself : childElem f.Typ = t) :
    ∀ (fuel : Nat) (cache : Cache) (u : GoType) (r : ParseRet), cache.Get t = none →
      DocumentStructParse env fuel cache u = .ret r →
      r.cache.Get t = none ∧ derefType u ≠ t := by
  intro fuel
  induction fuel with
  | zero => intro cache u r _ h; cases h
  | succ n ih =>
    intro cache u r hc h
    by_cases hk : (derefType u).Kind = .Struct
    · rw [DocumentStructParse_deref env (n + 1) cache u hk] at h
      obtain ⟨s, hs, _⟩ := derefType_struct u hk
      rw [hs] at h ⊢
      simp only [DocumentStructParse, GoType.Kind, ne_eq, not_true_eq_false, if_false] at h
      split at h
      · rename_i ds hds
        cases h
        refine ⟨hc, fun he => ?_⟩
        rw [he, hc] at hds
        cases hds
      · split at h
        · rename_i r2 hr2
          have herr := parseFields_no_error (DocumentStructParse env n) _
            (fun c v q hv hq => DocumentStructParse_struct_no_error env n c v q hv hq)
            _ _ _ _ hr2
          obtain ⟨g1, g2⟩ := parseFields_avoids t hst (DocumentStructParse env n) ih _ _ _ _ _
            hc hr2
          have hne : GoType.struct s ≠ t := by
            intro he
            obtain ⟨i, hi⟩ := List.mem_iff_getElem?.mp hf
            have hmem : (i, f) ∈ indexed (env.fieldsOf (GoType.struct s)) := by
              rw [he]; exact (mem_indexed _ _ _).mpr hi
            exact g2 herr (i, f) hmem ⟨hch, hself⟩
          refine ⟨?_, hne⟩
          split at h
          · cases h; exact g1
          · split at h
            · rename_i cache2 hset
              cases h
              simp only [Cache.Set] at hset
              split at hset
              · cases hset
              · cases hset
                simp only [Cache.Get] at g1 ⊢
                rw [mapGet_mapSet_other _ _ _ _ (fun e => hne e.symm)]
                exact g1
            · cases h
            · cases h
        · cases h
        · cases h
    · rw [DocumentStructParse_not_struct env n cache u hk] at h
      cases h
      refine ⟨hc, fun he => hk ?_⟩
      rw [he]; exact hst

/-- C19. A struct type `t` that contains itself never parses: when a field
of `t` has a storage name, no relation annotation and, after one slice layer
and one pointer layer are stripped, the type `t` itself, then from a cache
that does not hold `t` no depth of nested calls makes `DocumentStructParse(t)`
return; the call on `t` calls itself on `t` before `t` is cached. -/
theorem DocumentStructParse_self_nested_never_returns (env : TypeEnv) (t : GoType)
    (f : StructField) (hst : t.Kind = .Struct) (hf : f ∈ env.fieldsOf t)
    (hch : hasChildren f = true) (hself : childElem f.Typ = t)
    (cache : Cache) (hc : cache.Get t = none) :
    ¬ ∃ fuel r, DocumentStructParse env fuel cache t = .ret r := by
  rintro ⟨fuel, r, h⟩
  exact (DocumentStructParse_avoids env t f hst hf hch hself fuel cache t r hc h).2
    (struct_kind_deref t hst)

/-- The tree node `Node` with the field `Children []*Node`, stored as
`children`, from the empty cache; at every depth the call has not returned. -/
theorem DocumentStructParse_self_nested_never_returns_witness :
    (¬ ∃ fuel r, DocumentStructParse nodeEnv fuel [] (.struct "Node") = .ret r)
    ∧ DocumentStructParse nodeEnv 1000 [] (.struct "Node") = .diverge :=
  ⟨DocumentStructParse_self_nested_never_returns nodeEnv (.struct "Node")
      ⟨"Children", "", "children", "", .slice (.ptr (.struct "Node"))⟩ rfl (by decide) (by decide)
      rfl [] rfl,
   DocumentStructParse_Node_diverges 1000⟩

/-! ## Restore against delete -/

theorem mapSet_length_pos {α β : Type} [DecidableEq α] (m : List (α × β)) (k : α) (v : β) :
    (mapSet m k v).length ≠ 0 := by
  cases m with
  | nil => simp [mapSet]
  | cons p rest =>
    obtain ⟨k2, v2⟩ := p
    by_cases h : k2 = k <;> simp [mapSet, h]

theorem mapSet_ne_nil {α β : Type} [DecidableEq α] (m : List (α × β)) (k : α) (v : β) :
    mapSet m k v ≠ [] := by
  intro h
  exact mapSet_length_pos m k v (by rw [h]; rfl)

theorem mapSet_nil {α β : Type} [DecidableEq α] (k : α) (v : β) :
    mapSet ([] : List (α × β)) k v = [(k, v)] := rfl

/-- `restoreUpdate` is nil exactly when `deleteUpdate` is nil. -/
theorem Query.restoreUpdate_nil_iff (query : Query) (documentStruct : DocumentStruct)
    (now : Val) (hds : query.Model.DocumentStruct = .ret documentStruct) :
    query.restoreUpdate = .ret none ↔ query.deleteUpdate now = .ret none := by
  simp only [Query.restoreUpdate, Query.deleteUpdate, hds]
  cases h1 : mapGet documentStruct "Deleted" with
  | none =>
    cases h2 : mapGet documentStruct "DeletedAt" with
    | none => simp
    | some stamp =>
      by_cases hd : stamp.BSON = ""
      · simp [hd]
      · simp [hd, mapSet]
  | some flag =>
    by_cases hb : flag.BSON = ""
    · cases h2 : mapGet documentStruct "DeletedAt" with
      | none => simp [hb]
      | some stamp =>
        by_cases hd : stamp.BSON = ""
        · simp [hb, hd]
        · simp [hb, hd, mapSet]
    · cases h2 : mapGet documentStruct "DeletedAt" with
      | none => simp [hb, mapSet]
      | some stamp =>
        by_cases hd : stamp.BSON = ""
        · simp [hb, hd, mapSet]
        · simp [hb, hd, mapSet_nil, mapSet_ne_nil]

/-- C20. For a record type that declares both a `Deleted` flag (storage name
`b`) and a `DeletedAt` timestamp (storage name `d`), `deleteUpdate` sets both
fields and `restoreUpdate` is `{"$unset": {d: 1}}` alone: the entry
`$set {b: false}` built for the flag is discarded when the second block
assigns a fresh map to `update`.  With the flag alone `restoreUpdate` is
`{"$set": {b: false}}`, and it is nil exactly when `deleteUpdate` is nil. -/
theorem Query.restoreUpdate_drops_flag_reset (query : Query) (documentStruct : DocumentStruct)
    (flag stamp : DocumentStructField) (now : Val)
    (hds : query.Model.DocumentStruct = .ret documentStruct)
    (hflag : mapGet documentStruct "Deleted" = some flag) (hb : flag.BSON ≠ "")
    (hstamp : mapGet documentStruct "DeletedAt" = some stamp) (hd : stamp.BSON ≠ "") :
    query.deleteUpdate now
      = .ret (some [("$set", .msi (mapSet [(flag.BSON, .lit (.bool true))] stamp.BSON (.lit now)))])
    ∧ query.restoreUpdate = .ret (some [("$unset", .msi [(stamp.BSON, .lit (.int .int 1))])])
    ∧ (match query.restoreUpdate with
        | .ret (some update) => mapGet update "$set"
        | _ => none) = none
    ∧ (query.restoreUpdate = .ret none ↔ query.deleteUpdate now = .ret none) := by
  have h2 : query.restoreUpdate
      = .ret (some [("$unset", .msi [(stamp.BSON, .lit (.int .int 1))])]) := by
    simp [Query.restoreUpdate, hds, hflag, hstamp, hb, hd, mapSet]
  refine ⟨?_, h2, ?_, Query.restoreUpdate_nil_iff query documentStruct now hds⟩
  · simp [Query.deleteUpdate, hds, hflag, hstamp, hb, hd, mapSet_nil, mapSet_ne_nil]
  · rw [h2]; simp [mapGet]

/-- Metadata of a record type with a `Deleted` flag stored as `deleted` and a
`DeletedAt` timestamp stored as `deleted_at`. -/
def bothDeleteStruct : DocumentStruct :=
  [("ID", .mk 0 "" false "_id" false 0 "" "" []),
   ("Deleted", .mk 1 "" false "deleted" true 0 "" "" []),
   ("DeletedAt", .mk 2 "" false "deleted_at" true 0 "" "" [])]

/-- A model whose record type has the metadata `bothDeleteStruct`. -/
def bothDeleteModel : ModelInterface :=
  { Name := "posts"
    DocumentStruct := .ret bothDeleteStruct
    DoEvent := fun _ v => .ret (none, v)
    dbFindAll := fun _ => (none, [])
    dbUpdate := fun _ _ => none
    dbInsert := fun _ => none }

/-- The type with both fields, the type with the flag alone and the type with
the timestamp alone. -/
theorem Query.restoreUpdate_drops_flag_reset_witness :
    bothDeleteModel.Query.deleteUpdate (.str .string "now")
      = .ret (some [("$set", .msi [("deleted", .lit (.bool true)),
          ("deleted_at", .lit (.str .string "now"))])])
    ∧ bothDeleteModel.Query.restoreUpdate
      = .ret (some [("$unset", .msi [("deleted_at", .lit (.int .int 1))])])
    ∧ flagDeleteModel.Query.restoreUpdate
      = .ret (some [("$set", .msi [("deleted", .lit (.bool false))])])
    ∧ softDeleteModel.Query.restoreUpdate
      = .ret (some [("$unset", .msi [("deleted_at", .lit (.int .int 1))])]) :=
  ⟨(Query.restoreUpdate_drops_flag_reset bothDeleteModel.Query bothDeleteStruct
      (.mk 1 "" false "deleted" true 0 "" "" []) (.mk 2 "" false "deleted_at" true 0 "" "" [])
      (.str .string "now") rfl rfl (by decide) rfl (by decide)).1,
   rfl, rfl, rfl⟩

end MgoModel
